import Mathlib

/-!
# Daemon task-scheduling core: worker groups and scheduler

A shallow embedding of `BatchedWorkerGroup`, `RelaxedWorkerGroup`, `WorkerGroup`
and `Scheduler` (DaemonRenderer/Source/{Include,Src}/Threading), and of the
event execution plans of `EntityAdmin` (Ruken/Source/Src/ECS).

Threads are modelled by interleaving: every thread carries a program location,
and one step of the model is one action of one thread on the shared state
(an atomic operation, a buffer read, a task call).
-/

namespace Daemon

/-! ## Tasks -/

/-- A callable is identified by a number; its invocation is recorded in a log. -/
abbrev TaskId := Nat

/-- A `Task` (a `std::function<void()>`): `none` is `Task(nullptr)`. -/
abbrev Task := Option TaskId

/-! ## Workers and the worker group base class -/

/-- Group identifiers. `Io` (written `IO` in the sources) and `Ecs` are the two
enumerators the sources use; `Other n` stands for any further value of the
enumeration. -/
inductive EWorkerGroupID where
  | Io
  | Ecs
  | Other (n : Nat)
  deriving DecidableEq, Repr

/-- A worker: its `lock` flag (`std::atomic_flag`, `true` = set) and the program
location `pc` of the routine its thread runs. -/
structure Worker (ρ : Type) where
  lock : Bool
  pc : ρ
  deriving DecidableEq, Repr

/-- The base class `WorkerGroup`. -/
structure WorkerGroup (ρ : Type) where
  m_group_id : EWorkerGroupID
  m_workers : List (Worker ρ)
  deriving DecidableEq, Repr

/-- `WorkerGroup::WorkerGroup`: `m_workers.resize(in_workers_count)`.
The state of a default constructed worker (`lock0`, `pc0`) is a parameter. -/
def WorkerGroup.new {ρ : Type} (lock0 : Bool) (pc0 : ρ)
    (in_group_id : EWorkerGroupID) (in_workers_count : Nat) : WorkerGroup ρ :=
  { m_group_id := in_group_id
    m_workers := List.replicate in_workers_count { lock := lock0, pc := pc0 } }

/-- `WorkerGroup::GetGroupSize`: `static_cast<DAEuint16>(m_workers.size())`. -/
def WorkerGroup.GetGroupSize {ρ : Type} (g : WorkerGroup ρ) : Nat :=
  g.m_workers.length % 65536

/-- `WorkerGroup::GetID`. -/
def WorkerGroup.GetID {ρ : Type} (g : WorkerGroup ρ) : EWorkerGroupID :=
  g.m_group_id

/-! ## BatchedWorkerGroup -/

/-- Program locations of `BatchedWorkerGroup::WorkerRoutine`.

* `start`: the thread exists, the first `lock.test_and_set` is still to come;
* `spin`: in one of the two `while (lock.test_and_set()) {}` loops;
* `check`: at the loop test `m_living.load()`;
* `fetch`: at `m_tasks[m_cursor.fetch_add(1)]`;
* `call t`: holds the non-null task `t`, `task()` is still to come;
* `park`: holds a null task, the `lock.test_and_set` of the else branch is
  still to come;
* `done`: the routine has returned;
* `fault`: the routine indexed `m_tasks` past its end. -/
inductive BPc where
  | start
  | spin
  | check
  | fetch
  | call (t : TaskId)
  | park
  | done
  | fault
  deriving DecidableEq, Repr

/-- A worker of a batched group. -/
abbrev BWorker := Worker BPc

/-- State of a `BatchedWorkerGroup`, with the log of the task calls made so far
(oldest first). The cursor is a natural number: a `fetch_add` past the end of
the buffer stops the worker, so the cursor stays within the buffer length plus
the number of workers, far from the range of `std::size_t`. -/
structure BatchedWorkerGroup extends WorkerGroup BPc where
  m_cursor : Nat
  m_living : Bool
  m_tasks : List Task
  log : List TaskId
  deriving DecidableEq, Repr

namespace BatchedWorkerGroup

/-- `BatchedWorkerGroup::BatchedWorkerGroup`: cursor 0, living, empty buffer, and
every worker's thread started on `WorkerRoutine`. `lock0` is the state of a
default constructed `lock`. -/
def new (lock0 : Bool) (in_group_id : EWorkerGroupID) (in_workers_count : Nat) :
    BatchedWorkerGroup :=
  { toWorkerGroup := WorkerGroup.new lock0 BPc.start in_group_id in_workers_count
    m_cursor := 0
    m_living := true
    m_tasks := []
    log := [] }

/-- Replace worker `i`. -/
def setWorker (g : BatchedWorkerGroup) (i : Nat) (w : BWorker) : BatchedWorkerGroup :=
  { g with m_workers := g.m_workers.set i w }

/-- One action of the thread of worker `i` in `WorkerRoutine`.

`test_and_set` sets the flag and returns its previous value, so the step that
leaves a spin loop finds the flag clear and leaves it set. -/
def WorkerRoutine (g : BatchedWorkerGroup) (i : Nat) : BatchedWorkerGroup :=
  match g.m_workers[i]? with
  | none => g
  | some w =>
    match w.pc with
    | .start => g.setWorker i { lock := true, pc := .spin }
    | .spin =>
      if w.lock then g
      else g.setWorker i { lock := true, pc := .check }
    | .check =>
      if g.m_living then g.setWorker i { w with pc := .fetch }
      else g.setWorker i { w with pc := .done }
    | .fetch =>
      let g1 := { g with m_cursor := g.m_cursor + 1 }
      match g.m_tasks[g.m_cursor]? with
      | none => g1.setWorker i { w with pc := .fault }
      | some none => g1.setWorker i { w with pc := .park }
      | some (some t) => g1.setWorker i { w with pc := .call t }
    | .call t => { g with log := g.log ++ [t] }.setWorker i { w with pc := .check }
    | .park => g.setWorker i { lock := true, pc := .spin }
    | .done => g
    | .fault => g

/-- The loop of `SetBatch` that appends the end markers: `n` more of them. -/
def addEndMarkers : Nat → List Task → List Task
  | 0, buf => buf
  | n + 1, buf => addEndMarkers n (buf ++ [none])

/-- `BatchedWorkerGroup::SetBatch`: copy the tasks, then one end marker per
worker. -/
def SetBatch (g : BatchedWorkerGroup) (in_new_tasks : List Task) : BatchedWorkerGroup :=
  { g with m_tasks := addEndMarkers g.m_workers.length in_new_tasks }

/-- `worker.lock.clear()`. -/
def clearLock (w : BWorker) : BWorker := { w with lock := false }

/-- `BatchedWorkerGroup::ConsumeBatch`: store 0 in the cursor, then clear the
lock of every worker. -/
def ConsumeBatch (g : BatchedWorkerGroup) : BatchedWorkerGroup :=
  { g with m_cursor := 0, m_workers := g.m_workers.map clearLock }

/-- The part of `~BatchedWorkerGroup` that writes the state: clear the living
flag, then clear the lock of every worker (the joins that follow only wait). -/
def Teardown (g : BatchedWorkerGroup) : BatchedWorkerGroup :=
  { g with m_living := false, m_workers := g.m_workers.map clearLock }

/-! ### Interleavings -/

/-- Atomic actions on a batched group: a worker thread's next action, and the
single writes the calling thread performs in `SetBatch`, `ConsumeBatch` and
the destructor. -/
inductive Event where
  | step (i : Nat)
  | setBatch (ts : List Task)
  | storeCursor
  | clear (i : Nat)
  | stopLiving
  deriving DecidableEq, Repr

/-- Effect of one event. -/
def apply (g : BatchedWorkerGroup) : Event → BatchedWorkerGroup
  | .step i => g.WorkerRoutine i
  | .setBatch ts => g.SetBatch ts
  | .storeCursor => { g with m_cursor := 0 }
  | .clear i =>
    match g.m_workers[i]? with
    | none => g
    | some w => g.setWorker i (clearLock w)
  | .stopLiving => { g with m_living := false }

/-- Run a schedule, first event first. -/
def run (g : BatchedWorkerGroup) (es : List Event) : BatchedWorkerGroup :=
  es.foldl apply g

/-- Events of the calling thread (everything but a worker's own step). -/
def Event.isMain : Event → Bool
  | .step _ => false
  | _ => true

/-- The `clear` events of the loop over the workers, from index `k`, `n` of them. -/
def clearsFrom : Nat → Nat → List Event
  | _, 0 => []
  | k, n + 1 => Event.clear k :: clearsFrom (k + 1) n

/-- The events of one `ConsumeBatch` call on a group of `W` workers, in
program order. -/
def consumeProgram (W : Nat) : List Event :=
  Event.storeCursor :: clearsFrom 0 W

/-- The events of the destructor's writes on a group of `W` workers. -/
def teardownProgram (W : Nat) : List Event :=
  Event.stopLiving :: clearsFrom 0 W

/-- A worker is blocked: it spins on its set lock. -/
def blocked (w : BWorker) : Bool :=
  w.pc == .spin && w.lock

/-- A worker can act: it is neither blocked, nor returned, nor faulted. -/
def enabled (w : BWorker) : Bool :=
  match w.pc with
  | .spin => !w.lock
  | .done => false
  | .fault => false
  | _ => true

/-- No worker can take a further step. -/
def quiescent (g : BatchedWorkerGroup) : Bool :=
  g.m_workers.all fun w => !enabled w

/-- Every worker is blocked on its lock. -/
def allBlocked (g : BatchedWorkerGroup) : Bool :=
  g.m_workers.all blocked

/-- The indices handed out by `fetch_add` along a schedule, in step order, each
with the worker that received it. -/
def claims : BatchedWorkerGroup → List Event → List (Nat × Nat)
  | _, [] => []
  | g, e :: es =>
    let rest := claims (g.apply e) es
    match e with
    | .step i =>
      match g.m_workers[i]? with
      | some w => if w.pc = .fetch then (i, g.m_cursor) :: rest else rest
      | none => rest
    | _ => rest

/-- An event of a batch round in progress: anything but a cursor reset or a new
upload. -/
def Event.inRound : Event → Bool
  | .storeCursor => false
  | .setBatch _ => false
  | _ => true

/-- An event that is a worker step or a whole `SetBatch` call. -/
def Event.isStepOrSetBatch : Event → Bool
  | .step _ => true
  | .setBatch _ => true
  | _ => false

/-- Every worker of the group sleeps: it spins on its set lock. -/
def asleep (g : BatchedWorkerGroup) : Prop :=
  ∀ w ∈ g.m_workers, w = (⟨true, .spin⟩ : BWorker)

/-- A worker that is past its lock and has not read a null task since. -/
def awake (w : BWorker) : Bool :=
  match w.pc with
  | .spin => !w.lock
  | .check => true
  | .fetch => true
  | .call _ => true
  | _ => false

/-- The worker holds task `t` and has not called it yet. -/
def holds (t : TaskId) (w : BWorker) : Bool :=
  w.pc == .call t

/-- The worker is inside its routine: started, not returned, not faulted. -/
def running (w : BWorker) : Bool :=
  match w.pc with
  | .start => false
  | .done => false
  | .fault => false
  | _ => true

/-- Invariant of one batch round on a group of `W` workers with buffer `buf`,
entered with log `L0`, after the cursor store and the first `k` lock clears of
`ConsumeBatch`: the null entries claimed so far plus the workers still awake
make up the `k` workers woken, and the calls logged or pending are the
non-null entries claimed. -/
structure RoundInv (W : Nat) (buf : List Task) (L0 : List TaskId) (k : Nat)
    (g : BatchedWorkerGroup) : Prop where
  living : g.m_living = true
  tasks : g.m_tasks = buf
  len : g.m_workers.length = W
  kle : k ≤ W
  pcs : ∀ w ∈ g.m_workers, running w = true
  unwoken : ∀ i w, k ≤ i → g.m_workers[i]? = some w → w = ⟨true, .spin⟩
  cur : g.m_cursor ≤ buf.length
  bal : (buf.take g.m_cursor).count none + g.m_workers.countP awake = k
  logc : ∀ t, g.log.count t + g.m_workers.countP (holds t)
      = L0.count t + (buf.take g.m_cursor).count (some t)

/-- The schedules `ess` are successive batch rounds from `g`: in each, the
calling thread performs exactly one `ConsumeBatch`, interleaved with worker
steps, and the round ends with no worker able to step. -/
def areRounds : BatchedWorkerGroup → List (List Event) → Bool
  | _, [] => true
  | g, es :: ess =>
    decide (es.filter Event.isMain = consumeProgram g.m_workers.length)
      && quiescent (g.run es) && areRounds (g.run es) ess

/-- Run successive schedules. -/
def runAll (g : BatchedWorkerGroup) (ess : List (List Event)) : BatchedWorkerGroup :=
  ess.foldl run g

/-- A group of `W` workers in which every worker has executed its first
`test_and_set` and nothing else has happened: all workers sleep. -/
def sleeping (W : Nat) : BatchedWorkerGroup :=
  (new true .Ecs W).run ((List.range W).map Event.step)

/-- A schedule of one round for two workers and three tasks: the events of
`ConsumeBatch` interleaved with the steps of both workers until both sleep. -/
def demoRound : List Event :=
  [.storeCursor, .step 1, .clear 0, .step 0, .step 0, .step 0, .clear 1, .step 1, .step 1,
   .step 1, .step 0, .step 1, .step 0, .step 0, .step 0, .step 1, .step 1, .step 1, .step 0,
   .step 0, .step 1, .step 0]

/-- A schedule of one round for one worker that runs until the worker sleeps
on the first null entry it reads. -/
def shortRound : List Event :=
  [.storeCursor, .clear 0, .step 0, .step 0, .step 0, .step 0, .step 0]

/-- Number of actions a worker can still take before it next fetches a task or
blocks. -/
def rank (w : BWorker) : Nat :=
  match w.pc with
  | .spin => if w.lock then 0 else 3
  | .check => 2
  | .fetch => 1
  | .call _ => 3
  | .park => 1
  | _ => 0

/-- A bound on the number of worker actions left in the round: three per
unclaimed buffer slot, plus the rank of every worker. -/
def fuel (g : BatchedWorkerGroup) : Nat :=
  3 * (g.m_tasks.length - g.m_cursor) + (g.m_workers.map rank).sum

/-- The task calls made along a schedule, in step order, each with the worker
that made it. -/
def calls : BatchedWorkerGroup → List Event → List (Nat × TaskId)
  | _, [] => []
  | g, e :: es =>
    let rest := calls (g.apply e) es
    match e with
    | .step i =>
      match g.m_workers[i]? with
      | some w =>
        match w.pc with
        | .call t => (i, t) :: rest
        | _ => rest
      | none => rest
    | _ => rest

/-- One iteration of the `while (m_living.load())` loop by worker `i`, taken
without interference: the loop test, the fetch, and the call or the
`test_and_set` of the else branch. -/
def iteration (g : BatchedWorkerGroup) (i : Nat) : BatchedWorkerGroup :=
  ((g.WorkerRoutine i).WorkerRoutine i).WorkerRoutine i

/-- The worker is inside the loop body or at its test: it claims slots or
calls tasks. -/
def active (w : BWorker) : Bool :=
  match w.pc with
  | .check => true
  | .fetch => true
  | .call _ => true
  | .park => true
  | _ => false

/-- Lock discipline of a round after `k` lock clears: a worker whose lock is
clear is in a spin loop, and the workers not yet woken sleep. -/
structure Tidy (k : Nat) (g : BatchedWorkerGroup) : Prop where
  clearSpin : ∀ w ∈ g.m_workers, w.lock = false → w.pc = .spin
  unwoken : ∀ i w, k ≤ i → g.m_workers[i]? = some w → w = ⟨true, .spin⟩

/-- The calling-thread events of the schedule are the first events of one
`ConsumeBatch`, in program order (the call may still be in progress). -/
def inConsume (W : Nat) (es : List Event) : Bool :=
  (es.filter Event.isMain).isPrefixOf (consumeProgram W)
/-- The states of a woken sleeper on its way out of the routine: about to leave
the spin loop, at the loop test, or returned. -/
def Leaving (w : BWorker) : Prop :=
  w = ⟨false, .spin⟩ ∨ w = ⟨true, .check⟩ ∨ w = ⟨true, .done⟩

/-- Worker `i` during the lock clears of the destructor, `k` of them done: still
asleep while its own clear is to come, on its way out afterwards. -/
def Retiring (i k : Nat) (g : BatchedWorkerGroup) : Prop :=
  (k ≤ i ∧ g.m_workers[i]? = some ⟨true, .spin⟩)
    ∨ (i < k ∧ ∃ w, g.m_workers[i]? = some w ∧ Leaving w)
/-- A schedule of two workers on a batch of two tasks up to the start of a
teardown: `ConsumeBatch`, worker 0 claims and calls the first task and comes
back to the fetch, worker 1 wakes and reaches the fetch. One task of two is
claimed. -/
def midBatch : List Event :=
  [.storeCursor, .clear 0, .clear 1, .step 0, .step 0, .step 0, .step 0, .step 0, .step 1,
   .step 1]

/-- The worker steps that follow the teardown writes after `midBatch`: worker 0
claims the second task, worker 1 claims a null task and goes to sleep, worker
0 calls its task and returns. -/
def afterTeardown : List Event :=
  [.step 0, .step 1, .step 1, .step 0, .step 0]

/-- First use of a group of one worker where the calling thread runs before the
worker thread: `SetBatch`, the whole `ConsumeBatch`, and only then the first
two steps of the worker. -/
def earlyConsume : List Event :=
  [.setBatch [some 7], .storeCursor, .clear 0, .step 0, .step 0]

/-- First use of a group of one worker where the worker thread takes its first
step before the calling thread runs, and then runs until it sleeps again. -/
def lateConsume : List Event :=
  [.step 0, .setBatch [some 7], .storeCursor, .clear 0, .step 0, .step 0, .step 0, .step 0,
   .step 0, .step 0, .step 0]
/-- Two workers, three tasks, worker 0 woken and at the loop test. -/
def atLoopTest : BatchedWorkerGroup :=
  ((sleeping 2).SetBatch [some 10, some 11, some 12]).run [.storeCursor, .clear 0, .step 0]

/-- A teardown of two sleeping workers interleaved with their steps. -/
def quietTeardown : List Event :=
  [.stopLiving, .step 0, .clear 0, .step 0, .clear 1, .step 0, .step 1, .step 1]

/-- A schedule on a group of `W` workers in which worker `i` is woken by a
`ConsumeBatch` and reaches its first fetch: its first `test_and_set`, the
whole `ConsumeBatch`, then leaving the spin loop, the loop test, the fetch. -/
def wakeUp (W i : Nat) : List Event :=
  Event.step i :: (consumeProgram W ++ [.step i, .step i, .step i])

/-- Every claimed slot lies before the `W`-th null entry of the buffer: fewer
than `W` null entries precede it. -/
def Bounded (W : Nat) (buf : List Task) (g : BatchedWorkerGroup) : Prop :=
  ∀ j, j < g.m_cursor → (buf.take j).count none < W

/-- A round of one worker on the batch `[t10, null, t11]`: the worker calls
task 10, reads the null entry of slot 1 and sleeps. -/
def nullRound : List Event :=
  [.storeCursor, .clear 0, .step 0, .step 0, .step 0, .step 0, .step 0, .step 0, .step 0,
   .step 0]

/-- Before any `ConsumeBatch`: nothing logged, cursor 0, and every worker has
either not executed anything yet or sleeps. -/
structure Dormant (g : BatchedWorkerGroup) : Prop where
  log : g.log = []
  cur : g.m_cursor = 0
  pcs : ∀ w ∈ g.m_workers, w.pc = .start ∨ w = ⟨true, .spin⟩

end BatchedWorkerGroup

/-! ## RelaxedWorkerGroup -/

/-- Modelled from the spec: `ThreadSafeLockQueue<Task>`, whose source file is not
among the sources at hand. It is the thread-safe unbounded FIFO queue of a
relaxed group: the queued tasks, oldest first, and whether the queue has been
released. -/
structure ThreadSafeLockQueue where
  m_queue : List Task
  m_released : Bool
  deriving DecidableEq, Repr

/-- Modelled from the spec: `ThreadSafeLockQueue::Enqueue` pushes one task at
the back of the queue. -/
def ThreadSafeLockQueue.Enqueue (q : ThreadSafeLockQueue) (t : Task) : ThreadSafeLockQueue :=
  { q with m_queue := q.m_queue ++ [t] }

/-- Program locations of `RelaxedWorkerGroup::WorkerRoutine`: at
`m_tasks.Dequeue(task)`, holding a dequeued task before `task()`, returned,
or stopped by calling an empty task. -/
inductive RPc where
  | dequeue
  | call (t : Task)
  | done
  | fault
  deriving DecidableEq, Repr

/-- State of a `RelaxedWorkerGroup`, with the log of the task calls made. -/
structure RelaxedWorkerGroup extends WorkerGroup RPc where
  m_tasks : ThreadSafeLockQueue
  log : List TaskId
  deriving DecidableEq, Repr

/-- `RelaxedWorkerGroup::RelaxedWorkerGroup`: an empty queue, and every worker
started on `WorkerRoutine`. -/
def RelaxedWorkerGroup.new (lock0 : Bool) (in_group_id : EWorkerGroupID)
    (in_workers_count : Nat) : RelaxedWorkerGroup :=
  { toWorkerGroup := WorkerGroup.new lock0 RPc.dequeue in_group_id in_workers_count
    m_tasks := { m_queue := [], m_released := false }
    log := [] }

/-- `RelaxedWorkerGroup::EnqueueTask`: `m_tasks.Enqueue(in_task)`. -/
def RelaxedWorkerGroup.EnqueueTask (g : RelaxedWorkerGroup) (in_task : Task) :
    RelaxedWorkerGroup :=
  { g with m_tasks := g.m_tasks.Enqueue in_task }

/-! ### Interleavings of a relaxed group -/

/-- Outcome of a `Dequeue` call on the queue: the termination signal, the caller
has to wait, or an item together with the queue left. -/
inductive DequeueResult where
  | closed
  | waiting
  | item (t : Task) (q : ThreadSafeLockQueue)
  deriving DecidableEq, Repr

/-- Modelled from the spec: `ThreadSafeLockQueue::Dequeue`, the blocking pop. A
released queue returns the termination signal; otherwise the oldest task is
popped, and the caller waits while the queue is empty. -/
def ThreadSafeLockQueue.Dequeue (q : ThreadSafeLockQueue) : DequeueResult :=
  if q.m_released then .closed
  else
    match q.m_queue with
    | [] => .waiting
    | t :: rest => .item t { q with m_queue := rest }

/-- Modelled from the spec: `ThreadSafeLockQueue::Release` closes the queue. -/
def ThreadSafeLockQueue.Release (q : ThreadSafeLockQueue) : ThreadSafeLockQueue :=
  { q with m_released := true }

/-- Modelled from the spec: `ThreadSafeLockQueue::WaitUntilEmpty` can return
exactly when the queue holds no task. -/
def ThreadSafeLockQueue.WaitUntilEmpty (q : ThreadSafeLockQueue) : Bool :=
  q.m_queue.isEmpty

namespace RelaxedWorkerGroup

/-- Replace worker `i`. -/
def setWorker (g : RelaxedWorkerGroup) (i : Nat) (w : Worker RPc) : RelaxedWorkerGroup :=
  { g with m_workers := g.m_workers.set i w }

/-- One action of the thread of worker `i` in `RelaxedWorkerGroup::WorkerRoutine`:
the `Dequeue` of the loop test, or the call of the task it holds. Calling an
empty task stops the thread. -/
def WorkerRoutine (g : RelaxedWorkerGroup) (i : Nat) : RelaxedWorkerGroup :=
  match g.m_workers[i]? with
  | none => g
  | some w =>
    match w.pc with
    | .dequeue =>
      match g.m_tasks.Dequeue with
      | .closed => g.setWorker i { w with pc := .done }
      | .waiting => g
      | .item t q => { g with m_tasks := q }.setWorker i { w with pc := .call t }
    | .call none => g.setWorker i { w with pc := .fault }
    | .call (some t) => { g with log := g.log ++ [t] }.setWorker i { w with pc := .dequeue }
    | .done => g
    | .fault => g

/-- Program locations of `~RelaxedWorkerGroup`: not called yet, in
`WaitUntilEmpty`, before the `Detach` of worker `k`, before `Release`,
returned. -/
inductive DtorPc where
  | alive
  | wait
  | detach (k : Nat)
  | release
  | returned
  deriving DecidableEq, Repr

/-- A relaxed group together with the program location of its destructor. -/
structure Life where
  group : RelaxedWorkerGroup
  dtor : DtorPc
  deriving DecidableEq, Repr

/-- One action of the thread that runs `~RelaxedWorkerGroup`. `Detach` gives up
the thread handle and changes nothing of the group state. -/
def Destructor (s : Life) : Life :=
  match s.dtor with
  | .alive => { s with dtor := .wait }
  | .wait => if s.group.m_tasks.WaitUntilEmpty then { s with dtor := .detach 0 } else s
  | .detach k =>
    if k < s.group.m_workers.length then { s with dtor := .detach (k + 1) }
    else { s with dtor := .release }
  | .release =>
    { group := { s.group with m_tasks := s.group.m_tasks.Release }, dtor := .returned }
  | .returned => s

/-- Atomic actions on a relaxed group and its destructor: a producer enqueues a task, a worker
thread takes its next action, the destroying thread takes its next action. -/
inductive Action where
  | enqueue (t : Task)
  | step (i : Nat)
  | dtor
  deriving DecidableEq, Repr

/-- Effect of one action. -/
def perform (s : Life) : Action → Life
  | .enqueue t => { s with group := s.group.EnqueueTask t }
  | .step i => { s with group := s.group.WorkerRoutine i }
  | .dtor => Destructor s

/-- Run a schedule, first event first. -/
def play (s : Life) (es : List Action) : Life :=
  es.foldl perform s

/-- The tasks enqueued along a schedule, in order. -/
def enqueued : List Action → List Task
  | [] => []
  | .enqueue t :: es => t :: enqueued es
  | _ :: es => enqueued es

/-- The task a worker step takes from the queue, if it takes one. -/
def claimOf (g : RelaxedWorkerGroup) (i : Nat) : Option Task :=
  match g.m_workers[i]? with
  | some w =>
    match w.pc, g.m_tasks.Dequeue with
    | .dequeue, .item t _ => some t
    | _, _ => none
  | none => none

/-- The tasks taken from the queue along a schedule, in claim order. -/
def claimed : Life → List Action → List Task
  | _, [] => []
  | s, e :: es =>
    let rest := claimed (perform s e) es
    match e with
    | .step i =>
      match claimOf s.group i with
      | some t => t :: rest
      | none => rest
    | _ => rest

/-- The schedule holds no enqueue. -/
def noEnqueue (es : List Action) : Bool :=
  es.all fun e =>
    match e with
    | .enqueue _ => false
    | _ => true

/-- A fresh group that is alive. -/
def fresh (lock0 : Bool) (id : EWorkerGroupID) (n : Nat) : Life :=
  { group := RelaxedWorkerGroup.new lock0 id n, dtor := .alive }

/-- A schedule of a group of two workers with three pending tasks: both workers
take a task, the destructor is called and waits, worker 0 calls its task and
takes the last one, and the destructor runs to its end. -/
def teardownDemo : List Action :=
  [.step 0, .step 1, .dtor, .dtor, .step 0, .step 0, .dtor, .dtor, .dtor, .dtor, .dtor]

/-- A group of two workers with tasks 1, 2, 3 pending. -/
def pending3 : RelaxedWorkerGroup :=
  (((RelaxedWorkerGroup.new true .Io 2).EnqueueTask (some 1)).EnqueueTask (some 2)).EnqueueTask
    (some 3)

/-- Past its wait, the destructor sees an empty queue. -/
def Drained (s : Life) : Prop :=
  s.dtor ≠ .alive → s.dtor ≠ .wait → s.group.m_tasks.m_queue = []

/-- The queue is released only by the last step of the destructor. -/
def Unreleased (s : Life) : Prop :=
  s.dtor ≠ .returned → s.group.m_tasks.m_released = false

end RelaxedWorkerGroup

/-! ## Scheduler -/

/-- A group owned by the scheduler (a `WorkerGroup*` to one of the two final
classes). -/
inductive AnyGroup where
  | relaxed (g : RelaxedWorkerGroup)
  | batched (g : BatchedWorkerGroup)
  deriving DecidableEq, Repr

/-- `GetGroupSize` through the base class pointer. -/
def AnyGroup.GetGroupSize : AnyGroup → Nat
  | .relaxed g => g.toWorkerGroup.GetGroupSize
  | .batched g => g.toWorkerGroup.GetGroupSize

/-- The queue of a relaxed group; a batched group has none. -/
def AnyGroup.queue : AnyGroup → Option (List Task)
  | .relaxed g => some g.m_tasks.m_queue
  | .batched _ => none

/-- `Scheduler`: the map from group identifier to group. -/
structure Scheduler where
  m_groups : List (EWorkerGroupID × AnyGroup)
  deriving DecidableEq, Repr

namespace Scheduler

/-- `std::unordered_map::try_emplace`: insert unless the key is present. -/
def try_emplace (m : List (EWorkerGroupID × AnyGroup)) (k : EWorkerGroupID) (v : AnyGroup) :
    List (EWorkerGroupID × AnyGroup) :=
  match m.lookup k with
  | some _ => m
  | none => m ++ [(k, v)]

/-- `Scheduler::Scheduler` on a machine where `std::thread::hardware_concurrency()`
returns `hardware_concurrency` (an `unsigned int`, 32 bits): the subtraction is
unsigned, the cast keeps the low 16 bits. -/
def new (lock0 : Bool) (hardware_concurrency : Nat) : Scheduler :=
  let concurrency := (hardware_concurrency + 4294967295) % 4294967296 % 65536
  let io_threads := concurrency / 4 % 65536
  let ecs_threads := (concurrency - io_threads) % 65536
  let m1 := try_emplace [] .Io (.relaxed (RelaxedWorkerGroup.new lock0 .Io io_threads))
  { m_groups := try_emplace m1 .Ecs (.batched (BatchedWorkerGroup.new lock0 .Ecs ecs_threads)) }

/-- `Scheduler::GetWorkerGroupSize`: `m_groups.at(in_worker_group)->GetGroupSize()`;
`none` when `at` finds no such key. -/
def GetWorkerGroupSize (s : Scheduler) (in_worker_group : EWorkerGroupID) : Option Nat :=
  (s.m_groups.lookup in_worker_group).map AnyGroup.GetGroupSize

/-- `Scheduler::EnqueueTask`: the body holds one commented-out line and nothing
else, so the call leaves the scheduler as it is. -/
def EnqueueTask (s : Scheduler) (_in_task : Task) (_in_worker_group : EWorkerGroupID) :
    Scheduler :=
  s

/-- The queue of the group named `id`, if it is a relaxed group. -/
def queueOf (s : Scheduler) (id : EWorkerGroupID) : Option (List Task) :=
  (s.m_groups.lookup id).bind AnyGroup.queue

end Scheduler

/-! ## Entity admin: event execution plans -/

/-- Event names. `OnStart`, `OnUpdate` and `OnEnd` are the enumerators the
sources name; `Other n` stands for any further value of the enumeration. -/
inductive EEventName where
  | OnStart
  | OnUpdate
  | OnEnd
  | Other (n : Nat)
  deriving DecidableEq, Repr

/-- An event handler (an `EventHandlerBase*`), identified by a number. -/
abbrev HandlerId := Nat

/-- A system: its event handlers by event name, most recent binding first. -/
structure System where
  m_handlers : List (EEventName × HandlerId)
  deriving DecidableEq, Repr

/-- Modelled from the spec: `System::GetEventHandler` returns the handler set up
for the event, or null (`none`) when there is none. -/
def System.GetEventHandler (s : System) (in_event_name : EEventName) : Option HandlerId :=
  s.m_handlers.lookup in_event_name

/-- An instruction of the plans built by `EntityAdmin::BuildEventExecutionPlan`:
the closure `[&event_handler] { event_handler->Execute(); }`. The capture is by
reference, so the closure holds the variable `event_handler` of the loop
iteration that made it (named by the number of that iteration), and not the
pointer that variable held. -/
structure Instruction where
  event_handler : Nat
  deriving DecidableEq, Repr

/-- Calling an instruction, `event_handler->Execute()` through the captured
reference, at a moment when the variables `alive` exist (each with the loop
iteration that declared it and the pointer it holds, `none` a null pointer).
The result is the handler executed; it is `none` when the variable referred to
does not exist any more or holds null, a call without defined behaviour. -/
def Instruction.call (alive : List (Nat × Option HandlerId)) (ins : Instruction) :
    Option HandlerId :=
  (alive.lookup ins.event_handler).join

/-- Modelled from the spec: an `ExecutionPlan`, an ordered sequence of instruction
packs, each a sequence of instructions, and the pack being filled. -/
structure ExecutionPlan where
  m_instruction_packs : List (List Instruction)
  m_current_pack : List Instruction
  deriving DecidableEq, Repr

namespace ExecutionPlan

/-- Modelled from the spec: `ExecutionPlan::ResetPlan` empties the plan. -/
def ResetPlan (_p : ExecutionPlan) : ExecutionPlan :=
  { m_instruction_packs := [], m_current_pack := [] }

/-- Modelled from the spec: `ExecutionPlan::AddInstruction` adds an instruction
to the pack being filled. -/
def AddInstruction (p : ExecutionPlan) (ins : Instruction) : ExecutionPlan :=
  { p with m_current_pack := p.m_current_pack ++ [ins] }

/-- Modelled from the spec: `ExecutionPlan::EndInstructionPack` closes the pack
being filled and appends it to the plan. -/
def EndInstructionPack (p : ExecutionPlan) : ExecutionPlan :=
  { m_instruction_packs := p.m_instruction_packs ++ [p.m_current_pack], m_current_pack := [] }

end ExecutionPlan

/-- State of an `EntityAdmin`: whether a scheduler was located, the systems, the
map from event name to plan pointer (most recent binding first, `none` a null
pointer), and two records: the event names `BuildEventExecutionPlan` was
called with, and the plans executed, each with its event name and whether it
was executed asynchronously. -/
structure EntityAdmin where
  m_scheduler : Bool
  m_systems : List System
  m_execution_plans : List (EEventName × Option ExecutionPlan)
  built : List EEventName
  executed : List (EEventName × Bool × ExecutionPlan)
  deriving DecidableEq, Repr

namespace EntityAdmin

/-- The plan stored for an event name: `none` when the map has no entry or a
null pointer for it. -/
def planOf (a : EntityAdmin) (e : EEventName) : Option ExecutionPlan :=
  (a.m_execution_plans.lookup e).join

/-- State of a running `BuildEventExecutionPlan`: the plan being filled, and the
variables `event_handler` that exist, each with the loop iteration that
declared it and the pointer it holds (`none` a null pointer). -/
structure BuildState where
  execution_plan : ExecutionPlan
  alive : List (Nat × Option HandlerId)
  deriving DecidableEq, Repr

/-- Iteration `k` of the loop of `BuildEventExecutionPlan`, on `system`: the
variable `event_handler` is declared, a null pointer ends the iteration, and
otherwise the closure made of a reference to the variable is added to the plan
and the pack is closed. The variable ends with the block of the iteration. -/
def loopBody (in_event_name : EEventName) (k : Nat) (system : System) (s : BuildState) :
    BuildState :=
  let event_handler := system.GetEventHandler in_event_name
  let s1 : BuildState := { s with alive := (k, event_handler) :: s.alive }
  let s2 : BuildState :=
    match event_handler with
    | none => s1
    | some _ =>
      { s1 with
        execution_plan := (s1.execution_plan.AddInstruction ⟨k⟩).EndInstructionPack }
  { s2 with alive := s2.alive.tail }

/-- The loop of `BuildEventExecutionPlan` over the systems, from iteration `k`. -/
def loopFrom (in_event_name : EEventName) : List System → Nat → BuildState → BuildState
  | [], _, s => s
  | system :: rest, k, s => loopFrom in_event_name rest (k + 1) (loopBody in_event_name k system s)

/-- The plan the loop of `BuildEventExecutionPlan` makes of the plan `p`. -/
def addHandlers (in_event_name : EEventName) (systems : List System) (p : ExecutionPlan) :
    ExecutionPlan :=
  (loopFrom in_event_name systems 0 { execution_plan := p, alive := [] }).execution_plan

/-- The positions, counted from `k`, of the systems that have a handler for the
event. -/
def handled (in_event_name : EEventName) : List System → Nat → List Nat
  | [], _ => []
  | system :: rest, k =>
    if (system.GetEventHandler in_event_name).isSome then k :: handled in_event_name rest (k + 1)
    else handled in_event_name rest (k + 1)

/-- `EntityAdmin::BuildEventExecutionPlan`: take the plan of the event, a new one
if the pointer is null, reset it, and add one instruction pack per system that
has a handler for the event. -/
def BuildEventExecutionPlan (a : EntityAdmin) (in_event_name : EEventName) : EntityAdmin :=
  let execution_plan : ExecutionPlan :=
    match a.planOf in_event_name with
    | none => { m_instruction_packs := [], m_current_pack := [] }
    | some p => p
  { a with
    m_execution_plans :=
      (in_event_name, some (addHandlers in_event_name a.m_systems execution_plan.ResetPlan))
        :: a.m_execution_plans
    built := a.built ++ [in_event_name] }

/-- The lookup `m_execution_plans[in_event_name]`: it leaves a null entry when
the map had none for the name. -/
def touch (a : EntityAdmin) (in_event_name : EEventName) : EntityAdmin :=
  match a.m_execution_plans.lookup in_event_name with
  | none => { a with m_execution_plans := (in_event_name, none) :: a.m_execution_plans }
  | some _ => a

/-- `EntityAdmin::ExecuteEvent`: build the plan if none is stored, then execute
the stored plan, asynchronously when a scheduler is available. -/
def ExecuteEvent (a : EntityAdmin) (in_event_name : EEventName) : EntityAdmin :=
  let a0 := a.touch in_event_name
  let a1 : EntityAdmin :=
    match a0.planOf in_event_name with
    | none => a0.BuildEventExecutionPlan in_event_name
    | some _ => a0
  match a1.planOf in_event_name with
  | none => a1
  | some execution_plan =>
    { a1 with executed := a1.executed ++ [(in_event_name, a1.m_scheduler, execution_plan)] }

/-- Successive `ExecuteEvent` calls. -/
def fire (a : EntityAdmin) (es : List EEventName) : EntityAdmin :=
  es.foldl ExecuteEvent a

/-- An admin before its first event, with the presence of a scheduler and its
registered systems given: no plan stored, nothing built, nothing executed. -/
def new (scheduler : Bool) (systems : List System) : EntityAdmin :=
  { m_scheduler := scheduler
    m_systems := systems
    m_execution_plans := []
    built := []
    executed := [] }
/-- Consistency of the build record with the stored plans: no name was built
twice, and the names built are those with a stored plan. -/
def Cached (a : EntityAdmin) : Prop :=
  a.built.Nodup ∧ ∀ e, e ∈ a.built ↔ (a.planOf e).isSome

/-- Three systems: handlers for `OnUpdate` and `OnStart`, for `OnEnd`, and for
`OnUpdate`. -/
def demoSystems : List System :=
  [⟨[(.OnUpdate, 1), (.OnStart, 2)]⟩, ⟨[(.OnEnd, 3)]⟩, ⟨[(.OnUpdate, 4)]⟩]

/-- One system whose only handler is `h`, for `OnUpdate`. -/
def soleSystem (h : HandlerId) : List System :=
  [⟨[(.OnUpdate, h)]⟩]

end EntityAdmin

/-! ## Auxiliary facts on lists -/

/-- Replacing one element changes a count by the difference of the two tests. -/
theorem countP_set_add {α : Type} (p : α → Bool) :
    ∀ (l : List α) (i : Nat) (x a : α), l[i]? = some a →
      (l.set i x).countP p + (if p a then 1 else 0) = l.countP p + (if p x then 1 else 0)
  | [], i, x, a, h => by simp at h
  | b :: l, 0, x, a, h => by
    simp at h
    subst h
    simp [List.countP_cons]
    omega
  | b :: l, i + 1, x, a, h => by
    simp at h
    have ih := countP_set_add p l i x a h
    simp [List.countP_cons]
    omega

/-- Replacing one element changes a sum by the difference of the two values. -/
theorem sum_map_set_add {α : Type} (f : α → Nat) :
    ∀ (l : List α) (i : Nat) (x a : α), l[i]? = some a →
      ((l.set i x).map f).sum + f a = (l.map f).sum + f x
  | [], i, x, a, h => by simp at h
  | b :: l, 0, x, a, h => by
    simp at h
    subst h
    simp
    omega
  | b :: l, i + 1, x, a, h => by
    simp at h
    have ih := sum_map_set_add f l i x a h
    simp only [List.set_cons_succ, List.map_cons, List.sum_cons]
    omega

/-- Counting in a prefix that is one element longer. -/
theorem count_take_succ {α : Type} [BEq α] [LawfulBEq α] (l : List α) (n : Nat) (a x : α)
    (h : l[n]? = some a) :
    (l.take (n + 1)).count x = (l.take n).count x + (if a == x then 1 else 0) := by
  rw [List.take_succ, h]
  simp [List.count_append, List.count_cons]

namespace BatchedWorkerGroup

/-- The round invariant survives the update of one worker, of the cursor and of
the log, when the counts stay balanced. -/
theorem RoundInv.setWorker {W buf L0 k} {g : BatchedWorkerGroup} (h : RoundInv W buf L0 k g)
    {i : Nat} {w w' : BWorker} (hw : g.m_workers[i]? = some w)
    (c : Nat) (l : List TaskId) (k' : Nat) (hk : k ≤ k') (hk' : k' ≤ W)
    (hrun : running w' = true)
    (hun : k' ≤ i → w' = ⟨true, .spin⟩)
    (hcur : c ≤ buf.length)
    (hbal : (buf.take c).count none + (if awake w' then 1 else 0) + k
          = (buf.take g.m_cursor).count none + (if awake w then 1 else 0) + k')
    (hlog : ∀ t, l.count t + (if holds t w' then 1 else 0) + (buf.take g.m_cursor).count (some t)
          = g.log.count t + (if holds t w then 1 else 0) + (buf.take c).count (some t)) :
    RoundInv W buf L0 k'
      ({ g with m_cursor := c, log := l }.setWorker i w') := by
  refine ⟨h.living, h.tasks, ?_, hk', ?_, ?_, hcur, ?_, ?_⟩
  · simpa [BatchedWorkerGroup.setWorker] using h.len
  · intro x hx
    simp only [BatchedWorkerGroup.setWorker] at hx
    rcases List.mem_or_eq_of_mem_set hx with hx | hx
    · exact h.pcs x hx
    · exact hx ▸ hrun
  · intro j x hj hx
    simp only [BatchedWorkerGroup.setWorker, List.getElem?_set] at hx
    split at hx
    · split at hx
      · cases hx; subst_vars; exact hun hj
      · cases hx
    · exact h.unwoken j x (by omega) hx
  · have := countP_set_add awake g.m_workers i w' w hw
    have := h.bal
    simp only [BatchedWorkerGroup.setWorker]
    omega
  · intro t
    have := countP_set_add (holds t) g.m_workers i w' w hw
    have := h.logc t
    have := hlog t
    simp only [BatchedWorkerGroup.setWorker]
    omega

/-- While a worker is awake, an unclaimed end marker is left: the cursor is
inside the buffer. -/
theorem RoundInv.cursor_lt {W buf L0 k} {g : BatchedWorkerGroup} (h : RoundInv W buf L0 k g)
    (H : W ≤ buf.count none) {i : Nat} {w : BWorker} (hw : g.m_workers[i]? = some w)
    (ha : awake w = true) : g.m_cursor < buf.length := by
  by_contra hc
  have h1 : buf.take g.m_cursor = buf := List.take_of_length_le (by omega)
  have h2 := h.bal
  rw [h1] at h2
  have h3 : 0 < g.m_workers.countP awake :=
    List.countP_pos_iff.mpr ⟨w, List.getElem?_mem hw, ha⟩
  have := h.kle
  omega

/-- Every worker step preserves the round invariant. -/
theorem RoundInv.step {W buf L0 k} {g : BatchedWorkerGroup} (h : RoundInv W buf L0 k g)
    (H : W ≤ buf.count none) (i : Nat) : RoundInv W buf L0 k (g.WorkerRoutine i) := by
  unfold WorkerRoutine
  cases hw : g.m_workers[i]? with
  | none => exact h
  | some w =>
    obtain ⟨lock, pc⟩ := w
    have hmem : (⟨lock, pc⟩ : BWorker) ∈ g.m_workers := List.getElem?_mem hw
    have hrun := h.pcs _ hmem
    cases pc with
    | start => simp [running] at hrun
    | done => simp [running] at hrun
    | fault => simp [running] at hrun
    | spin =>
      cases lock with
      | true => exact h
      | false =>
        refine h.setWorker hw g.m_cursor g.log k (Nat.le_refl k) h.kle rfl ?_ h.cur ?_ ?_
        · intro hk
          have := h.unwoken i _ hk hw
          simp at this
        · simp [awake]
        · intro t; simp [holds]
    | check =>
      simp only [h.living, if_true]
      refine h.setWorker hw g.m_cursor g.log k (Nat.le_refl k) h.kle rfl ?_ h.cur ?_ ?_
      · intro hk
        have := h.unwoken i _ hk hw
        simp at this
      · simp [awake]
      · intro t; simp [holds]
    | park =>
      refine h.setWorker hw g.m_cursor g.log k (Nat.le_refl k) h.kle rfl ?_ h.cur ?_ ?_
      · intro _; rfl
      · simp [awake]
      · intro t; simp [holds]
    | call t =>
      refine h.setWorker hw g.m_cursor (g.log ++ [t]) k (Nat.le_refl k) h.kle rfl ?_ h.cur ?_ ?_
      · intro hk
        have := h.unwoken i _ hk hw
        simp at this
      · simp [awake]
      · intro t'
        simp only [holds, List.count_append, List.count_cons, List.count_nil]
        by_cases htt : t = t' <;> simp [htt]
    | fetch =>
      have hlt := h.cursor_lt H hw rfl
      have hun : k ≤ i → False := by
        intro hk
        have := h.unwoken i _ hk hw
        simp at this
      obtain ⟨x, hget⟩ : ∃ x, buf[g.m_cursor]? = some x := ⟨_, List.getElem?_eq_getElem hlt⟩
      have hget2 : g.m_tasks[g.m_cursor]? = some x := by rw [h.tasks]; exact hget
      rw [hget2]
      cases x with
      | none =>
        refine h.setWorker hw (g.m_cursor + 1) g.log k (Nat.le_refl k) h.kle ?_ ?_ hlt ?_ ?_
        · rfl
        · intro hk; exact (hun hk).elim
        · rw [count_take_succ _ _ _ _ hget]; simp [awake]
        · intro t
          rw [count_take_succ _ _ _ _ hget]; simp [holds]
      | some t =>
        refine h.setWorker hw (g.m_cursor + 1) g.log k (Nat.le_refl k) h.kle ?_ ?_ hlt ?_ ?_
        · rfl
        · intro hk; exact (hun hk).elim
        · rw [count_take_succ _ _ _ _ hget]; simp [awake]
        · intro t'
          rw [count_take_succ _ _ _ _ hget]
          simp only [holds]
          by_cases htt : t = t' <;> simp [htt]
          omega


/-- The next lock clear of `ConsumeBatch` preserves the round invariant, one
more worker being woken. -/
theorem RoundInv.clear {W buf L0 k} {g : BatchedWorkerGroup} (h : RoundInv W buf L0 k g)
    (hk : k < W) : RoundInv W buf L0 (k + 1) (g.apply (.clear k)) := by
  have hlt : k < g.m_workers.length := by rw [h.len]; exact hk
  have hw : g.m_workers[k]? = some g.m_workers[k] := List.getElem?_eq_getElem hlt
  have hsp := h.unwoken k _ (Nat.le_refl k) hw
  rw [hsp] at hw
  simp only [BatchedWorkerGroup.apply, hw]
  refine h.setWorker hw g.m_cursor g.log (k + 1) (Nat.le_succ k) hk rfl ?_ h.cur ?_ ?_
  · intro hk; omega
  · simp [awake, clearLock]; omega
  · intro t; simp [holds, clearLock]

/-- The round invariant holds at the end of every schedule whose calling-thread
events are the remaining lock clears, in order. -/
theorem RoundInv.after_run {W buf L0} (H : W ≤ buf.count none) :
    ∀ (es : List Event) (k : Nat) (g : BatchedWorkerGroup), RoundInv W buf L0 k g →
      es.filter Event.isMain = clearsFrom k (W - k) → RoundInv W buf L0 W (g.run es)
  | [], k, g, h, hes => by
    have hk := h.kle
    cases hn : W - k with
    | zero =>
      have : k = W := by omega
      subst this
      exact h
    | succ n => rw [hn] at hes; simp [clearsFrom] at hes
  | e :: es, k, g, h, hes => by
    show RoundInv W buf L0 W ((g.apply e).run es)
    cases e with
    | step i => exact RoundInv.after_run H es k _ (h.step H i) (by simpa [Event.isMain] using hes)
    | clear j =>
      cases hn : W - k with
      | zero => rw [hn] at hes; simp [clearsFrom, Event.isMain] at hes
      | succ n =>
        rw [hn] at hes
        simp only [clearsFrom, Event.isMain, List.filter_cons_of_pos, List.cons.injEq,
          Event.clear.injEq] at hes
        obtain ⟨hj, hes⟩ := hes
        subst hj
        refine RoundInv.after_run H es (j + 1) _ (h.clear (by omega)) ?_
        have : W - (j + 1) = n := by omega
        rw [this]; exact hes
    | setBatch ts =>
      cases hn : W - k with
      | zero => rw [hn] at hes; simp [clearsFrom, Event.isMain] at hes
      | succ n => rw [hn] at hes; simp [clearsFrom, Event.isMain] at hes
    | storeCursor =>
      cases hn : W - k with
      | zero => rw [hn] at hes; simp [clearsFrom, Event.isMain] at hes
      | succ n => rw [hn] at hes; simp [clearsFrom, Event.isMain] at hes
    | stopLiving =>
      cases hn : W - k with
      | zero => rw [hn] at hes; simp [clearsFrom, Event.isMain] at hes
      | succ n => rw [hn] at hes; simp [clearsFrom, Event.isMain] at hes

theorem step_of_asleep {g : BatchedWorkerGroup} (h : asleep g) (i : Nat) :
    g.WorkerRoutine i = g := by
  unfold WorkerRoutine
  cases hw : g.m_workers[i]? with
  | none => rfl
  | some w =>
    have := h w (List.getElem?_mem hw)
    subst this
    rfl

theorem countP_eq_zero_of_asleep {g : BatchedWorkerGroup} (h : asleep g) (p : BWorker → Bool)
    (hp : p ⟨true, .spin⟩ = false) : g.m_workers.countP p = 0 := by
  rw [List.countP_eq_zero]
  intro w hw
  rw [h w hw, hp]
  simp

theorem RoundInv.store {g : BatchedWorkerGroup} (h : asleep g) (hl : g.m_living = true) :
    RoundInv g.m_workers.length g.m_tasks g.log 0 (g.apply .storeCursor) := by
  refine ⟨hl, rfl, rfl, Nat.zero_le _, ?_, ?_, Nat.zero_le _, ?_, ?_⟩
  · intro w hw
    rw [h w hw]; rfl
  · intro i w _ hw
    exact h w (List.getElem?_mem hw)
  · simp [BatchedWorkerGroup.apply, countP_eq_zero_of_asleep h awake rfl]
  · intro t
    simp [BatchedWorkerGroup.apply, countP_eq_zero_of_asleep h (holds t) rfl]

/-- From a sleeping group, the round invariant holds at the end of every
schedule whose calling-thread events are those of one `ConsumeBatch`. -/
theorem round_inv {g : BatchedWorkerGroup} (h : asleep g) (hl : g.m_living = true)
    (H : g.m_workers.length ≤ g.m_tasks.count none) :
    ∀ (es : List Event), es.filter Event.isMain = consumeProgram g.m_workers.length →
      RoundInv g.m_workers.length g.m_tasks g.log g.m_workers.length (g.run es)
  | [], hes => by simp [consumeProgram] at hes
  | e :: es, hes => by
    show RoundInv _ _ _ _ ((g.apply e).run es)
    cases e with
    | step i =>
      simp only [BatchedWorkerGroup.apply, step_of_asleep h]
      exact round_inv h hl H es (by simpa [Event.isMain] using hes)
    | storeCursor =>
      simp only [consumeProgram, Event.isMain, List.filter_cons_of_pos, List.cons.injEq,
        true_and] at hes
      exact RoundInv.after_run H es 0 _ (RoundInv.store h hl) (by simpa using hes)
    | clear j => simp [consumeProgram, Event.isMain] at hes
    | setBatch ts => simp [consumeProgram, Event.isMain] at hes
    | stopLiving => simp [consumeProgram, Event.isMain] at hes


theorem blocked_iff (w : BWorker) : blocked w = true ↔ w = ⟨true, .spin⟩ := by
  obtain ⟨l, pc⟩ := w
  cases pc <;> cases l <;> simp [blocked]

theorem asleep_of_allBlocked {g : BatchedWorkerGroup} (h : allBlocked g = true) : asleep g := by
  intro w hw
  simp only [allBlocked, List.all_eq_true] at h
  exact (blocked_iff w).mp (h w hw)

theorem blocked_of_quiet {w : BWorker} (hr : running w = true) (he : enabled w = false) :
    w = ⟨true, .spin⟩ := by
  obtain ⟨l, pc⟩ := w
  cases pc <;> cases l <;> simp_all [running, enabled]

theorem RoundInv.quiet {W buf L0 k} {g : BatchedWorkerGroup} (h : RoundInv W buf L0 k g)
    (hq : quiescent g = true) : asleep g := by
  intro w hw
  simp only [quiescent, List.all_eq_true] at hq
  exact blocked_of_quiet (h.pcs w hw) (by simpa using hq w hw)

/-- At the end of a round with no worker able to step: all workers are blocked,
exactly `W` null entries were claimed, and the calls made are the non-null
entries claimed. -/
theorem RoundInv.drained {W buf L0} {g : BatchedWorkerGroup} (h : RoundInv W buf L0 W g)
    (hq : quiescent g = true) :
    allBlocked g = true ∧ (buf.take g.m_cursor).count none = W ∧
      ∀ t, g.log.count t = L0.count t + (buf.take g.m_cursor).count (some t) := by
  have hs := h.quiet hq
  refine ⟨?_, ?_, ?_⟩
  · simp only [allBlocked, List.all_eq_true]
    intro w hw
    exact (blocked_iff w).mpr (hs w hw)
  · have := h.bal
    rw [countP_eq_zero_of_asleep hs awake rfl] at this
    simpa using this
  · intro t
    have := h.logc t
    rw [countP_eq_zero_of_asleep hs (holds t) rfl] at this
    simpa using this

theorem take_past_tasks {ts : List Task} {W c : Nat}
    (hnull : ts.count none < W)
    (hc : c ≤ (ts ++ List.replicate W (none : Task)).length)
    (h : ((ts ++ List.replicate W (none : Task)).take c).count none = W) :
    c + ts.count none = ts.length + W
      ∧ (ts ++ List.replicate W (none : Task)).take c = ts ++ List.replicate (c - ts.length) none := by
  rw [List.take_append_eq_append_take, List.count_append] at h
  have h1 : ((ts.take c).count (none : Task)) ≤ ts.count none :=
    (List.take_sublist c ts).count_le _
  simp only [List.take_replicate, List.count_replicate_self, List.length_append,
    List.length_replicate] at h hc
  have hlt : ts.length < c := by
    by_contra hle
    have : c - ts.length = 0 := by omega
    rw [this] at h
    simp at h
    omega
  have h2 : ts.take c = ts := List.take_of_length_le (by omega)
  rw [h2] at h
  refine ⟨by omega, ?_⟩
  rw [List.take_append_eq_append_take, h2, List.take_replicate]
  congr 2
  omega

theorem count_some_replicate_none (n : Nat) (t : TaskId) :
    (List.replicate n (none : Task)).count (some t) = 0 := by
  rw [List.count_eq_zero]
  intro hm
  have := List.eq_of_mem_replicate hm
  simp at this

theorem count_reduceOption (ts : List Task) (t : TaskId) :
    ts.reduceOption.count t = ts.count (some t) := by
  induction ts with
  | nil => rfl
  | cons a ts ih =>
    cases a with
    | none => simp [List.reduceOption_cons_of_none, List.count_cons, ih]
    | some x => simp [List.reduceOption_cons_of_some, List.count_cons, ih]

/-- The end marker loop appends `n` null tasks. -/
theorem addEndMarkers_eq : ∀ (n : Nat) (buf : List Task),
    addEndMarkers n buf = buf ++ List.replicate n none
  | 0, buf => by simp [addEndMarkers]
  | n + 1, buf => by
    rw [addEndMarkers, addEndMarkers_eq n]
    simp [List.replicate_succ]

/-- Every step of a worker that can act decreases `fuel`. -/
theorem RoundInv.progress {W buf L0 k} {g : BatchedWorkerGroup} (h : RoundInv W buf L0 k g)
    (H : W ≤ buf.count none) {i : Nat} {w : BWorker} (hw : g.m_workers[i]? = some w)
    (he : enabled w = true) : fuel (g.WorkerRoutine i) < fuel g := by
  unfold WorkerRoutine
  rw [hw]
  obtain ⟨lock, pc⟩ := w
  have hrun := h.pcs _ (List.getElem?_mem hw)
  cases pc with
  | start => simp [running] at hrun
  | done => simp [running] at hrun
  | fault => simp [running] at hrun
  | spin =>
    cases lock with
    | true => simp [enabled] at he
    | false =>
      have := sum_map_set_add rank g.m_workers i ⟨true, .check⟩ _ hw
      simp only [fuel, BatchedWorkerGroup.setWorker, rank] at this ⊢
      simp at this ⊢
      omega
  | check =>
    have := sum_map_set_add rank g.m_workers i ⟨lock, .fetch⟩ _ hw
    simp only [h.living, if_true]
    simp only [fuel, BatchedWorkerGroup.setWorker, rank] at this ⊢
    omega
  | park =>
    have := sum_map_set_add rank g.m_workers i ⟨true, .spin⟩ _ hw
    simp only [fuel, BatchedWorkerGroup.setWorker, rank] at this ⊢
    simp at this ⊢
    omega
  | call t =>
    have := sum_map_set_add rank g.m_workers i ⟨lock, .check⟩ _ hw
    simp only [fuel, BatchedWorkerGroup.setWorker, rank] at this ⊢
    omega
  | fetch =>
    have hlt := h.cursor_lt H hw rfl
    rw [← h.tasks] at hlt
    obtain ⟨x, hget⟩ : ∃ x, g.m_tasks[g.m_cursor]? = some x :=
      ⟨_, List.getElem?_eq_getElem hlt⟩
    rw [hget]
    cases x with
    | none =>
      have := sum_map_set_add rank g.m_workers i ⟨lock, .park⟩ _ hw
      simp only [fuel, BatchedWorkerGroup.setWorker, rank] at this ⊢
      omega
    | some t =>
      have := sum_map_set_add rank g.m_workers i ⟨lock, .call t⟩ _ hw
      simp only [fuel, BatchedWorkerGroup.setWorker, rank] at this ⊢
      omega

theorem run_append (g : BatchedWorkerGroup) (a b : List Event) :
    g.run (a ++ b) = (g.run a).run b := by
  simp [run, List.foldl_append]

/-- From a state of a round, some sequence of worker steps leads to a state in
which no worker can step. -/
theorem RoundInv.drain {W buf L0 k} (H : W ≤ buf.count none) :
    ∀ (n : Nat) (g : BatchedWorkerGroup), RoundInv W buf L0 k g → fuel g ≤ n →
      ∃ steps : List Nat, quiescent (g.run (steps.map Event.step)) = true
  | n, g, h, hn => by
    by_cases hq : quiescent g = true
    · exact ⟨[], hq⟩
    · simp only [quiescent, List.all_eq_true, Bool.not_eq_true', not_forall,
        Bool.not_eq_false, exists_prop] at hq
      obtain ⟨w, hmem, he⟩ := hq
      obtain ⟨i, hw⟩ := List.mem_iff_getElem?.mp hmem
      have hp := h.progress H hw he
      match n, hn with
      | 0, hn => omega
      | n + 1, hn =>
        obtain ⟨steps, hs⟩ := RoundInv.drain H n (g.WorkerRoutine i) (h.step H i) (by omega)
        exact ⟨i :: steps, hs⟩

/-- What one drained round establishes, for a batch with fewer null tasks than
workers. -/
theorem round_post {g : BatchedWorkerGroup} {ts : List Task} {es : List Event}
    (hs : asleep g) (hl : g.m_living = true)
    (ht : g.m_tasks = ts ++ List.replicate g.m_workers.length none)
    (hnull : ts.count none < g.m_workers.length)
    (hes : es.filter Event.isMain = consumeProgram g.m_workers.length)
    (hq : quiescent (g.run es) = true) :
    asleep (g.run es) ∧ (g.run es).m_living = true
      ∧ (g.run es).m_workers.length = g.m_workers.length
      ∧ (g.run es).m_tasks = g.m_tasks
      ∧ (g.run es).m_cursor + ts.count none = ts.length + g.m_workers.length
      ∧ ∀ t, (g.run es).log.count t = g.log.count t + ts.count (some t) := by
  have H : g.m_workers.length ≤ g.m_tasks.count none := by
    rw [ht, List.count_append]
    simp
  have hinv := round_inv hs hl H es hes
  obtain ⟨_, hn, hc⟩ := hinv.drained hq
  have hcur := hinv.cur
  rw [ht] at hn hcur
  obtain ⟨hfull, htake⟩ := take_past_tasks hnull hcur hn
  refine ⟨hinv.quiet hq, hinv.living, hinv.len, hinv.tasks, hfull, ?_⟩
  intro t
  rw [hc t, ht, htake, List.count_append, count_some_replicate_none]
  rfl

theorem filter_clearsFrom : ∀ (n k : Nat),
    (clearsFrom k n).filter Event.isMain = clearsFrom k n
  | 0, _ => rfl
  | n + 1, k => by
    simp [clearsFrom, Event.isMain, filter_clearsFrom n (k + 1)]

theorem filter_consumeProgram (W : Nat) :
    (consumeProgram W).filter Event.isMain = consumeProgram W := by
  simp [consumeProgram, Event.isMain, filter_clearsFrom]

theorem filter_steps (steps : List Nat) :
    (steps.map Event.step).filter Event.isMain = [] := by
  induction steps with
  | nil => rfl
  | cons a l ih => simp [Event.isMain]

/-- A round can be run to its end from every sleeping group whose buffer holds
one null per worker. -/
theorem round_exists {g : BatchedWorkerGroup} (hs : asleep g) (hl : g.m_living = true)
    (H : g.m_workers.length ≤ g.m_tasks.count none) :
    ∃ es, es.filter Event.isMain = consumeProgram g.m_workers.length
      ∧ quiescent (g.run es) = true := by
  have hinv := round_inv hs hl H (consumeProgram g.m_workers.length) (filter_consumeProgram _)
  obtain ⟨steps, hq⟩ := RoundInv.drain H _ _ hinv (Nat.le_refl _)
  refine ⟨consumeProgram g.m_workers.length ++ steps.map Event.step, ?_, ?_⟩
  · rw [List.filter_append, filter_consumeProgram, filter_steps, List.append_nil]
  · rw [run_append]; exact hq

theorem allBlocked_of_asleep {g : BatchedWorkerGroup} (h : asleep g) : allBlocked g = true := by
  simp only [allBlocked, List.all_eq_true]
  intro w hw
  exact (blocked_iff w).mpr (h w hw)

theorem rounds_post {ts : List Task} :
    ∀ (ess : List (List Event)) (g : BatchedWorkerGroup),
      asleep g → g.m_living = true →
      g.m_tasks = ts ++ List.replicate g.m_workers.length none →
      ts.count none < g.m_workers.length →
      areRounds g ess = true →
      (g.runAll ess).m_tasks = g.m_tasks ∧
        ∀ t, (g.runAll ess).log.count t = g.log.count t + ess.length * ts.count (some t)
  | [], g, _, _, _, _, _ => by simp [runAll]
  | es :: ess, g, hs, hl, ht, hn, hr => by
    simp only [areRounds, Bool.and_eq_true, decide_eq_true_eq] at hr
    obtain ⟨⟨hes, hq⟩, hrest⟩ := hr
    obtain ⟨hs1, hl1, hlen1, ht1, _, hc1⟩ := round_post hs hl ht hn hes hq
    have ih := rounds_post ess (g.run es) hs1 hl1 (by rw [ht1, hlen1]; exact ht)
      (by rw [hlen1]; exact hn) hrest
    show ((g.run es).runAll ess).m_tasks = g.m_tasks ∧ _
    refine ⟨by rw [ih.1, ht1], ?_⟩
    intro t
    show ((g.run es).runAll ess).log.count t = _
    rw [ih.2 t, hc1 t, List.length_cons, Nat.succ_mul]
    omega

theorem rounds_exist :
    ∀ (k : Nat) (g : BatchedWorkerGroup), asleep g → g.m_living = true →
      g.m_workers.length ≤ g.m_tasks.count none →
      ∃ ess : List (List Event), ess.length = k ∧ areRounds g ess = true
  | 0, _, _, _, _ => ⟨[], rfl, rfl⟩
  | k + 1, g, hs, hl, H => by
    obtain ⟨es, hes, hq⟩ := round_exists hs hl H
    have hinv := round_inv hs hl H es hes
    obtain ⟨ess, hlen, hr⟩ := rounds_exist k (g.run es) (hinv.quiet hq) hinv.living
      (by rw [hinv.len, hinv.tasks]; exact H)
    refine ⟨es :: ess, by simp [hlen], ?_⟩
    simp only [areRounds, Bool.and_eq_true, decide_eq_true_eq]
    exact ⟨⟨hes, hq⟩, hr⟩

theorem SetBatch_nulls (g : BatchedWorkerGroup) (ts : List Task) :
    (g.SetBatch ts).m_workers.length ≤ (g.SetBatch ts).m_tasks.count none := by
  show g.m_workers.length ≤ (addEndMarkers g.m_workers.length ts).count none
  rw [addEndMarkers_eq, List.count_append]
  simp

theorem WorkerRoutine_length (g : BatchedWorkerGroup) (i : Nat) :
    (g.WorkerRoutine i).m_workers.length = g.m_workers.length := by
  unfold WorkerRoutine
  cases hj : g.m_workers[i]? with
  | none => rfl
  | some w =>
    obtain ⟨l, pc⟩ := w
    cases pc with
    | spin => cases l <;> simp [BatchedWorkerGroup.setWorker]
    | check => cases g.m_living <;> simp [BatchedWorkerGroup.setWorker]
    | fetch =>
      simp only
      split <;> simp [BatchedWorkerGroup.setWorker]
    | _ => simp [BatchedWorkerGroup.setWorker]

/-- Running the lock clears of all workers in order clears every lock. -/
theorem run_clears (g : BatchedWorkerGroup) :
    ∀ (ws pre : List BWorker), g.m_workers = pre ++ ws →
      g.run (clearsFrom pre.length ws.length)
        = { g with m_workers := pre ++ ws.map clearLock }
  | [], pre, h => by
    simp only [List.length_nil, clearsFrom, run, List.foldl_nil, List.map_nil]
    rw [← h]
  | w :: ws, pre, h => by
    simp only [List.length_cons, clearsFrom, run, List.foldl_cons]
    have hw : g.m_workers[pre.length]? = some w := by
      rw [h, List.getElem?_append_right (Nat.le_refl _)]; simp
    have h1 : g.apply (Event.clear pre.length)
        = { g with m_workers := (pre ++ [clearLock w]) ++ ws } := by
      simp only [BatchedWorkerGroup.apply, hw, BatchedWorkerGroup.setWorker]
      rw [h]
      simp
    have ih := run_clears (g.apply (Event.clear pre.length)) ws (pre ++ [clearLock w])
      (by rw [h1])
    simp only [List.length_append, List.length_singleton, run] at ih
    rw [ih, h1]
    simp

/-- The call `ConsumeBatch` is the run of its events in program order. -/
theorem ConsumeBatch_eq_run (g : BatchedWorkerGroup) :
    g.ConsumeBatch = g.run (consumeProgram g.m_workers.length) := by
  have h := run_clears (g.apply .storeCursor) g.m_workers [] rfl
  simp only [List.length_nil, List.nil_append] at h
  show _ = (g.apply .storeCursor).run (clearsFrom 0 g.m_workers.length)
  rw [h]
  rfl

/-- Only the `fetch_add` step moves the cursor, by one. -/
theorem WorkerRoutine_cursor (g : BatchedWorkerGroup) (i : Nat) :
    (g.WorkerRoutine i).m_cursor =
      match g.m_workers[i]? with
      | some w => if w.pc = .fetch then g.m_cursor + 1 else g.m_cursor
      | none => g.m_cursor := by
  unfold WorkerRoutine
  cases hj : g.m_workers[i]? with
  | none => rfl
  | some w =>
    obtain ⟨l, pc⟩ := w
    cases pc with
    | spin => cases l <;> simp [BatchedWorkerGroup.setWorker]
    | check => cases g.m_living <;> simp [BatchedWorkerGroup.setWorker]
    | fetch =>
      simp only
      split <;> simp [BatchedWorkerGroup.setWorker]
    | _ => simp [BatchedWorkerGroup.setWorker]

/-- Within a round the claimed indices are consecutive from the cursor. -/
theorem claims_range : ∀ (es : List Event) (g : BatchedWorkerGroup),
    es.all Event.inRound = true →
      (g.claims es).map Prod.snd = List.range' g.m_cursor (g.claims es).length
        ∧ (g.run es).m_cursor = g.m_cursor + (g.claims es).length
  | [], g, _ => by simp [claims, run]
  | e :: es, g, hes => by
    simp only [List.all_cons, Bool.and_eq_true] at hes
    have ih := claims_range es (g.apply e) hes.2
    show _ ∧ ((g.apply e).run es).m_cursor = _
    cases e with
    | step i =>
      have hc := WorkerRoutine_cursor g i
      simp only [BatchedWorkerGroup.apply] at ih
      simp only [claims, BatchedWorkerGroup.apply]
      cases hw : g.m_workers[i]? with
      | none =>
        rw [hw] at hc
        simp only at hc ⊢
        rw [hc] at ih
        exact ih
      | some w =>
        rw [hw] at hc
        simp only at hc ⊢
        by_cases hp : w.pc = .fetch
        · simp only [hp, if_true] at hc ⊢
          rw [hc] at ih
          simp only [List.map_cons, List.length_cons, List.range'_succ]
          exact ⟨by rw [ih.1], by rw [ih.2, Nat.add_assoc, Nat.add_comm 1]⟩
        · simp only [hp, if_false] at hc ⊢
          rw [hc] at ih
          exact ih
    | clear j =>
      have hc : (g.apply (.clear j)).m_cursor = g.m_cursor := by
        simp only [BatchedWorkerGroup.apply]
        split <;> rfl
      rw [hc] at ih
      exact ih
    | stopLiving => exact ih
    | storeCursor => simp [Event.inRound] at hes
    | setBatch ts => simp [Event.inRound] at hes

/-- Worker steps and `SetBatch` keep a group dormant. -/
theorem Dormant.apply {g : BatchedWorkerGroup} (h : Dormant g) (e : Event)
    (he : e.isStepOrSetBatch = true) : Dormant (g.apply e) := by
  cases e with
  | setBatch ts => exact ⟨h.log, h.cur, h.pcs⟩
  | step i =>
    show Dormant (g.WorkerRoutine i)
    unfold WorkerRoutine
    cases hw : g.m_workers[i]? with
    | none => exact h
    | some w =>
      rcases h.pcs w (List.getElem?_mem hw) with hp | hp
      · obtain ⟨l, pc⟩ := w
        simp only at hp
        subst hp
        refine ⟨h.log, h.cur, ?_⟩
        intro x hx
        rcases List.mem_or_eq_of_mem_set hx with hx | hx
        · exact h.pcs x hx
        · exact Or.inr hx
      · subst hp
        exact h
  | storeCursor => simp [Event.isStepOrSetBatch] at he
  | clear j => simp [Event.isStepOrSetBatch] at he
  | stopLiving => simp [Event.isStepOrSetBatch] at he

theorem Dormant.preserved : ∀ (es : List Event) (g : BatchedWorkerGroup), Dormant g →
    es.all Event.isStepOrSetBatch = true → Dormant (g.run es)
  | [], _, h, _ => h
  | e :: es, g, h, hes => by
    simp only [List.all_cons, Bool.and_eq_true] at hes
    exact Dormant.preserved es (g.apply e) (h.apply e hes.1) hes.2

theorem Dormant.stays {i : Nat} : ∀ (es : List Event) (g : BatchedWorkerGroup), Dormant g →
    es.all Event.isStepOrSetBatch = true → g.m_workers[i]? = some ⟨true, .spin⟩ →
    (g.run es).m_workers[i]? = some ⟨true, .spin⟩
  | [], _, _, _, hw => hw
  | e :: es, g, h, hes, hw => by
    simp only [List.all_cons, Bool.and_eq_true] at hes
    refine Dormant.stays es (g.apply e) (h.apply e hes.1) hes.2 ?_
    cases e with
    | setBatch ts => exact hw
    | step j =>
      show (g.WorkerRoutine j).m_workers[i]? = _
      unfold WorkerRoutine
      cases hj : g.m_workers[j]? with
      | none => exact hw
      | some w =>
        rcases h.pcs w (List.getElem?_mem hj) with hp | hp
        · obtain ⟨l, pc⟩ := w
          simp only at hp
          subst hp
          simp only [BatchedWorkerGroup.setWorker, List.getElem?_set]
          split
          · subst_vars
            rw [hw] at hj
            simp at hj
          · exact hw
        · subst hp
          exact hw
    | storeCursor => simp [Event.isStepOrSetBatch] at hes
    | clear j => simp [Event.isStepOrSetBatch] at hes
    | stopLiving => simp [Event.isStepOrSetBatch] at hes

/-- In a dormant group a worker that has taken a step sleeps. -/
theorem Dormant.stepped {i : Nat} : ∀ (es : List Event) (g : BatchedWorkerGroup), Dormant g →
    es.all Event.isStepOrSetBatch = true → Event.step i ∈ es → i < g.m_workers.length →
    (g.run es).m_workers[i]? = some ⟨true, .spin⟩
  | [], _, _, _, hm, _ => by simp at hm
  | e :: es, g, h, hes, hm, hi => by
    have hes2 := hes
    simp only [List.all_cons, Bool.and_eq_true] at hes2
    by_cases he : e = Event.step i
    · subst he
      refine Dormant.stays es _ (h.apply _ hes2.1) hes2.2 ?_
      show (g.WorkerRoutine i).m_workers[i]? = _
      unfold WorkerRoutine
      have hw : g.m_workers[i]? = some g.m_workers[i] := List.getElem?_eq_getElem hi
      rw [hw]
      rcases h.pcs _ (List.getElem?_mem hw) with hp | hp
      · generalize g.m_workers[i] = w at hp
        obtain ⟨l, pc⟩ := w
        simp only at hp
        subst hp
        simp [BatchedWorkerGroup.setWorker, hi]
      · rw [hp]
        rw [hp] at hw
        exact hw
    · have hm2 : Event.step i ∈ es := by
        rcases List.mem_cons.mp hm with hm | hm
        · exact absurd hm.symm he
        · exact hm
      refine Dormant.stepped es (g.apply e) (h.apply e hes2.1) hes2.2 hm2 ?_
      cases e with
      | setBatch ts => exact hi
      | step j =>
        show i < (g.WorkerRoutine j).m_workers.length
        rw [WorkerRoutine_length]
        exact hi
      | storeCursor => simp [Event.isStepOrSetBatch] at hes2
      | clear j => simp [Event.isStepOrSetBatch] at hes2
      | stopLiving => simp [Event.isStepOrSetBatch] at hes2

/-- A freshly constructed group is dormant. -/
theorem fresh_dormant (lock0 : Bool) (id : EWorkerGroupID) (W : Nat) :
    Dormant (new lock0 id W) := by
  refine ⟨rfl, rfl, ?_⟩
  intro w hw
  have := List.eq_of_mem_replicate hw
  exact Or.inl (by rw [this])

/-! ## The claims on the batched group -/

set_option maxRecDepth 100000

/-- C1 (amended): take a group of `W` workers that all sleep and a batch of `N`
tasks of which fewer than `W` are null (so `W ≥ 1`). After `SetBatch`, the
batch can be drained: some schedule in which the calling thread performs one
`ConsumeBatch` (cursor store, then the lock clears in order), interleaved with
worker steps, ends in a state where no worker can step. And every such
schedule that ends in such a state has called each non-null task of the batch
exactly once: the log is a permutation of the earlier log followed by the
non-null tasks of the batch. -/
theorem batch_executes_each_task_once (g0 : BatchedWorkerGroup) (ts : List Task)
    (hsleep : allBlocked g0 = true) (hliving : g0.m_living = true)
    (hnull : ts.count none < g0.m_workers.length) :
    (∃ es, es.filter Event.isMain = consumeProgram g0.m_workers.length
        ∧ quiescent ((g0.SetBatch ts).run es) = true)
      ∧ ∀ es, es.filter Event.isMain = consumeProgram g0.m_workers.length →
          quiescent ((g0.SetBatch ts).run es) = true →
          List.Perm ((g0.SetBatch ts).run es).log (g0.log ++ ts.reduceOption) := by
  have hs := asleep_of_allBlocked hsleep
  refine ⟨@round_exists (g0.SetBatch ts) hs hliving (SetBatch_nulls g0 ts), ?_⟩
  intro es hes hq
  have hp := @round_post (g0.SetBatch ts) ts es hs hliving (addEndMarkers_eq _ _) hnull hes hq
  rw [List.perm_iff_count]
  intro t
  rw [hp.2.2.2.2.2 t, List.count_append, count_reduceOption]
  rfl

/-- Witness for C1: two workers, the batch `[t10, t11, t12, null]` (a trailing
null as in `TestBatched`), the schedule `demoRound`. -/
theorem batch_executes_each_task_once_witness :
    allBlocked (sleeping 2) = true
      ∧ (sleeping 2).m_living = true
      ∧ [some 10, some 11, some 12, none].count none < (sleeping 2).m_workers.length
      ∧ demoRound.filter Event.isMain = consumeProgram (sleeping 2).m_workers.length
      ∧ quiescent (((sleeping 2).SetBatch [some 10, some 11, some 12, none]).run demoRound)
          = true
      ∧ List.Perm (((sleeping 2).SetBatch [some 10, some 11, some 12, none]).run demoRound).log
          ((sleeping 2).log ++ [some 10, some 11, some 12, none].reduceOption) :=
  ⟨by decide, by decide, by decide, by decide, by decide,
    (batch_executes_each_task_once (sleeping 2) [some 10, some 11, some 12, none]
      (by decide) (by decide) (by decide)).2 demoRound (by decide) (by decide)⟩

/-- C1 as stated fails in two ways. With no worker (`W = 0`) the state after
`SetBatch [t7]` and `ConsumeBatch` is one where no worker can step, and task 7
was never called. With one worker and the batch `[null, t7]` the worker sleeps
on the null entry of slot 0 and task 7 is never called. -/
theorem batch_executes_each_task_once_fails :
    (allBlocked (sleeping 0) = true
      ∧ (consumeProgram 0).filter Event.isMain = consumeProgram (sleeping 0).m_workers.length
      ∧ quiescent (((sleeping 0).SetBatch [some 7]).run (consumeProgram 0)) = true
      ∧ (((sleeping 0).SetBatch [some 7]).run (consumeProgram 0)).log.count 7 = 0)
    ∧ (allBlocked (sleeping 1) = true
      ∧ shortRound.filter Event.isMain = consumeProgram (sleeping 1).m_workers.length
      ∧ quiescent (((sleeping 1).SetBatch [none, some 7]).run shortRound) = true
      ∧ (((sleeping 1).SetBatch [none, some 7]).run shortRound).log.count 7 = 0) := by
  decide

/-- C2 (amended): in every state reachable from a freshly constructed group by
`SetBatch` calls and worker steps only, the log is empty, the cursor is 0, and
every worker either has not executed its first instruction yet or is blocked
on its set lock; a worker that has taken a step is blocked. So no worker gets
past its lock, and no task is called, before `ConsumeBatch`. -/
theorem no_task_before_consume (lock0 : Bool) (id : EWorkerGroupID) (W : Nat)
    (es : List Event) (hes : es.all Event.isStepOrSetBatch = true) :
    ((new lock0 id W).run es).log = []
      ∧ ((new lock0 id W).run es).m_cursor = 0
      ∧ (∀ w ∈ ((new lock0 id W).run es).m_workers, w.pc = .start ∨ blocked w = true)
      ∧ (∀ i w, Event.step i ∈ es → ((new lock0 id W).run es).m_workers[i]? = some w →
          blocked w = true) := by
  have hd := Dormant.preserved es _ (fresh_dormant lock0 id W) hes
  refine ⟨hd.log, hd.cur, ?_, ?_⟩
  · intro w hw
    rcases hd.pcs w hw with h | h
    · exact Or.inl h
    · exact Or.inr ((blocked_iff w).mpr h)
  · intro i w hi hw
    have hlen : ∀ (es : List Event) (g : BatchedWorkerGroup),
        es.all Event.isStepOrSetBatch = true → (g.run es).m_workers.length = g.m_workers.length := by
      intro es
      induction es with
      | nil => intro g _; rfl
      | cons e es ih =>
        intro g he
        simp only [List.all_cons, Bool.and_eq_true] at he
        show ((g.apply e).run es).m_workers.length = _
        rw [ih _ he.2]
        cases e with
        | step j => exact WorkerRoutine_length g j
        | setBatch ts => rfl
        | storeCursor => rfl
        | stopLiving => rfl
        | clear j => simp [Event.isStepOrSetBatch] at he
    have hi2 : i < (new lock0 id W).m_workers.length := by
      rw [← hlen es _ hes]
      by_contra hc
      rw [List.getElem?_eq_none (by omega)] at hw
      cases hw
    have := Dormant.stepped es _ (fresh_dormant lock0 id W) hes hi hi2
    rw [this] at hw
    cases hw
    rfl

/-- Witness for C2: three workers, a `SetBatch`, and steps of workers 0 and 2:
nothing is logged, the cursor is 0, workers 0 and 2 are blocked and worker 1
has not started. -/
theorem no_task_before_consume_witness :
    [Event.step 0, .setBatch [some 1, some 2], .step 2, .step 0].all Event.isStepOrSetBatch
        = true
      ∧ ((new false .Ecs 3).run [.step 0, .setBatch [some 1, some 2], .step 2, .step 0]).log
        = []
      ∧ ((new false .Ecs 3).run
          [.step 0, .setBatch [some 1, some 2], .step 2, .step 0]).m_cursor = 0
      ∧ ((new false .Ecs 3).run
          [.step 0, .setBatch [some 1, some 2], .step 2, .step 0]).m_workers
        = [⟨true, .spin⟩, ⟨false, .start⟩, ⟨true, .spin⟩]
      ∧ blocked (⟨true, .spin⟩ : BWorker) = true :=
  ⟨by decide,
    (no_task_before_consume false .Ecs 3
      [.step 0, .setBatch [some 1, some 2], .step 2, .step 0] (by decide)).1,
    (no_task_before_consume false .Ecs 3
      [.step 0, .setBatch [some 1, some 2], .step 2, .step 0] (by decide)).2.1,
    by decide,
    (no_task_before_consume false .Ecs 3
      [.step 0, .setBatch [some 1, some 2], .step 2, .step 0] (by decide)).2.2.2
      2 ⟨true, .spin⟩ (by decide) (by decide)⟩

/-- C2 as stated fails on its last part: right after construction (no step
taken yet) the thread of a worker has not executed its first `test_and_set`,
so the worker is not blocked on its lock, it can take a step; with a lock that
starts clear the lock is not even set. -/
theorem fresh_worker_not_blocked :
    allBlocked ((new true .Ecs 1).run []) = false
      ∧ quiescent ((new true .Ecs 1).run []) = false
      ∧ allBlocked ((new false .Ecs 1).run []) = false
      ∧ ((new false .Ecs 1).run []).m_workers = [{ lock := false, pc := .start }] := by
  decide

/-- C3: whatever the buffer held before, after `SetBatch(tasks)` the buffer is
`tasks` followed by exactly `W` null end markers: its length is `N + W`, its
first `N` entries are the tasks in order, its last `W` entries are null, the
workers are untouched, and the end markers of an earlier `SetBatch` leave no
trace. -/
theorem SetBatch_buffer (g : BatchedWorkerGroup) (tasks : List Task) :
    (g.SetBatch tasks).m_tasks = tasks ++ List.replicate g.m_workers.length none
      ∧ (g.SetBatch tasks).m_tasks.length = tasks.length + g.m_workers.length
      ∧ (g.SetBatch tasks).m_tasks.take tasks.length = tasks
      ∧ (g.SetBatch tasks).m_tasks.drop tasks.length = List.replicate g.m_workers.length none
      ∧ (g.SetBatch tasks).m_workers = g.m_workers
      ∧ ∀ earlier : List Task,
          ((g.SetBatch earlier).SetBatch tasks).m_tasks = (g.SetBatch tasks).m_tasks := by
  have h : (g.SetBatch tasks).m_tasks = tasks ++ List.replicate g.m_workers.length none :=
    addEndMarkers_eq _ _
  refine ⟨h, ?_, ?_, ?_, rfl, fun _ => rfl⟩
  · rw [h]; simp
  · rw [h]; simp
  · rw [h]; simp

/-- C4: `ConsumeBatch` sets the cursor to 0 and clears the lock of every
worker, and it is the cursor store followed by the lock clears in worker
order; the task buffer, the living flag, the number of workers, their program
locations, the log and the group identifier are unchanged. -/
theorem ConsumeBatch_frame (g : BatchedWorkerGroup) :
    g.ConsumeBatch.m_cursor = 0
      ∧ (∀ w ∈ g.ConsumeBatch.m_workers, w.lock = false)
      ∧ g.ConsumeBatch = g.run (consumeProgram g.m_workers.length)
      ∧ g.ConsumeBatch.m_tasks = g.m_tasks
      ∧ g.ConsumeBatch.m_living = g.m_living
      ∧ g.ConsumeBatch.m_workers.length = g.m_workers.length
      ∧ g.ConsumeBatch.m_workers.map (fun w => w.pc) = g.m_workers.map (fun w => w.pc)
      ∧ g.ConsumeBatch.log = g.log
      ∧ g.ConsumeBatch.m_group_id = g.m_group_id := by
  refine ⟨rfl, ?_, ConsumeBatch_eq_run g, rfl, rfl, ?_, ?_, rfl, rfl⟩
  · intro w hw
    simp only [ConsumeBatch, List.mem_map] at hw
    obtain ⟨a, _, rfl⟩ := hw
    rfl
  · simp [ConsumeBatch]
  · simp [ConsumeBatch, clearLock]

/-- C5: after the cursor store of a `ConsumeBatch`, along every schedule of
worker steps and lock clears (no further cursor store, no `SetBatch`), the
indices returned by the `fetch_add` steps are, in step order, `0, 1, 2, ...`:
the `j`-th claim returns index `j`, whichever worker makes it. So every index
below the number of claims is handed out exactly once and none twice, and the
cursor ends at the number of claims. The same holds after a whole
`ConsumeBatch`. -/
theorem claims_in_index_order (g : BatchedWorkerGroup) (es : List Event)
    (hes : es.all Event.inRound = true) :
    (((g.apply .storeCursor).claims es).map Prod.snd
        = List.range ((g.apply .storeCursor).claims es).length)
      ∧ (∀ idx, (((g.apply .storeCursor).claims es).map Prod.snd).count idx
          = if idx < ((g.apply .storeCursor).claims es).length then 1 else 0)
      ∧ ((g.apply .storeCursor).run es).m_cursor = ((g.apply .storeCursor).claims es).length
      ∧ ((g.ConsumeBatch.claims es).map Prod.snd = List.range (g.ConsumeBatch.claims es).length) := by
  have h1 := claims_range es (g.apply .storeCursor) hes
  have h2 := claims_range es g.ConsumeBatch hes
  have hc1 : (g.apply .storeCursor).m_cursor = 0 := rfl
  have hc2 : g.ConsumeBatch.m_cursor = 0 := rfl
  rw [hc1] at h1
  rw [hc2] at h2
  rw [← List.range_eq_range'] at h1 h2
  refine ⟨h1.1, ?_, by simpa using h1.2, h2.1⟩
  intro idx
  rw [h1.1]
  by_cases hlt : idx < ((g.apply .storeCursor).claims es).length
  · rw [if_pos hlt]
    exact List.count_eq_one_of_mem (List.nodup_range _) (List.mem_range.mpr hlt)
  · rw [if_neg hlt]
    exact List.count_eq_zero.mpr (fun hm => hlt (List.mem_range.mp hm))

/-- Witness for C5: the steps of `demoRound` after its cursor store, two
workers, three tasks: the claims are `0, 1, 2, 3, 4`, by workers 0, 1, 0, 1, 0. -/
theorem claims_in_index_order_witness :
    demoRound.tail.all Event.inRound = true
      ∧ ((((sleeping 2).SetBatch [some 10, some 11, some 12]).apply .storeCursor).claims
          demoRound.tail = [(0, 0), (1, 1), (0, 2), (1, 3), (0, 4)])
      ∧ (((((sleeping 2).SetBatch [some 10, some 11, some 12]).apply .storeCursor).claims
            demoRound.tail).map Prod.snd
          = List.range ((((sleeping 2).SetBatch [some 10, some 11, some 12]).apply
              .storeCursor).claims demoRound.tail).length) :=
  ⟨by decide, by decide,
    (claims_in_index_order ((sleeping 2).SetBatch [some 10, some 11, some 12]) demoRound.tail
      (by decide)).1⟩

/-- C6 (amended): take a group of `W` workers that all sleep, and any batch of
`N` tasks. After `SetBatch`, some schedule of one `ConsumeBatch` interleaved
with worker steps ends in a state where no worker can step; and in every such
final state all workers are blocked on their locks. When moreover `W ≥ 1` and
no task of the batch is null, the cursor is exactly `N + W` there (so at least
`N + W`). -/
theorem drained_workers_asleep (g0 : BatchedWorkerGroup) (ts : List Task)
    (hsleep : allBlocked g0 = true) (hliving : g0.m_living = true) :
    (∃ es, es.filter Event.isMain = consumeProgram g0.m_workers.length
        ∧ quiescent ((g0.SetBatch ts).run es) = true)
      ∧ ∀ es, es.filter Event.isMain = consumeProgram g0.m_workers.length →
          quiescent ((g0.SetBatch ts).run es) = true →
          allBlocked ((g0.SetBatch ts).run es) = true ∧
            ((∀ x ∈ ts, x ≠ none) → 0 < g0.m_workers.length →
              ((g0.SetBatch ts).run es).m_cursor = ts.length + g0.m_workers.length) := by
  have hs := asleep_of_allBlocked hsleep
  refine ⟨@round_exists (g0.SetBatch ts) hs hliving (SetBatch_nulls g0 ts), ?_⟩
  intro es hes hq
  constructor
  · exact allBlocked_of_asleep
      ((@round_inv (g0.SetBatch ts) hs hliving (SetBatch_nulls g0 ts) es hes).quiet hq)
  · intro hts hW
    have h0 : ts.count none = 0 := List.count_eq_zero.mpr (fun hm => hts none hm rfl)
    have hp := @round_post (g0.SetBatch ts) ts es hs hliving (addEndMarkers_eq _ _)
      (by rw [h0]; exact hW) hes hq
    have := hp.2.2.2.2.1
    rw [h0] at this
    exact this

/-- Witness for C6: two workers, three tasks, the schedule `demoRound`: both
workers end blocked and the cursor ends at `3 + 2`. -/
theorem drained_workers_asleep_witness :
    allBlocked (sleeping 2) = true
      ∧ (sleeping 2).m_living = true
      ∧ demoRound.filter Event.isMain = consumeProgram (sleeping 2).m_workers.length
      ∧ quiescent (((sleeping 2).SetBatch [some 10, some 11, some 12]).run demoRound) = true
      ∧ allBlocked (((sleeping 2).SetBatch [some 10, some 11, some 12]).run demoRound) = true
      ∧ (((sleeping 2).SetBatch [some 10, some 11, some 12]).run demoRound).m_cursor
          = [some 10, some 11, some 12].length + (sleeping 2).m_workers.length :=
  ⟨by decide, by decide, by decide, by decide,
    ((drained_workers_asleep (sleeping 2) [some 10, some 11, some 12]
      (by decide) (by decide)).2 demoRound (by decide) (by decide)).1,
    ((drained_workers_asleep (sleeping 2) [some 10, some 11, some 12]
      (by decide) (by decide)).2 demoRound (by decide) (by decide)).2
      (by decide) (by decide)⟩

/-- C6 as stated fails on the cursor bound. With no worker the cursor stays 0,
below `N + W = 1`; with one worker and the batch `[null, t7]` the cursor stops
at 1, below `N + W = 3`. -/
theorem drained_cursor_bound_fails :
    (quiescent (((sleeping 0).SetBatch [some 7]).run (consumeProgram 0)) = true
      ∧ (((sleeping 0).SetBatch [some 7]).run (consumeProgram 0)).m_cursor = 0
      ∧ ¬ ([some 7].length + 0 ≤
          (((sleeping 0).SetBatch [some 7]).run (consumeProgram 0)).m_cursor))
    ∧ (quiescent (((sleeping 1).SetBatch [none, some 7]).run shortRound) = true
      ∧ (((sleeping 1).SetBatch [none, some 7]).run shortRound).m_cursor = 1
      ∧ ¬ ([none, some 7].length + 1 ≤
          (((sleeping 1).SetBatch [none, some 7]).run shortRound).m_cursor)) := by
  decide

/-- C7 (amended): take a group of `W` workers that all sleep and a batch of `N`
tasks of which fewer than `W` are null. After one `SetBatch`, `k` successive
rounds (each: one `ConsumeBatch` interleaved with worker steps, ending when no
worker can step) can be run for every `k`; and after any `k` such rounds each
non-null task of the batch has been called exactly `k` more times than before
(`k` times its number of occurrences in the batch), and the buffer is still
the one `SetBatch` installed. -/
theorem rerun_executes_again (g0 : BatchedWorkerGroup) (ts : List Task)
    (hsleep : allBlocked g0 = true) (hliving : g0.m_living = true)
    (hnull : ts.count none < g0.m_workers.length) :
    (∀ k, ∃ ess : List (List Event), ess.length = k ∧ areRounds (g0.SetBatch ts) ess = true)
      ∧ ∀ ess, areRounds (g0.SetBatch ts) ess = true →
          (∀ t, ((g0.SetBatch ts).runAll ess).log.count t
              = g0.log.count t + ess.length * ts.count (some t)) ∧
            ((g0.SetBatch ts).runAll ess).m_tasks
              = ts ++ List.replicate g0.m_workers.length none := by
  have hs := asleep_of_allBlocked hsleep
  refine ⟨fun k => rounds_exist k (g0.SetBatch ts) hs hliving (SetBatch_nulls g0 ts), ?_⟩
  intro ess hr
  have hp := @rounds_post ts ess (g0.SetBatch ts) hs hliving (addEndMarkers_eq _ _) hnull hr
  refine ⟨hp.2, ?_⟩
  rw [hp.1]
  exact addEndMarkers_eq _ _

/-- Witness for C7: two workers, three tasks, two rounds: tasks 10 and 12 have
each been called twice, and the buffer is unchanged. -/
theorem rerun_executes_again_witness :
    allBlocked (sleeping 2) = true
      ∧ (sleeping 2).m_living = true
      ∧ [some 10, some 11, some 12].count none < (sleeping 2).m_workers.length
      ∧ areRounds ((sleeping 2).SetBatch [some 10, some 11, some 12]) [demoRound, demoRound]
          = true
      ∧ (((sleeping 2).SetBatch [some 10, some 11, some 12]).runAll
            [demoRound, demoRound]).log.count 10
          = (sleeping 2).log.count 10
            + [demoRound, demoRound].length * [some 10, some 11, some 12].count (some 10)
      ∧ (((sleeping 2).SetBatch [some 10, some 11, some 12]).runAll
            [demoRound, demoRound]).log.count 12
          = (sleeping 2).log.count 12
            + [demoRound, demoRound].length * [some 10, some 11, some 12].count (some 12)
      ∧ (((sleeping 2).SetBatch [some 10, some 11, some 12]).runAll
            [demoRound, demoRound]).m_tasks
          = [some 10, some 11, some 12] ++ List.replicate (sleeping 2).m_workers.length none :=
  ⟨by decide, by decide, by decide, by decide,
    ((rerun_executes_again (sleeping 2) [some 10, some 11, some 12]
      (by decide) (by decide) (by decide)).2 [demoRound, demoRound] (by decide)).1 10,
    ((rerun_executes_again (sleeping 2) [some 10, some 11, some 12]
      (by decide) (by decide) (by decide)).2 [demoRound, demoRound] (by decide)).1 12,
    ((rerun_executes_again (sleeping 2) [some 10, some 11, some 12]
      (by decide) (by decide) (by decide)).2 [demoRound, demoRound] (by decide)).2⟩

/-- C7 as stated fails: after two rounds, task 7 has been called 0 times, not
2, on a group without workers, and also on a group of one worker whose batch
is `[null, t7]`. -/
theorem rerun_executes_again_fails :
    (areRounds ((sleeping 0).SetBatch [some 7]) [consumeProgram 0, consumeProgram 0] = true
      ∧ (((sleeping 0).SetBatch [some 7]).runAll
          [consumeProgram 0, consumeProgram 0]).log.count 7 = 0)
    ∧ (areRounds ((sleeping 1).SetBatch [none, some 7]) [shortRound, shortRound] = true
      ∧ (((sleeping 1).SetBatch [none, some 7]).runAll [shortRound, shortRound]).log.count 7
          = 0) := by
  decide

/-- C8: a worker step leaves the cursor unchanged or increases it by exactly 1;
`SetBatch` and the writes of the destructor do not modify it; `ConsumeBatch`
sets it to 0; and the cursor store of `ConsumeBatch` is the only event that can
decrease it. -/
theorem cursor_moves_forward (g : BatchedWorkerGroup) :
    (∀ i, (g.WorkerRoutine i).m_cursor = g.m_cursor
        ∨ (g.WorkerRoutine i).m_cursor = g.m_cursor + 1)
      ∧ (∀ ts, (g.SetBatch ts).m_cursor = g.m_cursor)
      ∧ g.Teardown.m_cursor = g.m_cursor
      ∧ (g.run (teardownProgram g.m_workers.length)).m_cursor = g.m_cursor
      ∧ g.ConsumeBatch.m_cursor = 0
      ∧ (∀ e, (g.apply e).m_cursor < g.m_cursor → e = .storeCursor) := by
  have hstep : ∀ i, (g.WorkerRoutine i).m_cursor = g.m_cursor
      ∨ (g.WorkerRoutine i).m_cursor = g.m_cursor + 1 := by
    intro i
    rw [WorkerRoutine_cursor]
    cases g.m_workers[i]? with
    | none => exact Or.inl rfl
    | some w =>
      by_cases hp : w.pc = .fetch
      · simp [hp]
      · simp [hp]
  have hclear : ∀ j, (g.apply (.clear j)).m_cursor = g.m_cursor := by
    intro j
    simp only [BatchedWorkerGroup.apply]
    split <;> rfl
  refine ⟨hstep, fun _ => rfl, rfl, ?_, rfl, ?_⟩
  · have h := run_clears (g.apply .stopLiving) g.m_workers [] rfl
    simp only [List.length_nil, List.nil_append] at h
    show ((g.apply .stopLiving).run (clearsFrom 0 g.m_workers.length)).m_cursor = _
    rw [h]
    rfl
  · intro e he
    cases e with
    | step i =>
      rcases hstep i with h | h <;> simp only [BatchedWorkerGroup.apply] at he <;> omega
    | setBatch ts => exact absurd he (Nat.lt_irrefl _)
    | storeCursor => rfl
    | clear j => rw [hclear j] at he; exact absurd he (Nat.lt_irrefl _)
    | stopLiving => exact absurd he (Nat.lt_irrefl _)

end BatchedWorkerGroup

/-! ## The claims on the scheduler -/

namespace Scheduler

theorem groupSize_new {ρ : Type} (lock0 : Bool) (pc0 : ρ) (id : EWorkerGroupID) (n : Nat)
    (h : n < 65536) : (WorkerGroup.new lock0 pc0 id n).GetGroupSize = n := by
  simp [WorkerGroup.GetGroupSize, WorkerGroup.new, Nat.mod_eq_of_lt h]

theorem Ecs_beq_Io : (EWorkerGroupID.Ecs == EWorkerGroupID.Io) = false := by decide

theorem new_groups (lock0 : Bool) (C : Nat) :
    (new lock0 C).m_groups =
      [(.Io, .relaxed (RelaxedWorkerGroup.new lock0 .Io
          ((C + 4294967295) % 4294967296 % 65536 / 4 % 65536))),
       (.Ecs, .batched (BatchedWorkerGroup.new lock0 .Ecs
          (((C + 4294967295) % 4294967296 % 65536
            - (C + 4294967295) % 4294967296 % 65536 / 4 % 65536) % 65536)))] := by
  simp [new, try_emplace, List.lookup, Ecs_beq_Io]

theorem sizes_new (lock0 : Bool) (C : Nat) :
    (new lock0 C).GetWorkerGroupSize .Io
        = some ((C + 4294967295) % 4294967296 % 65536 / 4)
      ∧ (new lock0 C).GetWorkerGroupSize .Ecs
        = some ((C + 4294967295) % 4294967296 % 65536
            - (C + 4294967295) % 4294967296 % 65536 / 4) := by
  have hc : (C + 4294967295) % 4294967296 % 65536 < 65536 := Nat.mod_lt _ (by norm_num)
  simp only [GetWorkerGroupSize, new_groups]
  generalize (C + 4294967295) % 4294967296 % 65536 = c at hc
  have hio : c / 4 % 65536 = c / 4 := Nat.mod_eq_of_lt (by omega)
  have hecs : (c - c / 4) % 65536 = c - c / 4 := Nat.mod_eq_of_lt (by omega)
  rw [hio, hecs]
  constructor
  · simp [List.lookup, AnyGroup.GetGroupSize, RelaxedWorkerGroup.new,
      groupSize_new lock0 RPc.dequeue .Io (c / 4) (by omega)]
  · simp [List.lookup, Ecs_beq_Io, AnyGroup.GetGroupSize, BatchedWorkerGroup.new,
      groupSize_new lock0 BPc.start .Ecs (c - c / 4) (by omega)]

/-- C9 (amended): for a reported hardware thread count `C` with
`1 ≤ C ≤ 65536`, the scheduler constructs a relaxed `IO` group of `(C-1)/4`
workers and a batched `Ecs` group of `(C-1) - (C-1)/4` workers, and
`GetWorkerGroupSize` returns exactly these two values. -/
theorem group_sizes (lock0 : Bool) (C : Nat) (h1 : 1 ≤ C) (h2 : C ≤ 65536) :
    (new lock0 C).m_groups =
        [(.Io, .relaxed (RelaxedWorkerGroup.new lock0 .Io ((C - 1) / 4))),
         (.Ecs, .batched (BatchedWorkerGroup.new lock0 .Ecs ((C - 1) - (C - 1) / 4)))]
      ∧ (new lock0 C).GetWorkerGroupSize .Io = some ((C - 1) / 4)
      ∧ (new lock0 C).GetWorkerGroupSize .Ecs = some ((C - 1) - (C - 1) / 4) := by
  have hc : (C + 4294967295) % 4294967296 % 65536 = C - 1 := by omega
  have hio : (C - 1) / 4 % 65536 = (C - 1) / 4 := Nat.mod_eq_of_lt (by omega)
  have hecs : ((C - 1) - (C - 1) / 4) % 65536 = (C - 1) - (C - 1) / 4 :=
    Nat.mod_eq_of_lt (by omega)
  have hs := sizes_new lock0 C
  rw [hc] at hs
  refine ⟨?_, hs.1, hs.2⟩
  rw [new_groups, hc, hio, hecs]

/-- Witness for C9: eight hardware threads give 1 `IO` worker and 6 `Ecs`
workers. -/
theorem group_sizes_witness :
    1 ≤ 8 ∧ 8 ≤ 65536
      ∧ (new true 8).m_groups =
        [(.Io, .relaxed (RelaxedWorkerGroup.new true .Io ((8 - 1) / 4))),
         (.Ecs, .batched (BatchedWorkerGroup.new true .Ecs ((8 - 1) - (8 - 1) / 4)))]
      ∧ (new true 8).GetWorkerGroupSize .Io = some ((8 - 1) / 4)
      ∧ (new true 8).GetWorkerGroupSize .Ecs = some ((8 - 1) - (8 - 1) / 4) :=
  ⟨by decide, by decide, group_sizes true 8 (by decide) (by decide)⟩

/-- C9 as stated fails outside `1 ≤ C ≤ 65536`. For `C = 0` (thread count
unknown) the unsigned subtraction wraps: the groups get 16383 and 49152
workers, not `(0-1)/4 = 0` and 0. For `C = 65537` the 16-bit cast gives a
budget of 0: both groups are empty, not of 16384 and 49152 workers. -/
theorem group_sizes_fails :
    ((new true 0).GetWorkerGroupSize .Io = some 16383
      ∧ (new true 0).GetWorkerGroupSize .Ecs = some 49152
      ∧ (0 - 1) / 4 = 0)
    ∧ ((new true 65537).GetWorkerGroupSize .Io = some 0
      ∧ (new true 65537).GetWorkerGroupSize .Ecs = some 0
      ∧ (65537 - 1) / 4 = 16384 ∧ (65537 - 1) - (65537 - 1) / 4 = 49152) := by
  have h0 := sizes_new true 0
  have h1 := sizes_new true 65537
  exact ⟨⟨h0.1, h0.2, by decide⟩, ⟨h1.1, h1.2, by decide, by decide⟩⟩

/-- C10 (code defect): `Scheduler::EnqueueTask` hands the task to no group. For
every scheduler, task and group identifier the call returns the scheduler
unchanged; on a scheduler for eight hardware threads, after
`EnqueueTask(t1, IO)` the queue of the `IO` group is still empty, whereas
`RelaxedWorkerGroup::EnqueueTask` on that group would make `t1` its newest
element. -/
theorem EnqueueTask_hands_over_nothing :
    (∀ (s : Scheduler) (t : Task) (id : EWorkerGroupID), s.EnqueueTask t id = s)
      ∧ ((new true 8).EnqueueTask (some 1) .Io).queueOf .Io = some []
      ∧ ((RelaxedWorkerGroup.new true .Io 1).EnqueueTask (some 1)).m_tasks.m_queue = [some 1] := by
  refine ⟨fun _ _ _ => rfl, ?_, rfl⟩
  decide

end Scheduler

/-! ## Worker steps, teardown and locks of the batched group -/

namespace BatchedWorkerGroup

theorem setWorker_get {g : BatchedWorkerGroup} {i : Nat} {w : BWorker} (w' : BWorker)
    (hw : g.m_workers[i]? = some w) : (g.setWorker i w').m_workers[i]? = some w' := by
  have hi : i < g.m_workers.length := by
    by_contra hc
    rw [List.getElem?_eq_none (by omega)] at hw
    cases hw
  simp [BatchedWorkerGroup.setWorker, hi]

theorem setWorker_twice (g : BatchedWorkerGroup) (i : Nat) (a b : BWorker) :
    (g.setWorker i a).setWorker i b = g.setWorker i b := by
  simp [BatchedWorkerGroup.setWorker]

theorem step_check {g : BatchedWorkerGroup} {i : Nat} {l : Bool}
    (hw : g.m_workers[i]? = some ⟨l, .check⟩) :
    g.WorkerRoutine i
      = if g.m_living then g.setWorker i ⟨l, .fetch⟩ else g.setWorker i ⟨l, .done⟩ := by
  unfold WorkerRoutine
  rw [hw]

theorem step_fetch {g : BatchedWorkerGroup} {i : Nat} {l : Bool}
    (hw : g.m_workers[i]? = some ⟨l, .fetch⟩) :
    g.WorkerRoutine i
      = match g.m_tasks[g.m_cursor]? with
        | none => { g with m_cursor := g.m_cursor + 1 }.setWorker i ⟨l, .fault⟩
        | some none => { g with m_cursor := g.m_cursor + 1 }.setWorker i ⟨l, .park⟩
        | some (some t) => { g with m_cursor := g.m_cursor + 1 }.setWorker i ⟨l, .call t⟩ := by
  unfold WorkerRoutine
  rw [hw]
  try rfl

theorem step_call {g : BatchedWorkerGroup} {i : Nat} {l : Bool} {t : TaskId}
    (hw : g.m_workers[i]? = some ⟨l, .call t⟩) :
    g.WorkerRoutine i = { g with log := g.log ++ [t] }.setWorker i ⟨l, .check⟩ := by
  unfold WorkerRoutine
  rw [hw]

theorem step_park {g : BatchedWorkerGroup} {i : Nat} {l : Bool}
    (hw : g.m_workers[i]? = some ⟨l, .park⟩) :
    g.WorkerRoutine i = g.setWorker i ⟨true, .spin⟩ := by
  unfold WorkerRoutine
  rw [hw]

theorem step_spin {g : BatchedWorkerGroup} {i : Nat} {l : Bool}
    (hw : g.m_workers[i]? = some ⟨l, .spin⟩) :
    g.WorkerRoutine i = if l then g else g.setWorker i ⟨true, .check⟩ := by
  unfold WorkerRoutine
  rw [hw]

theorem step_start {g : BatchedWorkerGroup} {i : Nat} {l : Bool}
    (hw : g.m_workers[i]? = some ⟨l, .start⟩) :
    g.WorkerRoutine i = g.setWorker i ⟨true, .spin⟩ := by
  unfold WorkerRoutine
  rw [hw]

/-- C19: one iteration of the worker loop by worker `i`, taken from the loop
test with the living flag set and the cursor `c` inside the buffer, claims
index `c` and moves the cursor to `c + 1`. If `buffer[c]` is a task `t`, the
iteration calls `t` once (one more log entry) and the worker is back at the
loop test, running; nothing else changes. If `buffer[c]` is null, nothing is
called, the worker sets its lock and spins: its further steps change nothing
until another thread clears the lock, after which its next step leaves the
spin loop. -/
theorem iteration_effect (g : BatchedWorkerGroup) (i : Nat) (l : Bool)
    (hw : g.m_workers[i]? = some ⟨l, .check⟩) (hl : g.m_living = true) :
    g.claims [.step i, .step i, .step i] = [(i, g.m_cursor)]
      ∧ (g.iteration i).m_cursor = g.m_cursor + 1
      ∧ (∀ t, g.m_tasks[g.m_cursor]? = some (some t) →
          g.iteration i
              = { g with m_cursor := g.m_cursor + 1, log := g.log ++ [t] }.setWorker i
                  ⟨l, .check⟩
            ∧ g.calls [.step i, .step i, .step i] = [(i, t)])
      ∧ (g.m_tasks[g.m_cursor]? = some none →
          g.iteration i = { g with m_cursor := g.m_cursor + 1 }.setWorker i ⟨true, .spin⟩
            ∧ g.calls [.step i, .step i, .step i] = []
            ∧ (g.iteration i).m_workers[i]? = some ⟨true, .spin⟩
            ∧ (g.iteration i).WorkerRoutine i = g.iteration i
            ∧ ((g.iteration i).apply (.clear i)).WorkerRoutine i
                = { g with m_cursor := g.m_cursor + 1 }.setWorker i ⟨true, .check⟩) := by
  have h1 : g.WorkerRoutine i = g.setWorker i ⟨l, .fetch⟩ := by
    rw [step_check hw, hl]; rfl
  have hw1 : (g.WorkerRoutine i).m_workers[i]? = some ⟨l, .fetch⟩ := by
    rw [h1]; exact setWorker_get _ hw
  have hc1 : (g.WorkerRoutine i).m_cursor = g.m_cursor := by rw [h1]; rfl
  have h2 := step_fetch hw1
  have key : ∀ (w : BWorker), w.pc ≠ .fetch →
      (g.WorkerRoutine i).WorkerRoutine i
        = { g with m_cursor := g.m_cursor + 1 }.setWorker i w →
      g.claims [.step i, .step i, .step i] = [(i, g.m_cursor)]
        ∧ ((g.WorkerRoutine i).WorkerRoutine i).m_workers[i]? = some w := by
    intro w hp h3
    have hw2 : ((g.WorkerRoutine i).WorkerRoutine i).m_workers[i]? = some w := by
      rw [h3]; exact @setWorker_get { g with m_cursor := g.m_cursor + 1 } i _ w hw
    exact ⟨by simp [claims, BatchedWorkerGroup.apply, hw, hw1, hc1, hw2, hp], hw2⟩
  have hcalls : ∀ (w : BWorker),
      ((g.WorkerRoutine i).WorkerRoutine i).m_workers[i]? = some w →
      g.calls [.step i, .step i, .step i]
        = match w.pc with
          | .call t => [(i, t)]
          | _ => [] := by
    intro w hw2
    simp only [calls, BatchedWorkerGroup.apply, hw, hw1, hw2]
  cases hx : g.m_tasks[g.m_cursor]? with
  | none =>
    have h3 : (g.WorkerRoutine i).WorkerRoutine i
        = { g with m_cursor := g.m_cursor + 1 }.setWorker i ⟨l, .fault⟩ := by
      rw [h2, h1]
      simp [BatchedWorkerGroup.setWorker, hx]
    obtain ⟨hcl, hw2⟩ := key _ (by simp) h3
    refine ⟨hcl, ?_, ?_, ?_⟩
    · show (((g.WorkerRoutine i).WorkerRoutine i).WorkerRoutine i).m_cursor = _
      rw [WorkerRoutine_cursor, hw2, h3]
      rfl
    · intro t ht; cases ht
    · intro ht; cases ht
  | some x =>
    cases x with
    | none =>
      have h3 : (g.WorkerRoutine i).WorkerRoutine i
          = { g with m_cursor := g.m_cursor + 1 }.setWorker i ⟨l, .park⟩ := by
        rw [h2, h1]
        simp [BatchedWorkerGroup.setWorker, hx]
      obtain ⟨hcl, hw2⟩ := key _ (by simp) h3
      have h4 : g.iteration i
          = { g with m_cursor := g.m_cursor + 1 }.setWorker i ⟨true, .spin⟩ := by
        show ((g.WorkerRoutine i).WorkerRoutine i).WorkerRoutine i = _
        rw [step_park hw2, h3, setWorker_twice]
      have hw3 : (g.iteration i).m_workers[i]? = some ⟨true, .spin⟩ := by
        rw [h4]; exact @setWorker_get { g with m_cursor := g.m_cursor + 1 } i _ _ hw
      refine ⟨hcl, by rw [h4]; rfl, ?_, ?_⟩
      · intro t ht; cases ht
      · intro _
        refine ⟨h4, ?_, hw3, ?_, ?_⟩
        · rw [hcalls _ hw2]
        · rw [step_spin hw3]; rfl
        · have h5 : (g.iteration i).apply (.clear i)
              = { g with m_cursor := g.m_cursor + 1 }.setWorker i ⟨false, .spin⟩ := by
            simp only [BatchedWorkerGroup.apply, hw3]
            rw [h4, setWorker_twice]
            rfl
          have hw5 : ((g.iteration i).apply (.clear i)).m_workers[i]? = some ⟨false, .spin⟩ := by
            rw [h5]; exact @setWorker_get { g with m_cursor := g.m_cursor + 1 } i _ _ hw
          rw [step_spin hw5, h5, setWorker_twice]
          rfl
    | some t =>
      have h3 : (g.WorkerRoutine i).WorkerRoutine i
          = { g with m_cursor := g.m_cursor + 1 }.setWorker i ⟨l, .call t⟩ := by
        rw [h2, h1]
        simp [BatchedWorkerGroup.setWorker, hx]
      obtain ⟨hcl, hw2⟩ := key _ (by simp) h3
      have h4 : g.iteration i
          = { g with m_cursor := g.m_cursor + 1, log := g.log ++ [t] }.setWorker i
              ⟨l, .check⟩ := by
        show ((g.WorkerRoutine i).WorkerRoutine i).WorkerRoutine i = _
        rw [step_call hw2, h3]
        simp [BatchedWorkerGroup.setWorker]
      refine ⟨hcl, by rw [h4]; rfl, ?_, ?_⟩
      · intro t' ht
        cases ht
        exact ⟨h4, by rw [hcalls _ hw2]⟩
      · intro ht; cases ht


/-- Witness for C19: worker 0 at the loop test in front of task 10: the iteration
claims index 0, moves the cursor to 1 and calls task 10. -/
theorem iteration_effect_witness :
    atLoopTest.m_workers[0]? = some ⟨true, .check⟩
      ∧ atLoopTest.m_living = true
      ∧ atLoopTest.m_tasks[atLoopTest.m_cursor]? = some (some 10)
      ∧ atLoopTest.claims [.step 0, .step 0, .step 0] = [(0, atLoopTest.m_cursor)]
      ∧ (atLoopTest.iteration 0).m_cursor = atLoopTest.m_cursor + 1
      ∧ atLoopTest.calls [.step 0, .step 0, .step 0] = [(0, 10)]
      ∧ (atLoopTest.iteration 0).log = [10] :=
  ⟨by decide, by decide, by decide,
    (iteration_effect atLoopTest 0 true (by decide) (by decide)).1,
    (iteration_effect atLoopTest 0 true (by decide) (by decide)).2.1,
    ((iteration_effect atLoopTest 0 true (by decide) (by decide)).2.2.1 10 (by decide)).2,
    by decide⟩

theorem step_halted {g : BatchedWorkerGroup} {i : Nat}
    (hw : g.m_workers[i]? = none ∨ (∃ l, g.m_workers[i]? = some ⟨l, .done⟩)
      ∨ (∃ l, g.m_workers[i]? = some ⟨l, .fault⟩)) :
    g.WorkerRoutine i = g := by
  unfold WorkerRoutine
  rcases hw with hw | ⟨l, hw⟩ | ⟨l, hw⟩ <;> rw [hw]

/-- A worker step changes at most the cursor, the log and the stepping worker. -/
theorem WorkerRoutine_form (g : BatchedWorkerGroup) (j : Nat) :
    ∃ c lg, g.WorkerRoutine j = { g with m_cursor := c, log := lg }
      ∨ ∃ w, g.WorkerRoutine j = { g with m_cursor := c, log := lg }.setWorker j w := by
  cases hj : g.m_workers[j]? with
  | none => exact ⟨g.m_cursor, g.log, Or.inl (step_halted (Or.inl hj))⟩
  | some w =>
    obtain ⟨l, pc⟩ := w
    cases pc with
    | start => exact ⟨g.m_cursor, g.log, Or.inr ⟨_, step_start hj⟩⟩
    | spin =>
      rw [step_spin hj]
      cases l with
      | true => exact ⟨g.m_cursor, g.log, Or.inl rfl⟩
      | false => exact ⟨g.m_cursor, g.log, Or.inr ⟨_, rfl⟩⟩
    | check =>
      rw [step_check hj]
      by_cases hl : g.m_living = true
      · rw [if_pos hl]; exact ⟨g.m_cursor, g.log, Or.inr ⟨_, rfl⟩⟩
      · rw [if_neg hl]; exact ⟨g.m_cursor, g.log, Or.inr ⟨_, rfl⟩⟩
    | fetch =>
      rw [step_fetch hj]
      cases g.m_tasks[g.m_cursor]? with
      | none => exact ⟨g.m_cursor + 1, g.log, Or.inr ⟨_, rfl⟩⟩
      | some x =>
        cases x with
        | none => exact ⟨g.m_cursor + 1, g.log, Or.inr ⟨_, rfl⟩⟩
        | some t => exact ⟨g.m_cursor + 1, g.log, Or.inr ⟨_, rfl⟩⟩
    | call t => exact ⟨g.m_cursor, g.log ++ [t], Or.inr ⟨_, step_call hj⟩⟩
    | park => exact ⟨g.m_cursor, g.log, Or.inr ⟨_, step_park hj⟩⟩
    | done => exact ⟨g.m_cursor, g.log, Or.inl (step_halted (Or.inr (Or.inl ⟨l, hj⟩)))⟩
    | fault => exact ⟨g.m_cursor, g.log, Or.inl (step_halted (Or.inr (Or.inr ⟨l, hj⟩)))⟩

theorem WorkerRoutine_living (g : BatchedWorkerGroup) (j : Nat) :
    (g.WorkerRoutine j).m_living = g.m_living := by
  obtain ⟨c, lg, h | ⟨w, h⟩⟩ := WorkerRoutine_form g j
  · rw [h]
  · rw [h]; rfl

theorem WorkerRoutine_tasks (g : BatchedWorkerGroup) (j : Nat) :
    (g.WorkerRoutine j).m_tasks = g.m_tasks := by
  obtain ⟨c, lg, h | ⟨w, h⟩⟩ := WorkerRoutine_form g j
  · rw [h]
  · rw [h]; rfl

theorem WorkerRoutine_id (g : BatchedWorkerGroup) (j : Nat) :
    (g.WorkerRoutine j).m_group_id = g.m_group_id := by
  obtain ⟨c, lg, h | ⟨w, h⟩⟩ := WorkerRoutine_form g j
  · rw [h]
  · rw [h]; rfl

theorem WorkerRoutine_other (g : BatchedWorkerGroup) {i j : Nat} (h : j ≠ i) :
    (g.WorkerRoutine j).m_workers[i]? = g.m_workers[i]? := by
  obtain ⟨c, lg, h1 | ⟨w, h1⟩⟩ := WorkerRoutine_form g j <;> rw [h1]
  simp [BatchedWorkerGroup.setWorker, List.getElem?_set, h]

theorem clear_other (g : BatchedWorkerGroup) {i j : Nat} (h : j ≠ i) :
    (g.apply (.clear j)).m_workers[i]? = g.m_workers[i]? := by
  simp only [BatchedWorkerGroup.apply]
  split
  · rfl
  · simp [BatchedWorkerGroup.setWorker, List.getElem?_set, h]

theorem clear_length (g : BatchedWorkerGroup) (j : Nat) :
    (g.apply (.clear j)).m_workers.length = g.m_workers.length := by
  simp only [BatchedWorkerGroup.apply]
  split
  · rfl
  · simp [BatchedWorkerGroup.setWorker]

theorem clear_living (g : BatchedWorkerGroup) (j : Nat) :
    (g.apply (.clear j)).m_living = g.m_living := by
  simp only [BatchedWorkerGroup.apply]
  split <;> rfl


theorem claims_step (g : BatchedWorkerGroup) (j : Nat) (es : List Event) (i : Nat)
    (hpc : ∀ w, j = i → g.m_workers[j]? = some w → w.pc ≠ .fetch)
    (ih : ∀ p ∈ (g.WorkerRoutine j).claims es, p.1 ≠ i) :
    ∀ p ∈ g.claims (.step j :: es), p.1 ≠ i := by
  intro p hp
  simp only [claims, BatchedWorkerGroup.apply] at hp
  cases hw : g.m_workers[j]? with
  | none => rw [hw] at hp; exact ih p hp
  | some w =>
    rw [hw] at hp
    simp only at hp
    by_cases hf : w.pc = .fetch
    · rw [if_pos hf] at hp
      rcases List.mem_cons.mp hp with h | h
      · rw [h]
        intro hji
        exact hpc w hji hw hf
      · exact ih p h
    · rw [if_neg hf] at hp
      exact ih p hp

theorem calls_step (g : BatchedWorkerGroup) (j : Nat) (es : List Event) (i : Nat)
    (hpc : ∀ w t, j = i → g.m_workers[j]? = some w → w.pc ≠ .call t)
    (ih : ∀ p ∈ (g.WorkerRoutine j).calls es, p.1 ≠ i) :
    ∀ p ∈ g.calls (.step j :: es), p.1 ≠ i := by
  intro p hp
  simp only [calls, BatchedWorkerGroup.apply] at hp
  cases hw : g.m_workers[j]? with
  | none => rw [hw] at hp; exact ih p hp
  | some w =>
    rw [hw] at hp
    obtain ⟨l, pc⟩ := w
    cases pc with
    | call t =>
      simp only at hp
      rcases List.mem_cons.mp hp with h | h
      · rw [h]
        intro hji
        exact hpc _ t hji hw rfl
      · exact ih p h
    | _ => exact ih p hp

theorem Retiring.on_step {i k : Nat} {g : BatchedWorkerGroup} (h : Retiring i k g)
    (hl : g.m_living = false) (j : Nat) :
    Retiring i k (g.WorkerRoutine j)
      ∧ (∀ w, j = i → g.m_workers[j]? = some w → w.pc ≠ .fetch)
      ∧ (∀ w t, j = i → g.m_workers[j]? = some w → w.pc ≠ .call t) := by
  by_cases hji : j = i
  · subst hji
    rcases h with ⟨hk, hw⟩ | ⟨hk, w, hw, hlv⟩
    · refine ⟨Or.inl ⟨hk, ?_⟩, ?_, ?_⟩
      · rw [step_spin hw]; exact hw
      · intro w _ hw2; rw [hw] at hw2; cases hw2; simp
      · intro w t _ hw2; rw [hw] at hw2; cases hw2; simp
    · refine ⟨Or.inr ⟨hk, ?_⟩, ?_, ?_⟩
      · rcases hlv with rfl | rfl | rfl
        · refine ⟨⟨true, .check⟩, ?_, Or.inr (Or.inl rfl)⟩
          rw [step_spin hw]
          exact setWorker_get _ hw
        · refine ⟨⟨true, .done⟩, ?_, Or.inr (Or.inr rfl)⟩
          rw [step_check hw, hl]
          exact setWorker_get _ hw
        · refine ⟨⟨true, .done⟩, ?_, Or.inr (Or.inr rfl)⟩
          rw [step_halted (Or.inr (Or.inl ⟨true, hw⟩))]
          exact hw
      · intro w2 _ hw2
        rw [hw] at hw2; cases hw2
        rcases hlv with rfl | rfl | rfl <;> simp
      · intro w2 t _ hw2
        rw [hw] at hw2; cases hw2
        rcases hlv with rfl | rfl | rfl <;> simp
  · refine ⟨?_, fun _ h1 => absurd h1 hji, fun _ _ h1 => absurd h1 hji⟩
    rcases h with ⟨hk, hw⟩ | ⟨hk, w, hw, hlv⟩
    · exact Or.inl ⟨hk, by rw [WorkerRoutine_other g hji]; exact hw⟩
    · exact Or.inr ⟨hk, w, by rw [WorkerRoutine_other g hji]; exact hw, hlv⟩

theorem Retiring.on_clear {i k : Nat} {g : BatchedWorkerGroup} (h : Retiring i k g) :
    Retiring i (k + 1) (g.apply (.clear k)) := by
  by_cases hki : k = i
  · subst hki
    rcases h with ⟨_, hw⟩ | ⟨hk, _⟩
    · refine Or.inr ⟨Nat.lt_succ_self _, ⟨false, .spin⟩, ?_, Or.inl rfl⟩
      simp only [BatchedWorkerGroup.apply, hw]
      exact setWorker_get _ hw
    · omega
  · rcases h with ⟨hk, hw⟩ | ⟨hk, w, hw, hlv⟩
    · exact Or.inl ⟨by omega, by rw [clear_other g hki]; exact hw⟩
    · exact Or.inr ⟨by omega, w, by rw [clear_other g hki]; exact hw, hlv⟩

/-- With the living flag cleared, a sleeper makes no claim and no call during
the lock clears of the destructor, and is on its way out at their end. -/
theorem Retiring.finish {i : Nat} :
    ∀ (es : List Event) (k : Nat) (g : BatchedWorkerGroup), Retiring i k g →
      g.m_living = false → k ≤ g.m_workers.length →
      es.filter Event.isMain = clearsFrom k (g.m_workers.length - k) →
      (∀ p ∈ g.claims es, p.1 ≠ i) ∧ (∀ p ∈ g.calls es, p.1 ≠ i)
        ∧ (g.run es).m_living = false
        ∧ ∃ w, (g.run es).m_workers[i]? = some w ∧ Leaving w
  | [], k, g, h, hl, hk, hes => by
    refine ⟨by simp [claims], by simp [calls], hl, ?_⟩
    cases hn : g.m_workers.length - k with
    | zero =>
      rcases h with ⟨hki, hw⟩ | ⟨_, w, hw, hlv⟩
      · have hi : i < g.m_workers.length := by
          by_contra hc
          rw [List.getElem?_eq_none (by omega)] at hw
          cases hw
        omega
      · exact ⟨w, hw, hlv⟩
    | succ n => rw [hn] at hes; simp [clearsFrom] at hes
  | e :: es, k, g, h, hl, hk, hes => by
    show _ ∧ _ ∧ ((g.apply e).run es).m_living = false
      ∧ ∃ w, ((g.apply e).run es).m_workers[i]? = some w ∧ _
    cases e with
    | step j =>
      obtain ⟨h1, h2, h3⟩ := h.on_step hl j
      have ih := Retiring.finish es k (g.WorkerRoutine j) h1
        (by rw [WorkerRoutine_living]; exact hl) (by rw [WorkerRoutine_length]; exact hk)
        (by rw [WorkerRoutine_length]; simpa [Event.isMain] using hes)
      exact ⟨claims_step g j es i h2 ih.1, calls_step g j es i h3 ih.2.1, ih.2.2⟩
    | clear j =>
      cases hn : g.m_workers.length - k with
      | zero => rw [hn] at hes; simp [clearsFrom, Event.isMain] at hes
      | succ n =>
        rw [hn] at hes
        simp only [clearsFrom, Event.isMain, List.filter_cons_of_pos, List.cons.injEq,
          Event.clear.injEq] at hes
        obtain ⟨hj, hes⟩ := hes
        subst hj
        have ih := Retiring.finish es (j + 1) (g.apply (.clear j)) h.on_clear
          (by rw [clear_living]; exact hl) (by rw [clear_length]; omega)
          (by rw [clear_length]
              have : g.m_workers.length - (j + 1) = n := by omega
              rw [this]; exact hes)
        exact ⟨by simpa [claims] using ih.1, by simpa [calls] using ih.2.1, ih.2.2⟩
    | setBatch ts =>
      cases hn : g.m_workers.length - k with
      | zero => rw [hn] at hes; simp [clearsFrom, Event.isMain] at hes
      | succ n => rw [hn] at hes; simp [clearsFrom, Event.isMain] at hes
    | storeCursor =>
      cases hn : g.m_workers.length - k with
      | zero => rw [hn] at hes; simp [clearsFrom, Event.isMain] at hes
      | succ n => rw [hn] at hes; simp [clearsFrom, Event.isMain] at hes
    | stopLiving =>
      cases hn : g.m_workers.length - k with
      | zero => rw [hn] at hes; simp [clearsFrom, Event.isMain] at hes
      | succ n => rw [hn] at hes; simp [clearsFrom, Event.isMain] at hes

/-- A sleeper makes no claim and no call during the whole teardown, and is on
its way out at its end. -/
theorem sleeper_leaves {i : Nat} :
    ∀ (es : List Event) (g : BatchedWorkerGroup), g.m_workers[i]? = some ⟨true, .spin⟩ →
      es.filter Event.isMain = teardownProgram g.m_workers.length →
      (∀ p ∈ g.claims es, p.1 ≠ i) ∧ (∀ p ∈ g.calls es, p.1 ≠ i)
        ∧ (g.run es).m_living = false
        ∧ ∃ w, (g.run es).m_workers[i]? = some w ∧ Leaving w
  | [], g, _, hes => by simp [teardownProgram] at hes
  | e :: es, g, hw, hes => by
    show _ ∧ _ ∧ ((g.apply e).run es).m_living = false
      ∧ ∃ w, ((g.apply e).run es).m_workers[i]? = some w ∧ _
    cases e with
    | step j =>
      have hw1 : (g.WorkerRoutine j).m_workers[i]? = some ⟨true, .spin⟩ := by
        by_cases hji : j = i
        · subst hji; rw [step_spin hw]; exact hw
        · rw [WorkerRoutine_other g hji]; exact hw
      have ih := sleeper_leaves es (g.WorkerRoutine j) hw1
        (by rw [WorkerRoutine_length]; simpa [Event.isMain] using hes)
      refine ⟨claims_step g j es i ?_ ih.1, calls_step g j es i ?_ ih.2.1, ih.2.2⟩
      · intro w hji hw2
        subst hji; rw [hw] at hw2; cases hw2; simp
      · intro w t hji hw2
        subst hji; rw [hw] at hw2; cases hw2; simp
    | stopLiving =>
      simp only [teardownProgram, Event.isMain, List.filter_cons_of_pos, List.cons.injEq,
        true_and] at hes
      have ih := Retiring.finish es 0 (g.apply .stopLiving) (Or.inl ⟨Nat.zero_le _, hw⟩)
        rfl (Nat.zero_le _) (by simpa using hes)
      exact ⟨by simpa [claims] using ih.1, by simpa [calls] using ih.2.1, ih.2.2⟩
    | clear j => simp [teardownProgram, Event.isMain] at hes
    | setBatch ts => simp [teardownProgram, Event.isMain] at hes
    | storeCursor => simp [teardownProgram, Event.isMain] at hes


/-- A worker on its way out returns within two more steps of its own once the
living flag is cleared. -/
theorem Leaving.done_in_two {g : BatchedWorkerGroup} {i : Nat} {w : BWorker}
    (hw : g.m_workers[i]? = some w) (hlv : Leaving w) (hl : g.m_living = false) :
    ((g.WorkerRoutine i).WorkerRoutine i).m_workers[i]? = some ⟨true, .done⟩ := by
  rcases hlv with rfl | rfl | rfl
  · have h1 : g.WorkerRoutine i = g.setWorker i ⟨true, .check⟩ := by rw [step_spin hw]; rfl
    have hw1 : (g.WorkerRoutine i).m_workers[i]? = some ⟨true, .check⟩ := by
      rw [h1]; exact setWorker_get _ hw
    rw [step_check hw1, WorkerRoutine_living, hl]
    exact setWorker_get _ hw1
  · have h1 : g.WorkerRoutine i = g.setWorker i ⟨true, .done⟩ := by
      rw [step_check hw, hl]; rfl
    have hw1 : (g.WorkerRoutine i).m_workers[i]? = some ⟨true, .done⟩ := by
      rw [h1]; exact setWorker_get _ hw
    rw [step_halted (Or.inr (Or.inl ⟨true, hw1⟩))]
    exact hw1
  · rw [step_halted (Or.inr (Or.inl ⟨true, hw⟩)), step_halted (Or.inr (Or.inl ⟨true, hw⟩))]
    exact hw

/-- C20: take a worker `i` that sleeps on its lock (in its initial sleep or after
a null task) and any schedule in which the calling thread performs the writes
of the destructor (living flag cleared, then the lock clears in order),
interleaved in any way with worker steps. Along the schedule worker `i`
performs no `fetch_add` and calls no task; at the end it is leaving its spin
loop, at the loop test or returned, with the living flag cleared, so that its
next two steps take it to the end of its routine; and it has returned in
every final state in which no worker can step. -/
theorem sleeper_exits_without_claim (g : BatchedWorkerGroup) (i : Nat) (es : List Event)
    (hw : g.m_workers[i]? = some ⟨true, .spin⟩)
    (hes : es.filter Event.isMain = teardownProgram g.m_workers.length) :
    (∀ p ∈ g.claims es, p.1 ≠ i) ∧ (∀ p ∈ g.calls es, p.1 ≠ i)
      ∧ (g.run es).m_living = false
      ∧ (∃ w, (g.run es).m_workers[i]? = some w ∧ Leaving w)
      ∧ (((g.run es).WorkerRoutine i).WorkerRoutine i).m_workers[i]? = some ⟨true, .done⟩
      ∧ (quiescent (g.run es) = true → (g.run es).m_workers[i]? = some ⟨true, .done⟩) := by
  obtain ⟨h1, h2, h3, w, h4, h5⟩ := sleeper_leaves es g hw hes
  refine ⟨h1, h2, h3, ⟨w, h4, h5⟩, h5.done_in_two h4 h3, ?_⟩
  intro hq
  simp only [quiescent, List.all_eq_true] at hq
  have := hq w (List.getElem?_mem h4)
  rcases h5 with rfl | rfl | rfl
  · simp [enabled] at this
  · simp [enabled] at this
  · exact h4


/-- Witness for C20: worker 0 of two sleeping workers during `quietTeardown`:
it makes no claim and no call and has returned at the end. -/
theorem sleeper_exits_without_claim_witness :
    (sleeping 2).m_workers[0]? = some ⟨true, .spin⟩
      ∧ quietTeardown.filter Event.isMain = teardownProgram (sleeping 2).m_workers.length
      ∧ (sleeping 2).claims quietTeardown = []
      ∧ (sleeping 2).calls quietTeardown = []
      ∧ ((sleeping 2).run quietTeardown).m_living = false
      ∧ quiescent ((sleeping 2).run quietTeardown) = true
      ∧ ((sleeping 2).run quietTeardown).m_workers[0]? = some ⟨true, .done⟩ :=
  ⟨by decide, by decide, by decide, by decide,
    (sleeper_exits_without_claim (sleeping 2) 0 quietTeardown (by decide) (by decide)).2.2.1,
    by decide,
    (sleeper_exits_without_claim (sleeping 2) 0 quietTeardown (by decide) (by decide)).2.2.2.2.2
      (by decide)⟩

theorem Tidy.worker_step {k : Nat} {g : BatchedWorkerGroup} (h : Tidy k g) (j : Nat) :
    Tidy k (g.WorkerRoutine j) := by
  cases hj : g.m_workers[j]? with
  | none => rw [step_halted (Or.inl hj)]; exact h
  | some w =>
    have hmem := List.getElem?_mem hj
    have hold := h.clearSpin w hmem
    have hset : ∀ (g2 : BatchedWorkerGroup) (w2 : BWorker), g2.m_workers = g.m_workers →
        (w2.lock = false → w2.pc = .spin) → (k ≤ j → w2 = ⟨true, .spin⟩) →
        Tidy k (g2.setWorker j w2) := by
      intro g2 w2 hws h1 h2
      refine ⟨?_, ?_⟩
      · intro x hx
        simp only [BatchedWorkerGroup.setWorker, hws] at hx
        rcases List.mem_or_eq_of_mem_set hx with hx | hx
        · exact h.clearSpin x hx
        · rw [hx]; exact h1
      · intro i x hi hx
        simp only [BatchedWorkerGroup.setWorker, hws, List.getElem?_set] at hx
        split at hx
        · split at hx
          · cases hx; subst_vars; exact h2 hi
          · cases hx
        · exact h.unwoken i x hi hx
    have hun : k ≤ j → w = ⟨true, .spin⟩ := fun hk => h.unwoken j w hk hj
    obtain ⟨l, pc⟩ := w
    cases pc with
    | start =>
      rw [step_start hj]
      exact hset g _ rfl (by simp) (fun _ => rfl)
    | spin =>
      rw [step_spin hj]
      cases l with
      | true => exact h
      | false =>
        exact hset g _ rfl (by simp) (fun hk => by have := hun hk; simp at this)
    | check =>
      have hl : l = true := by cases l <;> simp_all
      subst hl
      rw [step_check hj]
      split
      · exact hset g _ rfl (by simp) (fun hk => by have := hun hk; simp at this)
      · exact hset g _ rfl (by simp) (fun hk => by have := hun hk; simp at this)
    | fetch =>
      have hl : l = true := by cases l <;> simp_all
      subst hl
      rw [step_fetch hj]
      split
      · exact hset _ _ rfl (by simp) (fun hk => by have := hun hk; simp at this)
      · exact hset _ _ rfl (by simp) (fun hk => by have := hun hk; simp at this)
      · exact hset _ _ rfl (by simp) (fun hk => by have := hun hk; simp at this)
    | call t =>
      have hl : l = true := by cases l <;> simp_all
      subst hl
      rw [step_call hj]
      exact hset _ _ rfl (by simp) (fun hk => by have := hun hk; simp at this)
    | park =>
      rw [step_park hj]
      exact hset g _ rfl (by simp) (fun _ => rfl)
    | done => rw [step_halted (Or.inr (Or.inl ⟨l, hj⟩))]; exact h
    | fault => rw [step_halted (Or.inr (Or.inr ⟨l, hj⟩))]; exact h

theorem Tidy.lock_clear {k : Nat} {g : BatchedWorkerGroup} (h : Tidy k g) :
    Tidy (k + 1) (g.apply (.clear k)) := by
  simp only [BatchedWorkerGroup.apply]
  cases hk : g.m_workers[k]? with
  | none => exact ⟨h.clearSpin, fun i w hi hw => h.unwoken i w (by omega) hw⟩
  | some w =>
    have := h.unwoken k w (Nat.le_refl k) hk
    subst this
    refine ⟨?_, ?_⟩
    · intro x hx
      simp only [BatchedWorkerGroup.setWorker] at hx
      rcases List.mem_or_eq_of_mem_set hx with hx | hx
      · exact h.clearSpin x hx
      · rw [hx]; intro _; rfl
    · intro i x hi hx
      simp only [BatchedWorkerGroup.setWorker, List.getElem?_set] at hx
      split at hx
      · omega
      · exact h.unwoken i x (by omega) hx

/-- The lock discipline holds at every point of the lock clears of a
`ConsumeBatch`. -/
theorem Tidy.during_clears :
    ∀ (es : List Event) (k n : Nat) (g : BatchedWorkerGroup), Tidy k g →
      (es.filter Event.isMain).isPrefixOf (clearsFrom k n) = true →
      ∃ k2, Tidy k2 (g.run es)
  | [], k, _, g, h, _ => ⟨k, h⟩
  | e :: es, k, n, g, h, hes => by
    show ∃ k2, Tidy k2 ((g.apply e).run es)
    cases e with
    | step j =>
      exact Tidy.during_clears es k n _ (h.worker_step j) (by simpa [Event.isMain] using hes)
    | clear j =>
      cases n with
      | zero => simp [clearsFrom, Event.isMain] at hes
      | succ n =>
        simp only [clearsFrom, Event.isMain, List.filter_cons_of_pos, List.isPrefixOf,
          Bool.and_eq_true, beq_iff_eq, Event.clear.injEq] at hes
        obtain ⟨hj, hes⟩ := hes
        subst hj
        exact Tidy.during_clears es (j + 1) n _ h.lock_clear hes
    | setBatch ts =>
      cases n with
      | zero => simp [clearsFrom, Event.isMain] at hes
      | succ n => simp [clearsFrom, Event.isMain] at hes
    | storeCursor =>
      cases n with
      | zero => simp [clearsFrom, Event.isMain] at hes
      | succ n => simp [clearsFrom, Event.isMain] at hes
    | stopLiving =>
      cases n with
      | zero => simp [clearsFrom, Event.isMain] at hes
      | succ n => simp [clearsFrom, Event.isMain] at hes

theorem Tidy.of_asleep {g : BatchedWorkerGroup} (hs : asleep g) : Tidy 0 g := by
  refine ⟨?_, fun i w _ hw => hs w (List.getElem?_mem hw)⟩
  intro w hw h
  rw [hs w hw] at h
  cases h

/-- From a sleeping group, the lock discipline holds at every point of a
`ConsumeBatch` in progress or completed. -/
theorem tidy_in_round {g : BatchedWorkerGroup} (hs : asleep g) :
    ∀ (es : List Event), inConsume g.m_workers.length es = true →
      ∃ k2, Tidy k2 (g.run es)
  | [], _ => ⟨0, Tidy.of_asleep hs⟩
  | e :: es, hes => by
    show ∃ k2, Tidy k2 ((g.apply e).run es)
    cases e with
    | step j =>
      simp only [BatchedWorkerGroup.apply, step_of_asleep hs]
      exact tidy_in_round hs es (by simpa [inConsume, Event.isMain] using hes)
    | storeCursor =>
      simp only [inConsume, consumeProgram, Event.isMain, List.filter_cons_of_pos,
        List.isPrefixOf, Bool.and_eq_true, beq_self_eq_true, true_and] at hes
      exact Tidy.during_clears es 0 _ _ (Tidy.of_asleep hs) hes
    | clear j => simp [inConsume, consumeProgram, Event.isMain] at hes
    | setBatch ts => simp [inConsume, consumeProgram, Event.isMain] at hes
    | stopLiving => simp [inConsume, consumeProgram, Event.isMain] at hes


/-- C15 (amended): in every state reached from a sleeping group while one
`ConsumeBatch` is in progress or completed (its writes interleaved in any way
with worker steps), a worker whose lock is clear is in its spin loop and about
to leave it, and a worker that is running (at the loop test, claiming a slot,
holding a task or about to sleep) has its lock set: the step that leaves the
spin loop sets the lock again. A set lock therefore belongs to a sleeping
worker or to a running one, and a clear lock is a wake-up not yet taken. -/
theorem lock_meaning (g0 : BatchedWorkerGroup) (es : List Event)
    (hsleep : allBlocked g0 = true)
    (hes : inConsume g0.m_workers.length es = true) :
    ∀ w ∈ (g0.run es).m_workers,
      (w.lock = false → w.pc = .spin ∧ enabled w = true)
        ∧ (active w = true → w.lock = true) := by
  obtain ⟨k, hk⟩ := tidy_in_round (asleep_of_allBlocked hsleep) es hes
  intro w hw
  have h := hk.clearSpin w hw
  obtain ⟨l, pc⟩ := w
  refine ⟨?_, ?_⟩
  · intro hl
    have hp := h hl
    simp only at hl hp
    subst hl hp
    exact ⟨rfl, rfl⟩
  · intro ha
    cases l with
    | true => rfl
    | false =>
      have hp := h rfl
      simp only at hp
      subst hp
      simp [active] at ha

/-- Witness for C15: six events into `demoRound`, worker 0 holds task 10 with
its lock set and worker 1 still sleeps. -/
theorem lock_meaning_witness :
    allBlocked ((sleeping 2).SetBatch [some 10, some 11, some 12]) = true
      ∧ inConsume ((sleeping 2).SetBatch [some 10, some 11, some 12]).m_workers.length
          (demoRound.take 6) = true
      ∧ (((sleeping 2).SetBatch [some 10, some 11, some 12]).run (demoRound.take 6)).m_workers
          = [⟨true, .call 10⟩, ⟨true, .spin⟩]
      ∧ (active (⟨true, .call 10⟩ : BWorker) = true → (⟨true, .call 10⟩ : BWorker).lock = true) :=
  ⟨by decide, by decide, by decide,
    (lock_meaning ((sleeping 2).SetBatch [some 10, some 11, some 12]) (demoRound.take 6)
      (by decide) (by decide) ⟨true, .call 10⟩ (by decide)).2⟩

/-- C15 as stated fails: six events into `demoRound`, worker 0 holds task 10
and is about to call it. Its lock is set although it is not blocked in a spin
loop, and it is running although its lock is not clear. -/
theorem lock_set_while_running :
    (((sleeping 2).SetBatch [some 10, some 11, some 12]).run (demoRound.take 6)).m_workers[0]?
        = some ⟨true, .call 10⟩
      ∧ (⟨true, .call 10⟩ : BWorker).lock = true
      ∧ blocked (⟨true, .call 10⟩ : BWorker) = false
      ∧ active (⟨true, .call 10⟩ : BWorker) = true := by
  decide

/-- C16 (code defect): the first use of a group is racy. On a fresh group of one
worker, if the calling thread performs `SetBatch [t7]` and the whole
`ConsumeBatch` before the worker thread has executed its first
`test_and_set`, the lock clear is lost: the worker then sets its lock and
spins on it, no worker can step, and task 7 is never called. This holds
whether a fresh lock is set or clear. When the worker takes its first step
before the clear, the same calls do run task 7. -/
theorem first_use_race :
    (quiescent ((new true .Ecs 1).run earlyConsume) = true
      ∧ allBlocked ((new true .Ecs 1).run earlyConsume) = true
      ∧ ((new true .Ecs 1).run earlyConsume).log = []
      ∧ ((new true .Ecs 1).run earlyConsume).m_tasks = [some 7, none]
      ∧ ((new true .Ecs 1).run earlyConsume).m_cursor = 0)
    ∧ (quiescent ((new false .Ecs 1).run earlyConsume) = true
      ∧ ((new false .Ecs 1).run earlyConsume).log = [])
    ∧ (quiescent ((new true .Ecs 1).run lateConsume) = true
      ∧ ((new true .Ecs 1).run lateConsume).log = [7]) := by
  decide

/-- C14 (code defect): teardown can leave a worker spinning for ever. Two
workers run a batch of two tasks; after `midBatch` one task is claimed and
both workers are at the fetch, past the test of the living flag. The
destructor then clears the living flag and both locks. Worker 0 claims the
second task, worker 1 claims a null task, sets its lock and spins: in the
final state no worker can step, worker 0 has returned, and worker 1 is blocked
on its set lock with nobody left to clear it, so the join of worker 1 never
completes. -/
theorem teardown_leaves_spinner :
    (((sleeping 2).SetBatch [some 10, some 11]).run midBatch).m_workers
        = [⟨true, .fetch⟩, ⟨true, .fetch⟩]
      ∧ (((sleeping 2).SetBatch [some 10, some 11]).run midBatch).m_cursor = 1
      ∧ (midBatch ++ teardownProgram 2 ++ afterTeardown).filter Event.isMain
          = consumeProgram 2 ++ teardownProgram 2
      ∧ quiescent (((sleeping 2).SetBatch [some 10, some 11]).run
          (midBatch ++ teardownProgram 2 ++ afterTeardown)) = true
      ∧ (((sleeping 2).SetBatch [some 10, some 11]).run
          (midBatch ++ teardownProgram 2 ++ afterTeardown)).m_living = false
      ∧ (((sleeping 2).SetBatch [some 10, some 11]).run
          (midBatch ++ teardownProgram 2 ++ afterTeardown)).m_workers
          = [⟨false, .done⟩, ⟨true, .spin⟩] := by
  decide

/-- The group identifier and the number of workers are the same after every
event. -/
theorem apply_identity (g : BatchedWorkerGroup) (e : Event) :
    (g.apply e).m_group_id = g.m_group_id
      ∧ (g.apply e).m_workers.length = g.m_workers.length := by
  cases e with
  | step j => exact ⟨WorkerRoutine_id g j, WorkerRoutine_length g j⟩
  | setBatch ts => exact ⟨rfl, rfl⟩
  | storeCursor => exact ⟨rfl, rfl⟩
  | clear j =>
    refine ⟨?_, clear_length g j⟩
    simp only [BatchedWorkerGroup.apply]
    split <;> rfl
  | stopLiving => exact ⟨rfl, rfl⟩

theorem run_identity : ∀ (es : List Event) (g : BatchedWorkerGroup),
    (g.run es).m_group_id = g.m_group_id
      ∧ (g.run es).m_workers.length = g.m_workers.length
  | [], _ => ⟨rfl, rfl⟩
  | e :: es, g => by
    have ih := run_identity es (g.apply e)
    have h := apply_identity g e
    exact ⟨ih.1.trans h.1, ih.2.trans h.2⟩

end BatchedWorkerGroup

/-- C17: a group constructed with identifier `id` and a 16-bit worker count `n`
reports `GetID() = id` and `GetGroupSize() = n`; this holds for the base
class, for a batched group and for a relaxed group. On a batched group
`SetBatch`, `ConsumeBatch` and every schedule of events (worker steps and the
writes of the calling thread), and on a relaxed group `EnqueueTask`, leave both
values unchanged. -/
theorem group_identity (lock0 : Bool) (id : EWorkerGroupID) (n : Nat) (hn : n < 65536) :
    (∀ (ρ : Type) (pc0 : ρ), (WorkerGroup.new lock0 pc0 id n).GetID = id
        ∧ (WorkerGroup.new lock0 pc0 id n).GetGroupSize = n)
      ∧ ((BatchedWorkerGroup.new lock0 id n).GetID = id
        ∧ (BatchedWorkerGroup.new lock0 id n).GetGroupSize = n)
      ∧ ((RelaxedWorkerGroup.new lock0 id n).GetID = id
        ∧ (RelaxedWorkerGroup.new lock0 id n).GetGroupSize = n)
      ∧ (∀ (g : BatchedWorkerGroup) (ts : List Task),
          (g.SetBatch ts).GetID = g.GetID ∧ (g.SetBatch ts).GetGroupSize = g.GetGroupSize)
      ∧ (∀ g : BatchedWorkerGroup,
          g.ConsumeBatch.GetID = g.GetID ∧ g.ConsumeBatch.GetGroupSize = g.GetGroupSize)
      ∧ (∀ (g : BatchedWorkerGroup) (es : List BatchedWorkerGroup.Event),
          (g.run es).GetID = g.GetID ∧ (g.run es).GetGroupSize = g.GetGroupSize)
      ∧ (∀ (g : RelaxedWorkerGroup) (t : Task),
          (g.EnqueueTask t).GetID = g.GetID
            ∧ (g.EnqueueTask t).GetGroupSize = g.GetGroupSize) := by
  have hbase : ∀ (ρ : Type) (pc0 : ρ), (WorkerGroup.new lock0 pc0 id n).GetID = id
      ∧ (WorkerGroup.new lock0 pc0 id n).GetGroupSize = n := by
    intro ρ pc0
    exact ⟨rfl, Scheduler.groupSize_new lock0 pc0 id n hn⟩
  refine ⟨hbase, hbase _ _, hbase _ _, fun _ _ => ⟨rfl, rfl⟩, ?_, ?_, fun _ _ => ⟨rfl, rfl⟩⟩
  · intro g
    refine ⟨rfl, ?_⟩
    simp [WorkerGroup.GetGroupSize, BatchedWorkerGroup.ConsumeBatch]
  · intro g es
    have h := BatchedWorkerGroup.run_identity es g
    exact ⟨h.1, by simp only [WorkerGroup.GetGroupSize, h.2]⟩

/-- Witness for C17: a batched group of 7 workers named `Ecs`. -/
theorem group_identity_witness :
    7 < 65536
      ∧ (BatchedWorkerGroup.new true .Ecs 7).GetID = .Ecs
      ∧ (BatchedWorkerGroup.new true .Ecs 7).GetGroupSize = 7 :=
  ⟨by decide, (group_identity true .Ecs 7 (by decide)).2.1⟩

namespace Scheduler

/-- C11 (code defect): `Scheduler::EnqueueTask` never fails. Its body performs no
lookup, so for an identifier that names no group of the scheduler (here
`Other 7`, absent from the group map) the call returns normally, with the
scheduler unchanged. `GetWorkerGroupSize` does fail exactly when the
identifier is absent from the group map; on a constructed scheduler that is
exactly for the identifiers other than `IO` and `Ecs`. -/
theorem EnqueueTask_never_fails :
    ((new true 8).m_groups.lookup (.Other 7) = none
        ∧ (new true 8).GetWorkerGroupSize (.Other 7) = none
        ∧ (new true 8).EnqueueTask (some 1) (.Other 7) = new true 8)
      ∧ (∀ (s : Scheduler) (id : EWorkerGroupID),
          s.GetWorkerGroupSize id = none ↔ s.m_groups.lookup id = none)
      ∧ (∀ (lock0 : Bool) (C : Nat) (id : EWorkerGroupID),
          (new lock0 C).GetWorkerGroupSize id = none ↔ (id ≠ .Io ∧ id ≠ .Ecs)) := by
  refine ⟨⟨by decide, by decide, rfl⟩, ?_, ?_⟩
  · intro s id
    simp [GetWorkerGroupSize]
  · intro lock0 C id
    simp only [GetWorkerGroupSize, new_groups, Option.map_eq_none']
    cases id with
    | Io => simp [List.lookup]
    | Ecs => simp [List.lookup, Ecs_beq_Io]
    | Other m =>
      have h1 : (EWorkerGroupID.Other m == EWorkerGroupID.Io) = false := by simp
      have h2 : (EWorkerGroupID.Other m == EWorkerGroupID.Ecs) = false := by simp
      simp [List.lookup, h1, h2]

end Scheduler

/-! ## The relaxed group -/

namespace RelaxedWorkerGroup

theorem claimOf_some {g : RelaxedWorkerGroup} {i : Nat} {t : Task} (h : claimOf g i = some t) :
    g.m_tasks.m_queue = t :: (g.WorkerRoutine i).m_tasks.m_queue
      ∧ (g.WorkerRoutine i).m_tasks.m_released = g.m_tasks.m_released := by
  unfold claimOf at h
  unfold WorkerRoutine
  cases hw : g.m_workers[i]? with
  | none => rw [hw] at h; cases h
  | some w =>
    rw [hw] at h
    obtain ⟨l, pc⟩ := w
    cases pc with
    | dequeue =>
      simp only at h ⊢
      unfold ThreadSafeLockQueue.Dequeue at h ⊢
      cases hr : g.m_tasks.m_released with
      | true => simp [hr] at h
      | false =>
        cases hq : g.m_tasks.m_queue with
        | nil => simp [hr, hq] at h
        | cons a rest =>
          simp only [hr, hq, Bool.false_eq_true, if_false, Option.some.injEq] at h ⊢
          subst h
          exact ⟨rfl, rfl⟩
    | call x => simp at h
    | done => simp at h
    | fault => simp at h

theorem claimOf_none {g : RelaxedWorkerGroup} {i : Nat} (h : claimOf g i = none) :
    (g.WorkerRoutine i).m_tasks = g.m_tasks := by
  unfold claimOf at h
  unfold WorkerRoutine
  cases hw : g.m_workers[i]? with
  | none => rfl
  | some w =>
    rw [hw] at h
    obtain ⟨l, pc⟩ := w
    cases pc with
    | dequeue =>
      simp only at h ⊢
      cases hd : g.m_tasks.Dequeue with
      | closed => rfl
      | waiting => rfl
      | item t q => rw [hd] at h; simp at h
    | call x => cases x <;> rfl
    | done => rfl
    | fault => rfl

theorem Destructor_queue (s : Life) :
    (Destructor s).group.m_tasks.m_queue = s.group.m_tasks.m_queue := by
  unfold Destructor
  cases s.dtor with
  | alive => rfl
  | wait => simp only; split <;> rfl
  | detach k => simp only; split <;> rfl
  | release => rfl
  | returned => rfl

/-- Along every schedule the tasks in the queue at the start and those enqueued
are the tasks claimed followed by those still in the queue. -/
theorem queue_balance : ∀ (es : List Action) (s : Life),
    s.group.m_tasks.m_queue ++ enqueued es
      = claimed s es ++ (play s es).group.m_tasks.m_queue
  | [], s => by simp [enqueued, claimed, play]
  | e :: es, s => by
    have ih := queue_balance es (perform s e)
    show _ = _ ++ (play (perform s e) es).group.m_tasks.m_queue
    cases e with
    | enqueue t =>
      simp only [enqueued, claimed]
      rw [← ih]
      simp [perform, RelaxedWorkerGroup.EnqueueTask, ThreadSafeLockQueue.Enqueue]
    | step i =>
      simp only [enqueued, claimed]
      cases hc : claimOf s.group i with
      | none =>
        simp only
        rw [← ih]
        simp [perform, claimOf_none hc]
      | some t =>
        simp only
        rw [List.cons_append, ← ih, (claimOf_some hc).1]
        simp [perform]
    | dtor =>
      simp only [enqueued, claimed]
      rw [← ih]
      simp [perform, Destructor_queue]

/-- C12: in a relaxed group of any number of workers, along every schedule of
enqueues, worker steps and destructor steps from a fresh group, the tasks
claimed so far, in claim order, followed by the tasks still queued are exactly
the tasks enqueued so far, in enqueue order. So the claimed sequence is a
prefix of the enqueued sequence: no enqueued task is claimed twice, none is
claimed before an earlier one, and when the queue is empty every enqueued task
has been claimed exactly once. -/
theorem claims_are_fifo (lock0 : Bool) (id : EWorkerGroupID) (n : Nat) (es : List Action) :
    claimed (fresh lock0 id n) es ++ (play (fresh lock0 id n) es).group.m_tasks.m_queue
        = enqueued es
      ∧ claimed (fresh lock0 id n) es <+: enqueued es
      ∧ ((play (fresh lock0 id n) es).group.m_tasks.m_queue = [] →
          claimed (fresh lock0 id n) es = enqueued es) := by
  have h := queue_balance es (fresh lock0 id n)
  have h0 : (fresh lock0 id n).group.m_tasks.m_queue = [] := rfl
  rw [h0, List.nil_append] at h
  refine ⟨h.symm, ⟨_, h.symm⟩, ?_⟩
  intro hq
  rw [h, hq, List.append_nil]

theorem step_queue_nil {g : RelaxedWorkerGroup} (i : Nat) (h : g.m_tasks.m_queue = []) :
    (g.WorkerRoutine i).m_tasks.m_queue = [] := by
  cases hc : claimOf g i with
  | none => rw [claimOf_none hc]; exact h
  | some t =>
    have := (claimOf_some hc).1
    rw [h] at this
    cases this

theorem step_released (g : RelaxedWorkerGroup) (i : Nat) :
    (g.WorkerRoutine i).m_tasks.m_released = g.m_tasks.m_released := by
  cases hc : claimOf g i with
  | none => rw [claimOf_none hc]
  | some t => exact (claimOf_some hc).2

theorem Drained.after_perform {s : Life} (h : Drained s) (hu : Unreleased s) (e : Action)
    (he : noEnqueue [e] = true) : Drained (perform s e) ∧ Unreleased (perform s e) := by
  cases e with
  | enqueue t => simp [noEnqueue] at he
  | step i =>
    refine ⟨fun h1 h2 => step_queue_nil i (h h1 h2), fun h1 => ?_⟩
    show (s.group.WorkerRoutine i).m_tasks.m_released = false
    rw [step_released]
    exact hu h1
  | dtor =>
    obtain ⟨g, pc⟩ := s
    cases pc with
    | alive => exact ⟨fun _ h2 => absurd rfl h2, fun _ => hu (by simp)⟩
    | wait =>
      simp only [RelaxedWorkerGroup.perform, Destructor]
      by_cases hq : g.m_tasks.WaitUntilEmpty = true
      · rw [if_pos hq]
        refine ⟨fun _ _ => ?_, fun _ => hu (by simp)⟩
        simpa [ThreadSafeLockQueue.WaitUntilEmpty] using hq
      · rw [if_neg hq]
        exact ⟨fun _ h2 => absurd rfl h2, fun _ => hu (by simp)⟩
    | detach k =>
      simp only [RelaxedWorkerGroup.perform, Destructor]
      split
      · exact ⟨fun _ _ => h (by simp) (by simp), fun _ => hu (by simp)⟩
      · exact ⟨fun _ _ => h (by simp) (by simp), fun _ => hu (by simp)⟩
    | release =>
      exact ⟨fun _ _ => h (by simp) (by simp), fun h1 => absurd rfl h1⟩
    | returned => exact ⟨h, hu⟩

theorem Drained.after_play : ∀ (es : List Action) (s : Life), Drained s → Unreleased s →
    noEnqueue es = true → Drained (play s es) ∧ Unreleased (play s es)
  | [], _, h, hu, _ => ⟨h, hu⟩
  | e :: es, s, h, hu, hes => by
    simp only [noEnqueue, List.all_cons, Bool.and_eq_true] at hes
    obtain ⟨h1, hu1⟩ := h.after_perform hu e (by simp [noEnqueue, hes.1])
    exact Drained.after_play es _ h1 hu1 (by simpa [noEnqueue] using hes.2)

theorem enqueued_nil : ∀ (es : List Action), noEnqueue es = true → enqueued es = []
  | [], _ => rfl
  | e :: es, h => by
    simp only [noEnqueue, List.all_cons, Bool.and_eq_true] at h
    cases e with
    | enqueue t => simp at h
    | step i => exact enqueued_nil es (by simpa [noEnqueue] using h.2)
    | dtor => exact enqueued_nil es (by simpa [noEnqueue] using h.2)

/-- C13: the destructor of a relaxed group goes through its wait, then the
detaches, then the release, in that order. With no enqueue during the
teardown, in every state reached from a living group with pending tasks in
which the destructor is past its wait (detaching, releasing or returned), the
queue is empty and the tasks claimed since the start are exactly the tasks
that were pending; and the queue is released only when the destructor has
returned. Tasks already dequeued may still wait to be called when it returns:
after `teardownDemo` the destructor has returned while both workers hold a
task they have not called yet. -/
theorem destructor_waits_for_queue :
    (∀ (g : RelaxedWorkerGroup) (es : List Action), g.m_tasks.m_released = false →
        noEnqueue es = true →
        ((play ⟨g, .alive⟩ es).dtor ≠ .alive → (play ⟨g, .alive⟩ es).dtor ≠ .wait →
          (play ⟨g, .alive⟩ es).group.m_tasks.m_queue = []
            ∧ claimed ⟨g, .alive⟩ es = g.m_tasks.m_queue)
        ∧ ((play ⟨g, .alive⟩ es).dtor ≠ .returned →
            (play ⟨g, .alive⟩ es).group.m_tasks.m_released = false))
      ∧ (∀ s : Life,
          (s.dtor = .alive → (Destructor s).dtor = .wait)
            ∧ (s.dtor = .wait → s.group.m_tasks.m_queue ≠ [] → Destructor s = s)
            ∧ (s.dtor = .wait → s.group.m_tasks.m_queue = [] →
                (Destructor s).dtor = .detach 0)
            ∧ (∀ k, s.dtor = .detach k → k < s.group.m_workers.length →
                (Destructor s).dtor = .detach (k + 1))
            ∧ (s.dtor = .detach s.group.m_workers.length → (Destructor s).dtor = .release)
            ∧ (s.dtor = .release → (Destructor s).dtor = .returned
                ∧ (Destructor s).group.m_tasks.m_released = true))
      ∧ ((play ⟨pending3, .alive⟩ teardownDemo).dtor = .returned
          ∧ (play ⟨pending3, .alive⟩ teardownDemo).group.m_workers
              = [⟨true, .call (some 3)⟩, ⟨true, .call (some 2)⟩]
          ∧ (play ⟨pending3, .alive⟩ teardownDemo).group.log = [1]) := by
  refine ⟨?_, ?_, by decide⟩
  · intro g es hr hes
    have hd := Drained.after_play es ⟨g, .alive⟩ (fun h _ => absurd rfl h) (fun _ => hr) hes
    refine ⟨fun h1 h2 => ?_, hd.2⟩
    have hq := hd.1 h1 h2
    refine ⟨hq, ?_⟩
    have hb := queue_balance es ⟨g, .alive⟩
    rw [enqueued_nil es hes, hq, List.append_nil, List.append_nil] at hb
    exact hb.symm
  · intro s
    obtain ⟨g, pc⟩ := s
    refine ⟨?_, ?_, ?_, ?_, ?_, ?_⟩
    · intro h; simp only at h; subst h; rfl
    · intro h hq
      simp only at h hq; subst h
      simp only [Destructor, ThreadSafeLockQueue.WaitUntilEmpty, List.isEmpty_eq_true, hq,
        if_false]
    · intro h hq
      simp only at h hq; subst h
      simp only [Destructor, ThreadSafeLockQueue.WaitUntilEmpty, List.isEmpty_eq_true, hq,
        if_true]
    · intro k h hk
      simp only at h hk; subst h
      simp only [Destructor, hk, if_true]
    · intro h
      simp only at h; subst h
      simp only [Destructor, Nat.lt_irrefl, if_false]
    · intro h
      simp only at h; subst h
      exact ⟨rfl, rfl⟩

/-- Witness for C13: three pending tasks, two workers, the schedule
`teardownDemo`: the destructor has returned, the queue is empty and the three
tasks were claimed in order. -/
theorem destructor_waits_for_queue_witness :
    pending3.m_tasks.m_released = false
      ∧ noEnqueue teardownDemo = true
      ∧ (play ⟨pending3, .alive⟩ teardownDemo).dtor = .returned
      ∧ (play ⟨pending3, .alive⟩ teardownDemo).group.m_tasks.m_queue = []
      ∧ claimed ⟨pending3, .alive⟩ teardownDemo = pending3.m_tasks.m_queue
      ∧ pending3.m_tasks.m_queue = [some 1, some 2, some 3] :=
  ⟨by decide, by decide, by decide,
    ((destructor_waits_for_queue.1 pending3 teardownDemo (by decide) (by decide)).1
      (by decide) (by decide)).1,
    ((destructor_waits_for_queue.1 pending3 teardownDemo (by decide) (by decide)).1
      (by decide) (by decide)).2,
    by decide⟩

end RelaxedWorkerGroup

/-! ## The entity admin -/

namespace EntityAdmin

theorem touch_frame (a : EntityAdmin) (e : EEventName) :
    (a.touch e).m_systems = a.m_systems ∧ (a.touch e).m_scheduler = a.m_scheduler
      ∧ (a.touch e).built = a.built ∧ (a.touch e).executed = a.executed
      ∧ ∀ e2, (a.touch e).planOf e2 = a.planOf e2 := by
  unfold touch
  cases hv : a.m_execution_plans.lookup e with
  | none =>
    refine ⟨rfl, rfl, rfl, rfl, ?_⟩
    intro e2
    simp only [planOf, List.lookup]
    by_cases h : e2 = e
    · subst h; simp [hv]
    · have hb : (e2 == e) = false := by simpa using h
      simp [hb]
  | some v => exact ⟨rfl, rfl, rfl, rfl, fun _ => rfl⟩

theorem Build_planOf (a : EntityAdmin) (e e2 : EEventName) :
    (a.BuildEventExecutionPlan e).planOf e2
      = if e2 = e then
          some (addHandlers e a.m_systems
            { m_instruction_packs := [], m_current_pack := [] })
        else a.planOf e2 := by
  unfold BuildEventExecutionPlan
  simp only [planOf, List.lookup]
  by_cases h : e2 = e
  · subst h
    simp only [beq_self_eq_true, Option.join, if_true]
    cases a.planOf e2 <;> rfl
  · have hb : (e2 == e) = false := by simpa using h
    simp [hb, h]

/-- A firing with a stored plan executes that plan and builds nothing. -/
theorem ExecuteEvent_cached {a : EntityAdmin} {e : EEventName} {p : ExecutionPlan}
    (h : a.planOf e = some p) :
    a.ExecuteEvent e = { a with executed := a.executed ++ [(e, a.m_scheduler, p)] } := by
  have ht : a.touch e = a := by
    unfold touch
    unfold planOf at h
    cases hv : a.m_execution_plans.lookup e with
    | none => rw [hv] at h; cases h
    | some v => rfl
  unfold ExecuteEvent
  simp only [ht, h]

/-- A firing without a stored plan builds the plan, stores it and executes it. -/
theorem ExecuteEvent_fresh {a : EntityAdmin} {e : EEventName} (h : a.planOf e = none) :
    (a.ExecuteEvent e).built = a.built ++ [e]
      ∧ (∀ e2, (a.ExecuteEvent e).planOf e2
          = if e2 = e then
              some (addHandlers e a.m_systems
                { m_instruction_packs := [], m_current_pack := [] })
            else a.planOf e2)
      ∧ (a.ExecuteEvent e).executed
          = a.executed ++ [(e, a.m_scheduler, addHandlers e a.m_systems
              { m_instruction_packs := [], m_current_pack := [] })]
      ∧ (a.ExecuteEvent e).m_systems = a.m_systems
      ∧ (a.ExecuteEvent e).m_scheduler = a.m_scheduler := by
  obtain ⟨hs, hsch, hb, hx, hp⟩ := touch_frame a e
  have h0 : (a.touch e).planOf e = none := by rw [hp, h]
  have h1 : ((a.touch e).BuildEventExecutionPlan e).planOf e
      = some (addHandlers e a.m_systems
          { m_instruction_packs := [], m_current_pack := [] }) := by
    rw [Build_planOf, if_pos rfl, hs]
  have hE : a.ExecuteEvent e =
      { (a.touch e).BuildEventExecutionPlan e with
        executed := ((a.touch e).BuildEventExecutionPlan e).executed
          ++ [(e, ((a.touch e).BuildEventExecutionPlan e).m_scheduler,
              addHandlers e a.m_systems { m_instruction_packs := [], m_current_pack := [] })] } := by
    unfold ExecuteEvent
    simp only [h0, h1]
  rw [hE]
  refine ⟨?_, ?_, ?_, ?_, ?_⟩
  · show (a.touch e).built ++ [e] = _
    rw [hb]
  · intro e2
    show ((a.touch e).BuildEventExecutionPlan e).planOf e2 = _
    rw [Build_planOf, hs, hp]
  · show (a.touch e).executed ++ [(e, (a.touch e).m_scheduler, _)] = _
    rw [hx, hsch]
  · exact hs
  · exact hsch

theorem Cached.after {a : EntityAdmin} (h : Cached a) (e : EEventName) :
    Cached (a.ExecuteEvent e) ∧ ∀ e2, e2 ∈ (a.ExecuteEvent e).built ↔ e2 ∈ a.built ∨ e2 = e := by
  cases hp : a.planOf e with
  | some p =>
    rw [ExecuteEvent_cached hp]
    refine ⟨h, ?_⟩
    intro e2
    constructor
    · exact Or.inl
    · rintro (h2 | h2)
      · exact h2
      · subst h2
        exact (h.2 e2).mpr (by rw [hp]; rfl)
  | none =>
    obtain ⟨hb, hpl, _, _, _⟩ := ExecuteEvent_fresh hp
    have hnot : e ∉ a.built := by
      intro hm
      have := (h.2 e).mp hm
      rw [hp] at this
      cases this
    refine ⟨⟨?_, ?_⟩, ?_⟩
    · rw [hb]
      exact List.Nodup.append h.1 (List.nodup_singleton e)
        (by
          intro x hx hx2
          rw [List.mem_singleton] at hx2
          subst hx2
          exact hnot hx)
    · intro e2
      rw [hb, hpl e2]
      by_cases he : e2 = e
      · simp [he]
      · simp [he, h.2 e2]
    · intro e2
      rw [hb]
      simp

theorem Cached.fired : ∀ (es : List EEventName) (a : EntityAdmin), Cached a →
    Cached (a.fire es) ∧ ∀ e, e ∈ (a.fire es).built ↔ e ∈ a.built ∨ e ∈ es
  | [], a, h => ⟨h, by simp [fire]⟩
  | x :: es, a, h => by
    obtain ⟨h1, h2⟩ := h.after x
    obtain ⟨h3, h4⟩ := Cached.fired es (a.ExecuteEvent x) h1
    refine ⟨h3, ?_⟩
    intro e
    show e ∈ ((a.ExecuteEvent x).fire es).built ↔ _
    rw [h4 e, h2 e]
    simp only [List.mem_cons]
    tauto

/-- C18: `ExecuteEvent(e)` calls `BuildEventExecutionPlan(e)` exactly when no plan
is stored for `e`; after the call a plan is stored for `e`, and the plan
executed by the call is that stored plan. A firing that finds a stored plan
executes it as it is, builds nothing and leaves it stored. Over any sequence
of `ExecuteEvent` calls on an admin that starts without plans, no event name
is built twice, and the names built are exactly the names fired. -/
theorem plan_built_once :
    (∀ (a : EntityAdmin) (e : EEventName),
        (a.ExecuteEvent e).built
          = if (a.planOf e).isSome then a.built else a.built ++ [e])
      ∧ (∀ (a : EntityAdmin) (e : EEventName), ∃ p,
          (a.ExecuteEvent e).planOf e = some p
            ∧ (a.ExecuteEvent e).executed = a.executed ++ [(e, a.m_scheduler, p)])
      ∧ (∀ (a : EntityAdmin) (e : EEventName) (p : ExecutionPlan), a.planOf e = some p →
          (a.ExecuteEvent e).planOf e = some p
            ∧ (a.ExecuteEvent e).executed = a.executed ++ [(e, a.m_scheduler, p)]
            ∧ (a.ExecuteEvent e).built = a.built)
      ∧ (∀ (scheduler : Bool) (systems : List System) (es : List EEventName),
          ((new scheduler systems).fire es).built.Nodup
            ∧ (∀ e, e ∈ ((new scheduler systems).fire es).built ↔ e ∈ es)
            ∧ (∀ e, ((new scheduler systems).fire es).built.count e ≤ 1)) := by
  refine ⟨?_, ?_, ?_, ?_⟩
  · intro a e
    cases hp : a.planOf e with
    | some p => rw [ExecuteEvent_cached hp]; rfl
    | none => exact (ExecuteEvent_fresh hp).1
  · intro a e
    cases hp : a.planOf e with
    | some p => exact ⟨p, by rw [ExecuteEvent_cached hp]; exact hp, by rw [ExecuteEvent_cached hp]⟩
    | none =>
      obtain ⟨_, hpl, hx, _, _⟩ := ExecuteEvent_fresh hp
      exact ⟨_, by rw [hpl e, if_pos rfl], hx⟩
  · intro a e p hp
    rw [ExecuteEvent_cached hp]
    exact ⟨hp, rfl, rfl⟩
  · intro scheduler systems es
    have h0 : Cached (new scheduler systems) :=
      ⟨List.nodup_nil, fun e => by simp [new, planOf]⟩
    obtain ⟨h1, h2⟩ := Cached.fired es _ h0
    refine ⟨h1.1, ?_, ?_⟩
    · intro e
      rw [h2 e]
      simp [new]
    · intro e
      exact List.nodup_iff_count_le_one.mp h1.1 e

/-- Witness for C18: firing `OnUpdate`, `OnStart`, `OnUpdate` on three systems
builds the plans of `OnUpdate` and `OnStart` once each and executes three
plans, the first and the third being the same; a fourth firing of `OnUpdate`
finds the plan stored and executes it again. -/
theorem plan_built_once_witness :
    ((new true demoSystems).fire [.OnUpdate, .OnStart, .OnUpdate]).built
        = [.OnUpdate, .OnStart]
      ∧ ((new true demoSystems).fire [.OnUpdate, .OnStart, .OnUpdate]).planOf .OnUpdate
        = some ⟨[[⟨0⟩], [⟨2⟩]], []⟩
      ∧ (((new true demoSystems).fire [.OnUpdate, .OnStart, .OnUpdate]).ExecuteEvent
          .OnUpdate).executed
        = ((new true demoSystems).fire [.OnUpdate, .OnStart, .OnUpdate]).executed
          ++ [(.OnUpdate, true, ⟨[[⟨0⟩], [⟨2⟩]], []⟩)]
      ∧ (((new true demoSystems).fire [.OnUpdate, .OnStart, .OnUpdate]).ExecuteEvent
          .OnUpdate).built
        = ((new true demoSystems).fire [.OnUpdate, .OnStart, .OnUpdate]).built :=
  ⟨by decide, by decide,
    (plan_built_once.2.2.1 ((new true demoSystems).fire [.OnUpdate, .OnStart, .OnUpdate])
      .OnUpdate ⟨[[⟨0⟩], [⟨2⟩]], []⟩ (by decide)).2.1,
    (plan_built_once.2.2.1 ((new true demoSystems).fire [.OnUpdate, .OnStart, .OnUpdate])
      .OnUpdate ⟨[[⟨0⟩], [⟨2⟩]], []⟩ (by decide)).2.2⟩

end EntityAdmin

/-! ## The instructions of an execution plan -/

namespace EntityAdmin

/-- The variable of an iteration is gone at its end. -/
theorem loopBody_alive (e : EEventName) (k : Nat) (system : System) (s : BuildState) :
    (loopBody e k system s).alive = s.alive := by
  unfold loopBody
  cases system.GetEventHandler e <;> rfl

/-- The loop leaves no variable `event_handler` behind. -/
theorem loopFrom_alive (e : EEventName) :
    ∀ (systems : List System) (k : Nat) (s : BuildState),
      (loopFrom e systems k s).alive = s.alive
  | [], _, _ => rfl
  | system :: rest, k, s => by
    rw [loopFrom, loopFrom_alive e rest (k + 1), loopBody_alive]

/-- The plan after the loop, entered with no pack being filled: one more pack
per system that has a handler, holding the closure of that iteration. -/
theorem loopFrom_plan (e : EEventName) :
    ∀ (systems : List System) (k : Nat) (s : BuildState),
      s.execution_plan.m_current_pack = [] →
      (loopFrom e systems k s).execution_plan
        = { m_instruction_packs := s.execution_plan.m_instruction_packs
              ++ (handled e systems k).map (fun j => [Instruction.mk j])
            m_current_pack := [] }
  | [], k, s, h => by
    obtain ⟨⟨packs, cur⟩, alive⟩ := s
    simp only at h
    subst h
    simp [loopFrom, handled]
  | system :: rest, k, s, h => by
    obtain ⟨⟨packs, cur⟩, alive⟩ := s
    simp only at h
    subst h
    rw [loopFrom, handled]
    cases hh : system.GetEventHandler e with
    | none =>
      have hb : loopBody e k system ⟨⟨packs, []⟩, alive⟩ = ⟨⟨packs, []⟩, alive⟩ := by
        unfold loopBody
        rw [hh]
        rfl
      rw [hb, loopFrom_plan e rest (k + 1) _ rfl]
      simp
    | some x =>
      have hb : loopBody e k system ⟨⟨packs, []⟩, alive⟩
          = ⟨⟨packs ++ [[Instruction.mk k]], []⟩, alive⟩ := by
        unfold loopBody
        rw [hh]
        rfl
      rw [hb, loopFrom_plan e rest (k + 1) _ rfl]
      simp

/-- A position is listed exactly when the system there has a handler. -/
theorem mem_handled (e : EEventName) :
    ∀ (systems : List System) (k j : Nat),
      j ∈ handled e systems k ↔
        ∃ i system, systems[i]? = some system ∧ (system.GetEventHandler e).isSome = true
          ∧ j = k + i
  | [], k, j => by simp [handled]
  | system :: rest, k, j => by
    have ih := mem_handled e rest (k + 1) j
    have key : (∃ i sys, (system :: rest)[i]? = some sys ∧ (sys.GetEventHandler e).isSome = true
          ∧ j = k + i)
        ↔ ((system.GetEventHandler e).isSome = true ∧ j = k)
          ∨ ∃ i sys, rest[i]? = some sys ∧ (sys.GetEventHandler e).isSome = true
            ∧ j = k + 1 + i := by
      constructor
      · rintro ⟨i, sys, h1, h2, h3⟩
        cases i with
        | zero =>
          simp only [List.getElem?_cons_zero, Option.some.injEq] at h1
          subst h1
          exact Or.inl ⟨h2, by omega⟩
        | succ i =>
          simp only [List.getElem?_cons_succ] at h1
          exact Or.inr ⟨i, sys, h1, h2, by omega⟩
      · rintro (⟨h2, h3⟩ | ⟨i, sys, h1, h2, h3⟩)
        · exact ⟨0, system, by simp, h2, by omega⟩
        · exact ⟨i + 1, sys, by simpa using h1, h2, by omega⟩
    rw [key, handled]
    by_cases hh : (system.GetEventHandler e).isSome = true
    · rw [if_pos hh, List.mem_cons, ih]
      simp [hh]
    · rw [if_neg hh, ih]
      simp [hh]

/-- The positions are listed in the order of the systems. -/
theorem handled_sorted (e : EEventName) :
    ∀ (systems : List System) (k : Nat), (handled e systems k).Pairwise (· < ·)
  | [], _ => by simp [handled]
  | system :: rest, k => by
    rw [handled]
    split
    · rw [List.pairwise_cons]
      refine ⟨?_, handled_sorted e rest (k + 1)⟩
      intro j hj
      obtain ⟨i, _, _, _, h⟩ := (mem_handled e rest (k + 1) j).mp hj
      omega
    · exact handled_sorted e rest (k + 1)

/-- As many positions are listed as systems have a handler. -/
theorem handled_length (e : EEventName) :
    ∀ (systems : List System) (k : Nat),
      (handled e systems k).length
        = systems.countP (fun system => (system.GetEventHandler e).isSome)
  | [], _ => rfl
  | system :: rest, k => by
    rw [handled, List.countP_cons]
    split
    · rename_i h
      simp [h, handled_length e rest (k + 1)]
    · rename_i h
      simp [h, handled_length e rest (k + 1)]

/-- The plan stored by a build. -/
theorem Build_stored (a : EntityAdmin) (e : EEventName) :
    (a.BuildEventExecutionPlan e).planOf e
      = some { m_instruction_packs := (handled e a.m_systems 0).map (fun k => [Instruction.mk k])
               m_current_pack := [] } := by
  rw [Build_planOf, if_pos rfl]
  unfold addHandlers
  rw [loopFrom_plan e a.m_systems 0 _ rfl]
  simp

/-- C21 (code defect): after `BuildEventExecutionPlan(e)` the plan stored for `e`
has one instruction pack per system that has a handler for `e`, in the order of
the system list, each pack holding one instruction; systems without a handler
add nothing, and what the plan held before does not matter (a second build
stores the same plan). But the instruction is not the call of that handler's
`Execute`: the closure holds a reference to the variable `event_handler` of its
loop iteration, and no such variable exists once the loop has ended. So the
stored plan does not depend on which handlers the systems have (handler 1 or
handler 2 give the same plan), and calling its instruction after the build
executes no handler, whereas inside the iteration it would execute handler 1. -/
theorem plan_instructions_dangle :
    (∀ (a : EntityAdmin) (e : EEventName),
        (a.BuildEventExecutionPlan e).planOf e
            = some { m_instruction_packs :=
                       (handled e a.m_systems 0).map (fun k => [Instruction.mk k])
                     m_current_pack := [] }
          ∧ ((a.BuildEventExecutionPlan e).BuildEventExecutionPlan e).planOf e
            = (a.BuildEventExecutionPlan e).planOf e)
      ∧ (∀ (e : EEventName) (systems : List System),
          (handled e systems 0).Pairwise (· < ·)
            ∧ (∀ j, j ∈ handled e systems 0 ↔
                ∃ system, systems[j]? = some system ∧ (system.GetEventHandler e).isSome = true)
            ∧ (handled e systems 0).length
                = systems.countP (fun system => (system.GetEventHandler e).isSome))
      ∧ (∀ (e : EEventName) (systems : List System) (p : ExecutionPlan),
          (loopFrom e systems 0 { execution_plan := p, alive := [] }).alive = [])
      ∧ (∀ ins : Instruction, ins.call [] = none)
      ∧ ((new false (soleSystem 1)).BuildEventExecutionPlan .OnUpdate).planOf .OnUpdate
          = some ⟨[[⟨0⟩]], []⟩
      ∧ ((new false (soleSystem 2)).BuildEventExecutionPlan .OnUpdate).planOf .OnUpdate
          = some ⟨[[⟨0⟩]], []⟩
      ∧ (soleSystem 1).map (fun system => system.GetEventHandler .OnUpdate) = [some 1]
      ∧ (Instruction.mk 0).call [(0, some 1)] = some 1
      ∧ (Instruction.mk 0).call
          (loopFrom .OnUpdate (soleSystem 1) 0 { execution_plan := ⟨[], []⟩, alive := [] }).alive
          = none := by
  refine ⟨?_, ?_, ?_, fun _ => rfl, by decide, by decide, by decide, by decide, by decide⟩
  · intro a e
    refine ⟨Build_stored a e, ?_⟩
    rw [Build_stored, Build_stored]
    rfl
  · intro e systems
    refine ⟨handled_sorted e systems 0, ?_, handled_length e systems 0⟩
    intro j
    rw [mem_handled]
    constructor
    · rintro ⟨i, system, h1, h2, h3⟩
      have : j = i := by omega
      subst this
      exact ⟨system, h1, h2⟩
    · rintro ⟨system, h1, h2⟩
      exact ⟨j, system, h1, h2, by omega⟩
  · intro e systems p
    exact loopFrom_alive e systems 0 _

end EntityAdmin

/-! ## The budget of the scheduler and the null task of the relaxed group -/

namespace Scheduler

/-- The group stored under `IO` by the constructor. -/
theorem io_group_new (lock0 : Bool) (C : Nat) :
    (new lock0 C).m_groups.lookup .Io
      = some (.relaxed (RelaxedWorkerGroup.new lock0 .Io
          ((C + 4294967295) % 4294967296 % 65536 / 4))) := by
  have hc : (C + 4294967295) % 4294967296 % 65536 < 65536 := Nat.mod_lt _ (by norm_num)
  rw [new_groups]
  generalize (C + 4294967295) % 4294967296 % 65536 = c at hc
  have hio : c / 4 % 65536 = c / 4 := Nat.mod_eq_of_lt (by omega)
  rw [hio]
  simp [List.lookup]

/-- C25 (amended): for every reported thread count `C`, with `c` the 16-bit
budget the constructor computes from it, the sizes `io` and `ecs` of the two
groups are `io = c / 4` and `ecs = c - io`, and they satisfy `io + ecs = c`,
`io ≤ ecs`, `ecs = 0` only when `c = 0`, and `io = 0` exactly when `c ≤ 3`;
every `c` in `0..65535` is the budget of some `C`. So on machines that report
between 1 and 4 hardware threads the `IO` group is constructed with no
worker. -/
theorem budget_split :
    (∀ (lock0 : Bool) (C : Nat), ∃ c io ecs,
        c = (C + 4294967295) % 4294967296 % 65536
          ∧ (new lock0 C).GetWorkerGroupSize .Io = some io
          ∧ (new lock0 C).GetWorkerGroupSize .Ecs = some ecs
          ∧ io = c / 4 ∧ ecs = c - io
          ∧ io + ecs = c ∧ io ≤ ecs ∧ (ecs = 0 → c = 0) ∧ (io = 0 ↔ c ≤ 3))
      ∧ (∀ c, c ≤ 65535 → (c + 1 + 4294967295) % 4294967296 % 65536 = c)
      ∧ (∀ (lock0 : Bool) (C : Nat), 1 ≤ C → C ≤ 4 →
          (new lock0 C).GetWorkerGroupSize .Io = some 0
            ∧ ∃ g : RelaxedWorkerGroup, (new lock0 C).m_groups.lookup .Io = some (.relaxed g)
                ∧ g.m_workers = []) := by
  refine ⟨?_, ?_, ?_⟩
  · intro lock0 C
    have hs := sizes_new lock0 C
    have hc : (C + 4294967295) % 4294967296 % 65536 < 65536 := Nat.mod_lt _ (by norm_num)
    generalize (C + 4294967295) % 4294967296 % 65536 = c at hs hc
    refine ⟨c, c / 4, c - c / 4, rfl, hs.1, hs.2, rfl, rfl, ?_, ?_, ?_, ?_⟩ <;> omega
  · intro c hc
    omega
  · intro lock0 C h1 h4
    have hs := sizes_new lock0 C
    have hg := io_group_new lock0 C
    have hc : (C + 4294967295) % 4294967296 % 65536 / 4 = 0 := by omega
    rw [hc] at hs hg
    exact ⟨hs.1, _, hg, rfl⟩

/-- Witness for C25: three hardware threads give a budget of 2, an `IO` group
without workers and an `Ecs` group of 2 workers. -/
theorem budget_split_witness :
    1 ≤ 3 ∧ 3 ≤ 4
      ∧ (new true 3).GetWorkerGroupSize .Io = some 0
      ∧ (new true 3).GetWorkerGroupSize .Ecs = some 2
      ∧ ∃ g : RelaxedWorkerGroup, (new true 3).m_groups.lookup .Io = some (.relaxed g)
          ∧ g.m_workers = [] :=
  ⟨by decide, by decide, (budget_split.2.2 true 3 (by decide) (by decide)).1,
    (sizes_new true 3).2, (budget_split.2.2 true 3 (by decide) (by decide)).2⟩

/-- C25 as stated fails on its last part: a machine that reports 0 hardware
threads (count unknown) reports "4 or fewer", and its `IO` group is
constructed with 16383 workers, not with none. -/
theorem io_group_of_unknown_count :
    0 ≤ 4 ∧ (new true 0).GetWorkerGroupSize .Io = some 16383
      ∧ (new true 0).GetWorkerGroupSize .Io ≠ some 0
      ∧ (new true 0).m_groups.lookup .Io
          = some (.relaxed (RelaxedWorkerGroup.new true .Io 16383))
      ∧ (RelaxedWorkerGroup.new true .Io 16383).m_workers.length = 16383 := by
  have h := (sizes_new true 0).1
  have hg := io_group_new true 0
  refine ⟨by decide, h, ?_, hg, ?_⟩
  · rw [h]
    decide
  · exact List.length_replicate _ _

/-- C26: the budget the constructor computes from the reported thread count
`C` is `((C - 1) mod 2^32) mod 2^16`, with the subtraction taken in the
integers, and the two groups get a quarter of it (rounded down) and the rest.
For `C = 0` the budget is 65535, the `IO` group has 16383 workers and the
`Ecs` group 49152; for `C = 65537` the budget is 0 and both groups are
empty. -/
theorem budget_wraps :
    (∀ (lock0 : Bool) (C : Nat), ∃ c : Nat,
        (c : Int) = ((C : Int) - 1) % 4294967296 % 65536
          ∧ (new lock0 C).GetWorkerGroupSize .Io = some (c / 4)
          ∧ (new lock0 C).GetWorkerGroupSize .Ecs = some (c - c / 4)
          ∧ c / 4 + (c - c / 4) = c)
      ∧ (((0 : Int) - 1) % 4294967296 % 65536 = 65535
          ∧ (new true 0).GetWorkerGroupSize .Io = some 16383
          ∧ (new true 0).GetWorkerGroupSize .Ecs = some 49152
          ∧ 16383 + 49152 = 65535)
      ∧ (((65537 : Int) - 1) % 4294967296 % 65536 = 0
          ∧ (new true 65537).GetWorkerGroupSize .Io = some 0
          ∧ (new true 65537).GetWorkerGroupSize .Ecs = some 0) := by
  refine ⟨?_, ?_, ?_⟩
  · intro lock0 C
    have hs := sizes_new lock0 C
    refine ⟨(C + 4294967295) % 4294967296 % 65536, ?_, hs.1, hs.2, by omega⟩
    omega
  · exact ⟨by norm_num, (sizes_new true 0).1, (sizes_new true 0).2, by decide⟩
  · exact ⟨by norm_num, (sizes_new true 65537).1, (sizes_new true 65537).2⟩

end Scheduler

namespace RelaxedWorkerGroup

theorem setWorker_at {g : RelaxedWorkerGroup} {i : Nat} {w : Worker RPc} (w2 : Worker RPc)
    (hw : g.m_workers[i]? = some w) : (g.setWorker i w2).m_workers[i]? = some w2 := by
  have hi : i < g.m_workers.length := by
    by_contra hc
    rw [List.getElem?_eq_none (by omega)] at hw
    cases hw
  simp [RelaxedWorkerGroup.setWorker, hi]

/-- The step that takes a task from the queue, whatever the task is. -/
theorem step_dequeue {g : RelaxedWorkerGroup} {i : Nat} {l : Bool} {t : Task} {rest : List Task}
    (hw : g.m_workers[i]? = some ⟨l, .dequeue⟩) (hr : g.m_tasks.m_released = false)
    (hq : g.m_tasks.m_queue = t :: rest) :
    g.WorkerRoutine i
      = { g with m_tasks := { g.m_tasks with m_queue := rest } }.setWorker i ⟨l, .call t⟩ := by
  unfold WorkerRoutine
  rw [hw]
  simp only [ThreadSafeLockQueue.Dequeue, hr, hq]
  rfl

/-- The call of an empty task stops the thread. -/
theorem step_call_null {g : RelaxedWorkerGroup} {i : Nat} {l : Bool}
    (hw : g.m_workers[i]? = some ⟨l, .call none⟩) :
    g.WorkerRoutine i = g.setWorker i ⟨l, .fault⟩ := by
  unfold WorkerRoutine
  rw [hw]

/-- A stopped thread takes no further action. -/
theorem step_fault {g : RelaxedWorkerGroup} {i : Nat} {l : Bool}
    (hw : g.m_workers[i]? = some ⟨l, .fault⟩) : g.WorkerRoutine i = g := by
  unfold WorkerRoutine
  rw [hw]

/-- C27: `RelaxedWorkerGroup::EnqueueTask` puts a null task in the queue like
any other, and the worker step that finds a null task at the head of the queue
takes it and, with its next action, calls it: the thread stops in the call of
an empty task. Nothing is logged, the worker does not go back to the queue
(the tasks behind the null one stay queued for the other workers) and it does
not wait either: every later step of that worker leaves the state as it is.
The batched routine makes the test: a worker that fetches a null task calls
nothing and goes to sleep on its lock. -/
theorem null_task_is_called (g : RelaxedWorkerGroup) (i : Nat) (l : Bool) (rest : List Task)
    (hw : g.m_workers[i]? = some ⟨l, .dequeue⟩) (hr : g.m_tasks.m_released = false)
    (hq : g.m_tasks.m_queue = none :: rest) :
    (∀ g2 : RelaxedWorkerGroup,
        (g2.EnqueueTask none).m_tasks.m_queue = g2.m_tasks.m_queue ++ [none])
      ∧ (g.WorkerRoutine i).m_workers[i]? = some ⟨l, .call none⟩
      ∧ (g.WorkerRoutine i).m_tasks.m_queue = rest
      ∧ ((g.WorkerRoutine i).WorkerRoutine i).m_workers[i]? = some ⟨l, .fault⟩
      ∧ ((g.WorkerRoutine i).WorkerRoutine i).log = g.log
      ∧ ((g.WorkerRoutine i).WorkerRoutine i).m_tasks.m_queue = rest
      ∧ (((g.WorkerRoutine i).WorkerRoutine i).WorkerRoutine i
          = (g.WorkerRoutine i).WorkerRoutine i)
      ∧ (∀ (b : BatchedWorkerGroup) (j : Nat) (lb : Bool),
          b.m_workers[j]? = some ⟨lb, .fetch⟩ → b.m_tasks[b.m_cursor]? = some none →
          ((b.WorkerRoutine j).WorkerRoutine j).m_workers[j]? = some ⟨true, .spin⟩
            ∧ ((b.WorkerRoutine j).WorkerRoutine j).log = b.log) := by
  have h1 := step_dequeue hw hr hq
  have hw1 : (g.WorkerRoutine i).m_workers[i]? = some ⟨l, .call none⟩ := by
    rw [h1]
    exact @setWorker_at { g with m_tasks := { g.m_tasks with m_queue := rest } } i _ _ hw
  have h2 := step_call_null hw1
  have hw2 : ((g.WorkerRoutine i).WorkerRoutine i).m_workers[i]? = some ⟨l, .fault⟩ := by
    rw [h2]
    exact setWorker_at _ hw1
  refine ⟨fun _ => rfl, hw1, by rw [h1]; rfl, hw2, ?_, ?_, step_fault hw2, ?_⟩
  · rw [h2, h1]; rfl
  · rw [h2, h1]; rfl
  · intro b j lb hb hn
    have hb1 : b.WorkerRoutine j
        = { b with m_cursor := b.m_cursor + 1 }.setWorker j ⟨lb, .park⟩ := by
      rw [BatchedWorkerGroup.step_fetch hb, hn]
    have hwb : (b.WorkerRoutine j).m_workers[j]? = some ⟨lb, .park⟩ := by
      rw [hb1]
      exact @BatchedWorkerGroup.setWorker_get { b with m_cursor := b.m_cursor + 1 } j _ _ hb
    have hb2 := BatchedWorkerGroup.step_park hwb
    constructor
    · rw [hb2]
      exact BatchedWorkerGroup.setWorker_get _ hwb
    · rw [hb2, hb1]; rfl

/-- Witness for C27: one worker, the queue `[null, t5]`: the worker takes the
null task, stops in its call, and task 5 is still queued and never logged. -/
theorem null_task_is_called_witness :
    (((RelaxedWorkerGroup.new true .Io 1).EnqueueTask none).EnqueueTask (some 5)).m_tasks.m_queue
        = [none, some 5]
      ∧ (((((RelaxedWorkerGroup.new true .Io 1).EnqueueTask none).EnqueueTask
            (some 5)).WorkerRoutine 0).WorkerRoutine 0).m_workers = [⟨true, .fault⟩]
      ∧ (((((RelaxedWorkerGroup.new true .Io 1).EnqueueTask none).EnqueueTask
            (some 5)).WorkerRoutine 0).WorkerRoutine 0).log
          = (((RelaxedWorkerGroup.new true .Io 1).EnqueueTask none).EnqueueTask (some 5)).log
      ∧ (((((RelaxedWorkerGroup.new true .Io 1).EnqueueTask none).EnqueueTask
            (some 5)).WorkerRoutine 0).WorkerRoutine 0).m_tasks.m_queue = [some 5] :=
  ⟨by decide, by decide,
    (null_task_is_called (((RelaxedWorkerGroup.new true .Io 1).EnqueueTask none).EnqueueTask
      (some 5)) 0 true [some 5] (by decide) (by decide) (by decide)).2.2.2.2.1,
    (null_task_is_called (((RelaxedWorkerGroup.new true .Io 1).EnqueueTask none).EnqueueTask
      (some 5)) 0 true [some 5] (by decide) (by decide) (by decide)).2.2.2.2.2.1⟩

end RelaxedWorkerGroup

/-! ## Reads of the task buffer -/

namespace BatchedWorkerGroup

theorem claims_append : ∀ (a b : List Event) (g : BatchedWorkerGroup),
    g.claims (a ++ b) = g.claims a ++ (g.run a).claims b
  | [], _, _ => rfl
  | e :: a, b, g => by
    have ih := claims_append a b (g.apply e)
    show g.claims (e :: (a ++ b)) = g.claims (e :: a) ++ ((g.apply e).run a).claims b
    cases e with
    | step i =>
      simp only [claims]
      cases g.m_workers[i]? with
      | none => exact ih
      | some w =>
        simp only
        split
        · rw [ih]; rfl
        · exact ih
    | setBatch ts => exact ih
    | storeCursor => exact ih
    | clear j => exact ih
    | stopLiving => exact ih

/-- The calling thread claims no slot. -/
theorem claims_main : ∀ (es : List Event) (g : BatchedWorkerGroup),
    es.all Event.isMain = true → g.claims es = []
  | [], _, _ => rfl
  | e :: es, g, h => by
    simp only [List.all_cons, Bool.and_eq_true] at h
    have ih := claims_main es (g.apply e) h.2
    cases e with
    | step i => simp [Event.isMain] at h
    | setBatch ts => exact ih
    | storeCursor => exact ih
    | clear j => exact ih
    | stopLiving => exact ih

theorem consumeProgram_main (W : Nat) : (consumeProgram W).all Event.isMain = true := by
  have h := filter_consumeProgram W
  exact List.filter_eq_self.mp h |> fun hh => List.all_eq_true.mpr hh

/-- Without a `SetBatch` the buffer stays as it is. -/
theorem run_tasks : ∀ (es : List Event) (g : BatchedWorkerGroup),
    (∀ ts, Event.setBatch ts ∉ es) → (g.run es).m_tasks = g.m_tasks
  | [], _, _ => rfl
  | e :: es, g, h => by
    have hrest : ∀ ts, Event.setBatch ts ∉ es := fun ts hm => h ts (List.mem_cons_of_mem _ hm)
    show ((g.apply e).run es).m_tasks = _
    rw [run_tasks es (g.apply e) hrest]
    cases e with
    | step i => exact WorkerRoutine_tasks g i
    | setBatch ts => exact absurd (List.mem_cons_self _ _) (h ts)
    | storeCursor => rfl
    | clear j =>
      simp only [BatchedWorkerGroup.apply]
      split <;> rfl
    | stopLiving => rfl

/-- A worker that read past the end of the buffer stays stopped. -/
theorem fault_stays (i : Nat) : ∀ (es : List Event) (g : BatchedWorkerGroup),
    (∃ l, g.m_workers[i]? = some ⟨l, .fault⟩) →
      ∃ l, (g.run es).m_workers[i]? = some ⟨l, .fault⟩
  | [], _, h => h
  | e :: es, g, h => by
    refine fault_stays i es (g.apply e) ?_
    obtain ⟨l, hl⟩ := h
    cases e with
    | step j =>
      show ∃ l, (g.WorkerRoutine j).m_workers[i]? = _
      by_cases hji : j = i
      · subst hji
        rw [step_halted (Or.inr (Or.inr ⟨l, hl⟩))]
        exact ⟨l, hl⟩
      · rw [WorkerRoutine_other g hji]
        exact ⟨l, hl⟩
    | setBatch ts => exact ⟨l, hl⟩
    | storeCursor => exact ⟨l, hl⟩
    | stopLiving => exact ⟨l, hl⟩
    | clear j =>
      by_cases hji : j = i
      · subst hji
        simp only [BatchedWorkerGroup.apply, hl]
        exact ⟨false, setWorker_get _ hl⟩
      · rw [clear_other g hji]
        exact ⟨l, hl⟩

/-- On an empty buffer every claim stops the claiming worker. -/
theorem claims_fault : ∀ (es : List Event) (g : BatchedWorkerGroup),
    g.m_tasks = [] → (∀ ts, Event.setBatch ts ∉ es) →
      ∀ c ∈ g.claims es, ∃ l, (g.run es).m_workers[c.1]? = some ⟨l, .fault⟩
  | [], _, _, _ => by simp [claims]
  | e :: es, g, ht, h => by
    have hrest : ∀ ts, Event.setBatch ts ∉ es := fun ts hm => h ts (List.mem_cons_of_mem _ hm)
    have ht2 : (g.apply e).m_tasks = [] := by
      have := run_tasks [e] g (by
        intro ts hm
        exact h ts (by
          rw [List.mem_singleton] at hm
          rw [hm]
          exact List.mem_cons_self _ _))
      rw [← ht]
      exact this
    have ih := claims_fault es (g.apply e) ht2 hrest
    intro c hc
    show ∃ l, ((g.apply e).run es).m_workers[c.1]? = _
    cases e with
    | step i =>
      simp only [claims] at hc
      cases hw : g.m_workers[i]? with
      | none => rw [hw] at hc; exact ih c hc
      | some w =>
        rw [hw] at hc
        simp only at hc
        by_cases hf : w.pc = .fetch
        · rw [if_pos hf] at hc
          rcases List.mem_cons.mp hc with h1 | h1
          · subst h1
            obtain ⟨l, pc⟩ := w
            simp only at hf
            subst hf
            refine fault_stays i es _ ⟨l, ?_⟩
            show (g.WorkerRoutine i).m_workers[i]? = _
            rw [step_fetch hw, ht]
            exact @setWorker_get { g with m_cursor := g.m_cursor + 1 } i _ _ hw
          · exact ih c h1
        · rw [if_neg hf] at hc
          exact ih c hc
    | setBatch ts => exact ih c hc
    | storeCursor => exact ih c hc
    | clear j => exact ih c hc
    | stopLiving => exact ih c hc

/-- While the cursor is 0, the first claim returns index 0. -/
theorem claims_head : ∀ (es : List Event) (g : BatchedWorkerGroup),
    g.m_cursor = 0 → ∀ c, (g.claims es).head? = some c → c.2 = 0
  | [], _, _, c, hc => by simp [claims] at hc
  | e :: es, g, h0, c, hc => by
    cases e with
    | step i =>
      have hcur := WorkerRoutine_cursor g i
      simp only [claims] at hc
      cases hw : g.m_workers[i]? with
      | none =>
        rw [hw] at hc hcur
        exact claims_head es _ (by rw [BatchedWorkerGroup.apply, hcur]; exact h0) c hc
      | some w =>
        rw [hw] at hc hcur
        simp only at hc hcur
        by_cases hf : w.pc = .fetch
        · rw [if_pos hf] at hc
          simp only [List.head?_cons, Option.some.injEq] at hc
          rw [← hc]
          exact h0
        · rw [if_neg hf] at hc hcur
          exact claims_head es _ (by rw [BatchedWorkerGroup.apply, hcur]; exact h0) c hc
    | setBatch ts => exact claims_head es (g.apply (.setBatch ts)) h0 c hc
    | storeCursor => exact claims_head es (g.apply .storeCursor) rfl c hc
    | clear j =>
      refine claims_head es (g.apply (.clear j)) ?_ c hc
      simp only [BatchedWorkerGroup.apply]
      split
      · exact h0
      · exact h0
    | stopLiving => exact claims_head es (g.apply .stopLiving) h0 c hc

/-- Worker `i` of a fresh group along `wakeUp`: the states after its first
step and the `ConsumeBatch`, and after each of the three steps that follow. -/
theorem wakeUp_run (lock0 : Bool) (id : EWorkerGroupID) (W i : Nat) (hi : i < W) :
    ((new lock0 id W).run (wakeUp W i)).m_workers[i]? = some ⟨true, .fault⟩
      ∧ (new lock0 id W).claims (wakeUp W i) = [(i, 0)] := by
  have hlen : (new lock0 id W).m_workers.length = W := by
    simp [new, WorkerGroup.new]
  have hw0 : (new lock0 id W).m_workers[i]? = some ⟨lock0, .start⟩ := by
    simp [new, WorkerGroup.new, List.getElem?_replicate, hi]
  have h1 : (new lock0 id W).WorkerRoutine i = (new lock0 id W).setWorker i ⟨true, .spin⟩ :=
    step_start hw0
  have hw1 : ((new lock0 id W).WorkerRoutine i).m_workers[i]? = some ⟨true, .spin⟩ := by
    rw [h1]; exact setWorker_get _ hw0
  have hlen1 : ((new lock0 id W).WorkerRoutine i).m_workers.length = W := by
    rw [WorkerRoutine_length, hlen]
  have h2 : ((new lock0 id W).WorkerRoutine i).run (consumeProgram W)
      = ((new lock0 id W).WorkerRoutine i).ConsumeBatch := by
    rw [ConsumeBatch_eq_run, hlen1]
  generalize hg1 : (new lock0 id W).WorkerRoutine i = g1 at h2 hw1 hlen1
  have ht1 : g1.m_tasks = [] := by rw [← hg1, WorkerRoutine_tasks]; rfl
  have hl1 : g1.m_living = true := by rw [← hg1, WorkerRoutine_living]; rfl
  have hw2 : g1.ConsumeBatch.m_workers[i]? = some ⟨false, .spin⟩ := by
    simp [ConsumeBatch, hw1, clearLock]
  generalize hg2 : g1.ConsumeBatch = g2 at h2 hw2
  have ht2 : g2.m_tasks = [] := by rw [← hg2]; exact ht1
  have hl2 : g2.m_living = true := by rw [← hg2]; exact hl1
  have hc2 : g2.m_cursor = 0 := by rw [← hg2]; rfl
  have h3 : g2.WorkerRoutine i = g2.setWorker i ⟨true, .check⟩ := by
    rw [step_spin hw2]; rfl
  have hw3 : (g2.WorkerRoutine i).m_workers[i]? = some ⟨true, .check⟩ := by
    rw [h3]; exact setWorker_get _ hw2
  generalize hg3 : g2.WorkerRoutine i = g3 at h3 hw3
  have ht3 : g3.m_tasks = [] := by rw [h3]; exact ht2
  have hl3 : g3.m_living = true := by rw [h3]; exact hl2
  have hc3 : g3.m_cursor = 0 := by rw [h3]; exact hc2
  have h4 : g3.WorkerRoutine i = g3.setWorker i ⟨true, .fetch⟩ := by
    rw [step_check hw3, if_pos hl3]
  have hw4 : (g3.WorkerRoutine i).m_workers[i]? = some ⟨true, .fetch⟩ := by
    rw [h4]; exact setWorker_get _ hw3
  generalize hg4 : g3.WorkerRoutine i = g4 at h4 hw4
  have ht4 : g4.m_tasks = [] := by rw [h4]; exact ht3
  have hc4 : g4.m_cursor = 0 := by rw [h4]; exact hc3
  have hw5 : (g4.WorkerRoutine i).m_workers[i]? = some ⟨true, .fault⟩ := by
    rw [step_fetch hw4, ht4]
    exact @setWorker_get { g4 with m_cursor := g4.m_cursor + 1 } i _ _ hw4
  have hrun : (new lock0 id W).run (wakeUp W i) = g4.WorkerRoutine i := by
    show ((new lock0 id W).WorkerRoutine i).run (consumeProgram W ++ [.step i, .step i, .step i])
      = _
    rw [hg1, run_append, h2]
    show ((g2.WorkerRoutine i).WorkerRoutine i).WorkerRoutine i = _
    rw [hg3, hg4]
  refine ⟨by rw [hrun]; exact hw5, ?_⟩
  have hcl0 : (new lock0 id W).claims (wakeUp W i)
      = ((new lock0 id W).WorkerRoutine i).claims
          (consumeProgram W ++ [.step i, .step i, .step i]) := by
    simp only [wakeUp, claims, hw0]
    rfl
  rw [hcl0, hg1, claims_append, claims_main _ _ (consumeProgram_main W), h2, List.nil_append]
  have e1 : g2.claims [.step i, .step i, .step i] = g3.claims [.step i, .step i] := by
    simp only [claims, hw2]
    rw [← hg3]
    rfl
  have e2 : g3.claims [.step i, .step i] = g4.claims [.step i] := by
    simp only [claims, hw3]
    rw [← hg4]
    rfl
  have e3 : g4.claims [.step i] = [(i, g4.m_cursor)] := by
    simp only [claims, hw4]
    rfl
  rw [e1, e2, e3, hc4]

/-- C23: a freshly constructed group has an empty task buffer, and the buffer
stays empty along every schedule without a `SetBatch` (worker steps, the
writes of `ConsumeBatch` and of the destructor, in any order and number). Along
such a schedule the first fetch-and-increment returns index 0, and every worker
that makes a fetch-and-increment reads past the end of the buffer (no index is
less than the length 0) and stops there. A woken worker does get there: for
every worker `i` of the group, when the worker has taken its first step and
`ConsumeBatch` is called, its next three steps end in the read of index 0 of
the empty buffer. -/
theorem consume_before_SetBatch (lock0 : Bool) (id : EWorkerGroupID) (W i : Nat) (hi : i < W) :
    (new lock0 id W).m_tasks.length = 0
      ∧ (∀ es : List Event, (∀ ts, Event.setBatch ts ∉ es) →
          ((new lock0 id W).run es).m_tasks = []
            ∧ (∀ c, ((new lock0 id W).claims es).head? = some c → c.2 = 0)
            ∧ (∀ c ∈ (new lock0 id W).claims es,
                ¬ c.2 < ((new lock0 id W).run es).m_tasks.length
                  ∧ ∃ l, ((new lock0 id W).run es).m_workers[c.1]? = some ⟨l, .fault⟩))
      ∧ (∀ ts, Event.setBatch ts ∉ wakeUp W i)
      ∧ (wakeUp W i).filter Event.isMain = consumeProgram W
      ∧ (new lock0 id W).claims (wakeUp W i) = [(i, 0)]
      ∧ ((new lock0 id W).run (wakeUp W i)).m_workers[i]? = some ⟨true, .fault⟩ := by
  have hw := wakeUp_run lock0 id W i hi
  refine ⟨rfl, ?_, ?_, ?_, hw.2, hw.1⟩
  · intro es hes
    have ht : ((new lock0 id W).run es).m_tasks = [] := run_tasks es _ hes
    refine ⟨ht, claims_head es _ rfl, ?_⟩
    intro c hc
    refine ⟨?_, claims_fault es _ rfl hes c hc⟩
    rw [ht]
    exact Nat.not_lt_zero _
  · intro ts hm
    simp only [wakeUp, List.mem_cons, List.mem_append, List.mem_singleton] at hm
    have hcl : ∀ (n k : Nat), Event.setBatch ts ∉ clearsFrom k n := by
      intro n
      induction n with
      | zero => intro k; simp [clearsFrom]
      | succ n ih =>
        intro k
        simp only [clearsFrom, List.mem_cons, not_or]
        exact ⟨by simp, ih (k + 1)⟩
    simp only [consumeProgram, List.mem_cons] at hm
    rcases hm with h | (h | h) | h
    · cases h
    · cases h
    · exact hcl _ _ h
    · simp at h
  · simp only [wakeUp, List.filter_cons, Event.isMain, List.filter_append,
      filter_consumeProgram]
    simp

/-- Witness for C23: two workers, worker 1 woken by a `ConsumeBatch` on the
fresh group: it claims index 0 of the empty buffer and stops. -/
theorem consume_before_SetBatch_witness :
    1 < 2
      ∧ wakeUp 2 1 = [.step 1, .storeCursor, .clear 0, .clear 1, .step 1, .step 1, .step 1]
      ∧ (new false .Ecs 2).claims (wakeUp 2 1) = [(1, 0)]
      ∧ ((new false .Ecs 2).run (wakeUp 2 1)).m_workers[1]? = some ⟨true, .fault⟩
      ∧ ((new false .Ecs 2).run (wakeUp 2 1)).m_tasks = [] :=
  ⟨by decide, by decide,
    (consume_before_SetBatch false .Ecs 2 1 (by decide)).2.2.2.2.1,
    (consume_before_SetBatch false .Ecs 2 1 (by decide)).2.2.2.2.2,
    by decide⟩

end BatchedWorkerGroup

/-! ## Buffer bounds and null tasks of a round -/

namespace BatchedWorkerGroup

set_option maxRecDepth 100000

/-- A worker about to fetch finds fewer than `W` null entries claimed. -/
theorem RoundInv.fetch_nulls {W buf L0 k} {g : BatchedWorkerGroup} (h : RoundInv W buf L0 k g)
    {i : Nat} {w : BWorker} (hw : g.m_workers[i]? = some w) (ha : awake w = true) :
    (buf.take g.m_cursor).count none < W := by
  have h2 := h.bal
  have h3 : 0 < g.m_workers.countP awake :=
    List.countP_pos_iff.mpr ⟨w, List.getElem?_mem hw, ha⟩
  have := h.kle
  omega

theorem Bounded.on_worker_step {W buf L0 k} {g : BatchedWorkerGroup} (h : RoundInv W buf L0 k g)
    (hb : Bounded W buf g) (i : Nat) : Bounded W buf (g.WorkerRoutine i) := by
  intro j hj
  rw [WorkerRoutine_cursor] at hj
  cases hw : g.m_workers[i]? with
  | none => rw [hw] at hj; exact hb j hj
  | some w =>
    rw [hw] at hj
    simp only at hj
    by_cases hf : w.pc = .fetch
    · rw [if_pos hf] at hj
      by_cases hlt : j < g.m_cursor
      · exact hb j hlt
      · have hje : j = g.m_cursor := by omega
        subst hje
        exact h.fetch_nulls hw (by
          obtain ⟨l, pc⟩ := w
          simp only at hf
          subst hf
          rfl)
    · rw [if_neg hf] at hj
      exact hb j hj

theorem Bounded.on_lock_clear {W buf} {g : BatchedWorkerGroup} (hb : Bounded W buf g) (j : Nat) :
    Bounded W buf (g.apply (.clear j)) := by
  have hc : (g.apply (.clear j)).m_cursor = g.m_cursor := by
    simp only [BatchedWorkerGroup.apply]
    split <;> rfl
  intro x hx
  rw [hc] at hx
  exact hb x hx

/-- At every point of the lock clears of a `ConsumeBatch` the round invariant
holds, every claimed slot lies inside the buffer and before its `W`-th null
entry. -/
theorem RoundInv.during {W buf L0} (H : W ≤ buf.count none) :
    ∀ (es : List Event) (k n : Nat) (g : BatchedWorkerGroup),
      RoundInv W buf L0 k g → Bounded W buf g → k + n ≤ W →
      (es.filter Event.isMain).isPrefixOf (clearsFrom k n) = true →
      (∃ k2, RoundInv W buf L0 k2 (g.run es)) ∧ Bounded W buf (g.run es)
        ∧ ∀ c ∈ g.claims es, c.2 < buf.length ∧ (buf.take c.2).count none < W
  | [], k, _, g, h, hb, _, _ => ⟨⟨k, h⟩, hb, by simp [claims]⟩
  | e :: es, k, n, g, h, hb, hkn, hes => by
    show (∃ k2, RoundInv W buf L0 k2 ((g.apply e).run es)) ∧ Bounded W buf ((g.apply e).run es)
      ∧ _
    cases e with
    | step i =>
      have ih := RoundInv.during H es k n _ (h.step H i) (Bounded.on_worker_step h hb i) hkn
        (by simpa [Event.isMain] using hes)
      refine ⟨ih.1, ih.2.1, ?_⟩
      intro c hc
      simp only [claims] at hc
      cases hw : g.m_workers[i]? with
      | none => rw [hw] at hc; exact ih.2.2 c hc
      | some w =>
        rw [hw] at hc
        simp only at hc
        by_cases hf : w.pc = .fetch
        · rw [if_pos hf] at hc
          have ha : awake w = true := by
            obtain ⟨l, pc⟩ := w
            simp only at hf
            subst hf
            rfl
          rcases List.mem_cons.mp hc with h1 | h1
          · subst h1
            exact ⟨h.cursor_lt H hw ha, h.fetch_nulls hw ha⟩
          · exact ih.2.2 c h1
        · rw [if_neg hf] at hc
          exact ih.2.2 c hc
    | clear j =>
      cases n with
      | zero => simp [clearsFrom, Event.isMain] at hes
      | succ n =>
        simp only [clearsFrom, Event.isMain, List.filter_cons_of_pos, List.isPrefixOf,
          Bool.and_eq_true, beq_iff_eq, Event.clear.injEq] at hes
        obtain ⟨hj, hes⟩ := hes
        subst hj
        exact RoundInv.during H es (j + 1) n _ (h.clear (by omega)) (hb.on_lock_clear j) (by omega) hes
    | setBatch ts =>
      cases n with
      | zero => simp [clearsFrom, Event.isMain] at hes
      | succ n => simp [clearsFrom, Event.isMain] at hes
    | storeCursor =>
      cases n with
      | zero => simp [clearsFrom, Event.isMain] at hes
      | succ n => simp [clearsFrom, Event.isMain] at hes
    | stopLiving =>
      cases n with
      | zero => simp [clearsFrom, Event.isMain] at hes
      | succ n => simp [clearsFrom, Event.isMain] at hes

/-- From a sleeping group, at every point of a `ConsumeBatch` in progress or
completed: either the call has not begun and nothing has changed, or the round
invariant holds; and every claimed slot lies inside the buffer and before its
`W`-th null entry. -/
theorem round_during {g : BatchedWorkerGroup} (hs : asleep g) (hl : g.m_living = true)
    (H : g.m_workers.length ≤ g.m_tasks.count none) :
    ∀ (es : List Event), inConsume g.m_workers.length es = true →
      ((g.run es = g ∧ es.filter Event.isMain = [])
          ∨ ((∃ k2, RoundInv g.m_workers.length g.m_tasks g.log k2 (g.run es))
              ∧ Bounded g.m_workers.length g.m_tasks (g.run es)))
        ∧ ∀ c ∈ g.claims es,
            c.2 < g.m_tasks.length ∧ (g.m_tasks.take c.2).count none < g.m_workers.length
  | [], _ => ⟨Or.inl ⟨rfl, rfl⟩, by simp [claims]⟩
  | e :: es, hes => by
    show (((g.apply e).run es = g ∧ (e :: es).filter Event.isMain = [])
      ∨ ((∃ k2, RoundInv _ _ _ k2 ((g.apply e).run es))
        ∧ Bounded _ _ ((g.apply e).run es))) ∧ _
    cases e with
    | step i =>
      have ih := round_during hs hl H es (by simpa [inConsume, Event.isMain] using hes)
      have hst : g.apply (.step i) = g := step_of_asleep hs i
      rw [hst]
      have hfil : (Event.step i :: es).filter Event.isMain = es.filter Event.isMain := by
        simp [Event.isMain]
      rw [hfil]
      refine ⟨ih.1, ?_⟩
      intro c hc
      simp only [claims, hst] at hc
      cases hw : g.m_workers[i]? with
      | none => rw [hw] at hc; exact ih.2 c hc
      | some w =>
        rw [hw] at hc
        simp only at hc
        have hwv := hs w (List.getElem?_mem hw)
        subst hwv
        exact ih.2 c hc
    | storeCursor =>
      simp only [inConsume, consumeProgram, Event.isMain, List.filter_cons_of_pos,
        List.isPrefixOf, Bool.and_eq_true, beq_self_eq_true, true_and] at hes
      have hb0 : Bounded g.m_workers.length g.m_tasks (g.apply .storeCursor) := by
        intro j hj
        exact absurd hj (Nat.not_lt_zero j)
      have := RoundInv.during H es 0 g.m_workers.length _ (RoundInv.store hs hl) hb0
        (by omega) hes
      exact ⟨Or.inr ⟨this.1, this.2.1⟩, this.2.2⟩
    | clear j => simp [inConsume, consumeProgram, Event.isMain] at hes
    | setBatch ts => simp [inConsume, consumeProgram, Event.isMain] at hes
    | stopLiving => simp [inConsume, consumeProgram, Event.isMain] at hes

/-- A whole `ConsumeBatch` is a `ConsumeBatch` in progress or completed. -/
theorem inConsume_of_eq {W : Nat} {es : List Event}
    (h : es.filter Event.isMain = consumeProgram W) : inConsume W es = true := by
  unfold inConsume
  rw [h]
  exact List.isPrefixOf_iff_prefix.mpr (List.prefix_refl _)

/-- Successive drained rounds leave a sleeping group asleep, with its buffer. -/
theorem rounds_asleep :
    ∀ (ess : List (List Event)) (g : BatchedWorkerGroup),
      asleep g → g.m_living = true → g.m_workers.length ≤ g.m_tasks.count none →
      areRounds g ess = true →
      asleep (g.runAll ess) ∧ (g.runAll ess).m_living = true
        ∧ (g.runAll ess).m_tasks = g.m_tasks
        ∧ (g.runAll ess).m_workers.length = g.m_workers.length
  | [], _, hs, hl, _, _ => ⟨hs, hl, rfl, rfl⟩
  | es :: ess, g, hs, hl, H, hr => by
    simp only [areRounds, Bool.and_eq_true, decide_eq_true_eq] at hr
    obtain ⟨⟨hes, hq⟩, hrest⟩ := hr
    have hinv := round_inv hs hl H es hes
    have ih := rounds_asleep ess (g.run es) (hinv.quiet hq) hinv.living
      (by rw [hinv.len, hinv.tasks]; exact H) hrest
    show asleep ((g.run es).runAll ess) ∧ ((g.run es).runAll ess).m_living = true
      ∧ ((g.run es).runAll ess).m_tasks = g.m_tasks
      ∧ ((g.run es).runAll ess).m_workers.length = g.m_workers.length
    exact ⟨ih.1, ih.2.1, ih.2.2.1.trans hinv.tasks, ih.2.2.2.trans hinv.len⟩

/-- The end markers claimed are among the null entries claimed. -/
theorem trailing_claimed (ts : List Task) (W c : Nat) (hc : c ≤ ts.length + W) :
    c - ts.length ≤ ((ts ++ List.replicate W (none : Task)).take c).count none := by
  rw [List.take_append_eq_append_take, List.count_append, List.take_replicate,
    List.count_replicate_self]
  omega

/-- The end markers not claimed yet. -/
theorem trailing_left (ts : List Task) (W c : Nat) :
    ((ts ++ List.replicate W (none : Task)).drop (max c ts.length)).count none
      = W - (max c ts.length - ts.length) := by
  rw [List.drop_append_eq_append_drop, List.drop_of_length_le (Nat.le_max_right _ _),
    List.nil_append, List.drop_replicate, List.count_replicate_self]

/-- C22: take a group of `W` workers that all sleep and on which `SetBatch` is
called with `N` tasks, then any number of drained rounds (in each, one
`ConsumeBatch` interleaved with worker steps, ended with no worker able to
step, so that the next `ConsumeBatch` finds all workers asleep), then a
`ConsumeBatch` in progress or completed, interleaved with worker steps in any
way. In every state so reached the buffer has length `N + W`, every index
returned by a fetch-and-increment is less than `N + W`, no worker has read
past the end of the buffer, and the workers awake are at most as many as the
end markers not claimed yet. -/
theorem reads_in_bounds (g0 : BatchedWorkerGroup) (ts : List Task) (ess : List (List Event))
    (es : List Event)
    (hsleep : allBlocked g0 = true) (hliving : g0.m_living = true)
    (hr : areRounds (g0.SetBatch ts) ess = true)
    (hes : inConsume g0.m_workers.length es = true) :
    ((((g0.SetBatch ts).runAll ess).run es).m_tasks.length = ts.length + g0.m_workers.length)
      ∧ (∀ c ∈ ((g0.SetBatch ts).runAll ess).claims es, c.2 < ts.length + g0.m_workers.length)
      ∧ (∀ w ∈ (((g0.SetBatch ts).runAll ess).run es).m_workers, w.pc ≠ .fault)
      ∧ (((g0.SetBatch ts).runAll ess).run es).m_workers.countP awake
          ≤ ((((g0.SetBatch ts).runAll ess).run es).m_tasks.drop
              (max (((g0.SetBatch ts).runAll ess).run es).m_cursor ts.length)).count none := by
  have hs := asleep_of_allBlocked hsleep
  have hbuf : (g0.SetBatch ts).m_tasks = ts ++ List.replicate g0.m_workers.length none :=
    addEndMarkers_eq _ _
  obtain ⟨hs1, hl1, ht1, hlen1⟩ :=
    rounds_asleep ess (g0.SetBatch ts) hs hliving (SetBatch_nulls g0 ts) hr
  have hlen0 : (g0.SetBatch ts).m_workers.length = g0.m_workers.length := rfl
  rw [hlen0] at hlen1
  generalize (g0.SetBatch ts).runAll ess = g at hs1 hl1 ht1 hlen1
  rw [hbuf] at ht1
  have H : g.m_workers.length ≤ g.m_tasks.count none := by
    rw [ht1, hlen1, List.count_append]
    simp
  have hd := round_during hs1 hl1 H es (by rw [hlen1]; exact hes)
  have hblen : g.m_tasks.length = ts.length + g0.m_workers.length := by
    rw [ht1]; simp
  obtain ⟨hstate, hclaims⟩ := hd
  have hcl : ∀ c ∈ g.claims es, c.2 < ts.length + g0.m_workers.length := by
    intro c hc
    have := (hclaims c hc).1
    rw [hblen] at this
    exact this
  rcases hstate with ⟨hsame, _⟩ | ⟨⟨k2, hinv⟩, _⟩
  · rw [hsame]
    refine ⟨hblen, hcl, ?_, ?_⟩
    · intro w hw
      rw [hs1 w hw]
      simp
    · rw [countP_eq_zero_of_asleep hs1 awake rfl]
      exact Nat.zero_le _
  · refine ⟨by rw [hinv.tasks]; exact hblen, hcl, ?_, ?_⟩
    · intro w hw hf
      have := hinv.pcs w hw
      obtain ⟨l, pc⟩ := w
      simp only at hf
      subst hf
      simp [running] at this
    · rw [hinv.tasks, ht1, trailing_left]
      have hcur := hinv.cur
      rw [hblen] at hcur
      have h1 := trailing_claimed ts g0.m_workers.length _ hcur
      have h2 := hinv.bal
      rw [ht1] at h2
      have h3 := hinv.kle
      rw [hlen1] at h3
      omega

/-- Witness for C22: two workers, three tasks, one drained round (`demoRound`)
and fourteen events into a second one: the claims of the second round so far
are the indices 0, 1, 2, all below `3 + 2`. -/
theorem reads_in_bounds_witness :
    allBlocked (sleeping 2) = true
      ∧ (sleeping 2).m_living = true
      ∧ areRounds ((sleeping 2).SetBatch [some 10, some 11, some 12]) [demoRound] = true
      ∧ inConsume (sleeping 2).m_workers.length (demoRound.take 14) = true
      ∧ (((sleeping 2).SetBatch [some 10, some 11, some 12]).runAll [demoRound]).claims
          (demoRound.take 14) = [(0, 0), (1, 1), (0, 2)]
      ∧ (∀ c ∈ (((sleeping 2).SetBatch [some 10, some 11, some 12]).runAll [demoRound]).claims
          (demoRound.take 14), c.2 < [some 10, some 11, some 12].length
            + (sleeping 2).m_workers.length) :=
  ⟨by decide, by decide, by decide, by decide, by decide,
    (reads_in_bounds (sleeping 2) [some 10, some 11, some 12] [demoRound] (demoRound.take 14)
      (by decide) (by decide) (by decide) (by decide)).2.1⟩

/-- What a drained round establishes when `W` null entries or more come before
some entry of the batch: the cursor stops before that entry. -/
theorem round_stops_early {g : BatchedWorkerGroup} {pre rest : List Task} {es : List Event}
    (hs : asleep g) (hl : g.m_living = true)
    (ht : g.m_tasks = pre ++ rest)
    (hnull : g.m_workers.length ≤ pre.count none)
    (hes : es.filter Event.isMain = consumeProgram g.m_workers.length)
    (hq : quiescent (g.run es) = true) :
    asleep (g.run es) ∧ (g.run es).m_cursor ≤ pre.length
      ∧ (∀ c ∈ g.claims es, c.2 < pre.length)
      ∧ ∀ t, (g.run es).log.count t
          = g.log.count t + (pre.take (g.run es).m_cursor).count (some t) := by
  have H : g.m_workers.length ≤ g.m_tasks.count none := by
    rw [ht, List.count_append]
    omega
  have hinv := round_inv hs hl H es hes
  obtain ⟨_, _, hc⟩ := hinv.drained hq
  have hd := round_during hs hl H es (inConsume_of_eq hes)
  have hpast : ∀ j, pre.length ≤ j → ¬ (g.m_tasks.take j).count none < g.m_workers.length := by
    intro j hj hlt
    rw [ht, List.take_append_eq_append_take, List.take_of_length_le hj, List.count_append] at hlt
    omega
  have hcur : (g.run es).m_cursor ≤ pre.length := by
    rcases hd.1 with ⟨_, hnone⟩ | ⟨_, hb⟩
    · rw [hes] at hnone
      simp [consumeProgram] at hnone
    · by_contra hgt
      exact hpast pre.length (Nat.le_refl _) (hb pre.length (by omega))
  refine ⟨hinv.quiet hq, hcur, ?_, ?_⟩
  · intro c hcm
    by_contra hge
    exact hpast c.2 (by omega) (hd.2 c hcm).2
  · intro t
    rw [hc t, ht, List.take_append_eq_append_take]
    have : (g.run es).m_cursor - pre.length = 0 := by omega
    rw [this]
    simp

/-- C24: a worker that fetches a null task calls nothing and goes to sleep on
its lock, wherever in the buffer the null task is (inside the batch of the
caller or among the end markers). So for a sleeping group of `W` workers and a
batch with at least `W` null entries before a task `t`: a round can be run to
its end, and at the end of every drained round all workers are asleep, the
cursor has stopped at or before the slot of `t`, no claim reached that slot,
and the calls made are those of the tasks claimed before it (none of `t` when
`t` does not occur earlier in the batch). And for a batch with fewer than `W`
null entries in all, a round can be run to its end and every drained round
has called each non-null task of the batch. -/
theorem null_task_ends_round (g0 : BatchedWorkerGroup)
    (hsleep : allBlocked g0 = true) (hliving : g0.m_living = true) :
    (∀ (g : BatchedWorkerGroup) (i : Nat) (l : Bool),
        g.m_workers[i]? = some ⟨l, .fetch⟩ → g.m_tasks[g.m_cursor]? = some none →
        ((g.WorkerRoutine i).WorkerRoutine i).m_workers[i]? = some ⟨true, .spin⟩
          ∧ ((g.WorkerRoutine i).WorkerRoutine i).log = g.log
          ∧ ((g.WorkerRoutine i).WorkerRoutine i).m_cursor = g.m_cursor + 1)
      ∧ (∀ (pre post : List Task) (t : TaskId), g0.m_workers.length ≤ pre.count none →
          (∃ es, es.filter Event.isMain = consumeProgram g0.m_workers.length
              ∧ quiescent ((g0.SetBatch (pre ++ some t :: post)).run es) = true)
            ∧ ∀ es, es.filter Event.isMain = consumeProgram g0.m_workers.length →
                quiescent ((g0.SetBatch (pre ++ some t :: post)).run es) = true →
                allBlocked ((g0.SetBatch (pre ++ some t :: post)).run es) = true
                  ∧ ((g0.SetBatch (pre ++ some t :: post)).run es).m_cursor ≤ pre.length
                  ∧ (∀ c ∈ (g0.SetBatch (pre ++ some t :: post)).claims es, c.2 < pre.length)
                  ∧ (∀ t2, ((g0.SetBatch (pre ++ some t :: post)).run es).log.count t2
                      = g0.log.count t2
                        + (pre.take ((g0.SetBatch (pre ++ some t :: post)).run es).m_cursor).count
                            (some t2))
                  ∧ (some t ∉ pre →
                      ((g0.SetBatch (pre ++ some t :: post)).run es).log.count t
                        = g0.log.count t))
      ∧ (∀ ts : List Task, ts.count none < g0.m_workers.length →
          (∃ es, es.filter Event.isMain = consumeProgram g0.m_workers.length
              ∧ quiescent ((g0.SetBatch ts).run es) = true)
            ∧ ∀ es, es.filter Event.isMain = consumeProgram g0.m_workers.length →
                quiescent ((g0.SetBatch ts).run es) = true →
                allBlocked ((g0.SetBatch ts).run es) = true
                  ∧ ∀ t, ((g0.SetBatch ts).run es).log.count t
                      = g0.log.count t + ts.count (some t)) := by
  have hs := asleep_of_allBlocked hsleep
  refine ⟨?_, ?_, ?_⟩
  · intro g i l hw hn
    have h1 : g.WorkerRoutine i
        = { g with m_cursor := g.m_cursor + 1 }.setWorker i ⟨l, .park⟩ := by
      rw [step_fetch hw, hn]
    have hw1 : (g.WorkerRoutine i).m_workers[i]? = some ⟨l, .park⟩ := by
      rw [h1]
      exact @setWorker_get { g with m_cursor := g.m_cursor + 1 } i _ _ hw
    have h2 := step_park hw1
    refine ⟨?_, ?_, ?_⟩
    · rw [h2]; exact setWorker_get _ hw1
    · rw [h2, h1]; rfl
    · rw [h2, h1]; rfl
  · intro pre post t hnull
    refine ⟨@round_exists (g0.SetBatch (pre ++ some t :: post)) hs hliving
      (SetBatch_nulls g0 _), ?_⟩
    intro es hes hq
    have ht : (g0.SetBatch (pre ++ some t :: post)).m_tasks
        = pre ++ (some t :: post ++ List.replicate g0.m_workers.length none) := by
      show addEndMarkers _ _ = _
      rw [addEndMarkers_eq]
      simp
    obtain ⟨h1, h2, h3, h4⟩ :=
      @round_stops_early (g0.SetBatch (pre ++ some t :: post)) pre _ es hs hliving ht hnull
        hes hq
    refine ⟨allBlocked_of_asleep h1, h2, h3, h4, ?_⟩
    intro hnot
    rw [h4 t]
    have : (pre.take ((g0.SetBatch (pre ++ some t :: post)).run es).m_cursor).count (some t)
        = 0 := List.count_eq_zero.mpr (fun hm => hnot (List.mem_of_mem_take hm))
    rw [this]
    rfl
  · intro ts hnull
    refine ⟨@round_exists (g0.SetBatch ts) hs hliving (SetBatch_nulls g0 ts), ?_⟩
    intro es hes hq
    have hp := @round_post (g0.SetBatch ts) ts es hs hliving (addEndMarkers_eq _ _) hnull hes hq
    exact ⟨allBlocked_of_asleep hp.1, hp.2.2.2.2.2⟩

/-- Witness for C24: one worker and the batch `[t10, null, t11]`: after the
round `nullRound` the worker is asleep, the cursor is 2 and task 11 was not
called. Two workers and the batch `[t10, t11, t12, null]` (a trailing null as
in `TestBatched`): after `demoRound` tasks 10, 11 and 12 were each called
once. -/
theorem null_task_ends_round_witness :
    (allBlocked (sleeping 1) = true ∧ (sleeping 1).m_living = true
      ∧ (sleeping 1).m_workers.length ≤ [some 10, none].count none
      ∧ nullRound.filter Event.isMain = consumeProgram (sleeping 1).m_workers.length
      ∧ quiescent (((sleeping 1).SetBatch ([some 10, none] ++ some 11 :: [])).run nullRound)
          = true
      ∧ (((sleeping 1).SetBatch ([some 10, none] ++ some 11 :: [])).run nullRound).m_cursor
          ≤ [some 10, none].length
      ∧ (((sleeping 1).SetBatch ([some 10, none] ++ some 11 :: [])).run nullRound).log.count 11
          = (sleeping 1).log.count 11
      ∧ (((sleeping 1).SetBatch ([some 10, none] ++ some 11 :: [])).run nullRound).log = [10])
    ∧ (allBlocked (sleeping 2) = true ∧ (sleeping 2).m_living = true
      ∧ [some 10, some 11, some 12, none].count none < (sleeping 2).m_workers.length
      ∧ demoRound.filter Event.isMain = consumeProgram (sleeping 2).m_workers.length
      ∧ quiescent (((sleeping 2).SetBatch [some 10, some 11, some 12, none]).run demoRound)
          = true
      ∧ ∀ t, (((sleeping 2).SetBatch [some 10, some 11, some 12, none]).run demoRound).log.count t
          = (sleeping 2).log.count t + [some 10, some 11, some 12, none].count (some t)) :=
  ⟨⟨by decide, by decide, by decide, by decide, by decide,
      (((null_task_ends_round (sleeping 1) (by decide) (by decide)).2.1 [some 10, none] []
        11 (by decide)).2 nullRound (by decide) (by decide)).2.1,
      (((null_task_ends_round (sleeping 1) (by decide) (by decide)).2.1 [some 10, none] []
        11 (by decide)).2 nullRound (by decide) (by decide)).2.2.2.2 (by decide),
      by decide⟩,
    ⟨by decide, by decide, by decide, by decide, by decide,
      (((null_task_ends_round (sleeping 2) (by decide) (by decide)).2.2
        [some 10, some 11, some 12, none] (by decide)).2 demoRound (by decide) (by decide)).2⟩⟩

end BatchedWorkerGroup

end Daemon
